import Mathlib

/-!
Verification of key claims about `torchrl/envs/utils.py`: the time-step
transition engine (`step_mdp` and its stateful variant `_StepMDP`), the
episode-boundary aggregators, the end-of-trajectory reset aggregation and
the reset-merge engine.

The structured batch (`tensordict.TensorDict`) is shallowly embedded as a
finitely branching tree of named entries whose leaves carry scalar or
vector payloads.  Nested key paths are kept in canonical (already
unraveled) form as lists of string segments, mirroring the code's use of
`unravel_key`.  Devices, dtypes, trailing leaf shapes and the lazily
stacked variant are not modelled here (the stacked variant is modelled
separately for the heterogeneous-shape error-handling claim); batch shape
is modelled as a single leading dimension for the vector payloads.
-/

set_option maxHeartbeats 1000000
set_option maxRecDepth 8000

namespace TorchRL

/-- Payload of a tensor leaf: scalar or vector booleans and integers
(vectors model a one-dimensional batch dimension; `vbb` models a tensor
with one extra trailing dimension beyond the batch shape). -/
inductive Val where
  | b (x : Bool)
  | i (n : Int)
  | vb (bs : List Bool)
  | vi (ns : List Int)
  | vbb (bss : List (List Bool))
deriving DecidableEq, Repr

abbrev Key := String

/-- A canonical (unraveled) nested key path, as produced by
`tensordict.unravel_key`: a tuple of string segments. -/
abbrev KPath := List Key

/-- Structured batch: the shallow embedding of `TensorDict` used by the
transition engine and the aggregators.  A node is an ordered association
list of named entries (Python dicts preserve insertion order). -/
inductive TD where
  | leaf (v : Val)
  | node (es : List (Key × TD))

namespace TD

/-- Association-list lookup of a single key among the entries of a node,
first occurrence wins (Python dict lookup). -/
def findEntry : List (Key × TD) → Key → Option TD
  | [], _ => none
  | e :: rest, k => if e.1 = k then some e.2 else findEntry rest k

/-- `TensorDict._get_str(key, default=None)` restricted to one level. -/
def get : TD → Key → Option TD
  | .leaf _, _ => none
  | .node es, k => findEntry es k

/-- Replace the value of a key in place if present, else append
(`dict.__setitem__` ordering semantics). -/
def setEntry : List (Key × TD) → Key → TD → List (Key × TD)
  | [], k, v => [(k, v)]
  | e :: rest, k, v => if e.1 = k then (k, v) :: rest else e :: setEntry rest k v

/-- `TensorDict._set_str` at one level (setting into a leaf is dead code
kept total). -/
def set : TD → Key → TD → TD
  | .leaf v, _, _ => .leaf v
  | .node es, k, v => .node (setEntry es k v)

/-- Full nested lookup: `get(())` of an empty path returns the batch itself. -/
def getPath : TD → KPath → Option TD
  | t, [] => some t
  | t, k :: rest =>
    match t.get k with
    | some sub => sub.getPath rest
    | none => none

/-- Keys of the root level, in order (`TensorDict.keys()`). -/
def keys : TD → List Key
  | .leaf _ => []
  | .node es => es.map Prod.fst

mutual

/-- Leaf key paths, nested and leaves-only, in traversal order: the model
of `TensorDict.keys(include_nested=True, leaves_only=True)`. -/
def leafPaths : TD → List KPath
  | .leaf _ => [[]]
  | .node es => leafPathsList es

def leafPathsList : List (Key × TD) → List KPath
  | [] => []
  | (k, t) :: rest =>
    (match t with
     | .leaf _ => [[k]]
     | .node _ => (leafPaths t).map (fun p => k :: p)) ++ leafPathsList rest

end

/-- Value of the leaf at a full key path, if that path denotes a leaf. -/
def leafGet : TD → KPath → Option Val
  | .leaf v, [] => some v
  | .leaf _, _ :: _ => none
  | .node _, [] => none
  | .node es, k :: rest =>
    match findEntry es k with
    | some sub => sub.leafGet rest
    | none => none

mutual

/-- Well-formedness of a batch: every node has pairwise distinct entry
names (Python dicts cannot hold duplicate keys). -/
def wfB : TD → Bool
  | .leaf _ => true
  | .node es => nodupKeysB es && wfListB es

def nodupKeysB : List (Key × TD) → Bool
  | [] => true
  | e :: rest => rest.all (fun f => decide (f.1 ≠ e.1)) && nodupKeysB rest

def wfListB : List (Key × TD) → Bool
  | [] => true
  | e :: rest => wfB e.2 && wfListB rest

end

end TD

/-! ### The transition engine: `step_mdp` and helpers (utils.py 232-479) -/

mutual

/-- Body of `_set` (utils.py 440-479) once the value of `key` has been
fetched from the source: copy the entry named `key` into `dest`, skipping
any nested path that appears in `excluded`, and report whether anything
non-empty was copied.  The heterogeneous-stack fallback of the original
(`except RuntimeError`) concerns lazily stacked batches, which this plain
tree model does not contain; it is modelled separately below. -/
def _setEntry (val : TD) (dest : TD) (key : Key) (total_key : KPath)
    (excluded : List KPath) : Bool × TD :=
  let tk := total_key ++ [key]
  if tk ∈ excluded then (false, dest)
  else
    match val with
    | .leaf v => (true, dest.set key (.leaf v))
    | .node kvs =>
      let new_val := (dest.get key).getD (.node [])
      let r := _setList kvs new_val tk excluded
      if r.1 then (true, dest.set key r.2) else (false, dest)

/-- The loop `for subkey in val.keys(): non_empty_local = _set(...) or
non_empty_local` inside `_set`. -/
def _setList (kvs : List (Key × TD)) (new_val : TD) (tk : KPath)
    (excluded : List KPath) : Bool × TD :=
  match kvs with
  | [] => (false, new_val)
  | (k, v) :: rest =>
    let r1 := _setEntry v new_val k tk excluded
    let r2 := _setList rest r1.2 tk excluded
    (r1.1 || r2.1, r2.2)

end

/-- `_set(source, dest, key, total_key, excluded)` (utils.py 440-479). -/
def _set (source dest : TD) (key : Key) (total_key : KPath)
    (excluded : List KPath) : Bool × TD :=
  match source.get key with
  | some val => _setEntry val dest key total_key excluded
  | none => (false, dest)

/-- `_set_single_key` (utils.py 402-437): walk one already-unraveled key
path, materialising missing intermediate nodes, and copy the leaf (the
`clone`/`device` options and the lazily stacked fallback are outside this
model). -/
def _set_single_key (source dest : TD) (key : KPath) : TD :=
  match key with
  | [] => dest
  | k :: rest =>
    match source.get k with
    | none => dest
    | some val =>
      match val with
      | .node _ =>
        let new_val := (dest.get k).getD (.node [])
        dest.set k (_set_single_key val new_val rest)
      | .leaf v => _set_single_key source (dest.set k (.leaf v)) rest
termination_by key.length

/-- The exclusion set shared by `step_mdp` (utils.py 376-382) and
`_StepMDP.__init__` (utils.py 116-124): the union of the reward / done /
action key lists gated by the respective `exclude_*` flags.  Only
membership in this collection is ever used, so the Python `set` is
modelled as a list. -/
def mkExcluded (exclude_reward exclude_done exclude_action : Bool)
    (reward_keys done_keys action_keys : List KPath) : List KPath :=
  (if exclude_reward then reward_keys else []) ++
  (if exclude_done then done_keys else []) ++
  (if exclude_action then action_keys else [])

/-- `step_mdp` (utils.py 232-399) for a plain (non-stacked) batch with no
destination batch, key arguments already in list form.  `None` models the
error raised when the `"next"` sub-batch is absent (or is not a
sub-batch): a precondition violation in the original. -/
def step_mdp (tensordict : TD) (keep_other exclude_reward exclude_done
    exclude_action : Bool)
    (reward_keys done_keys action_keys : List KPath) : Option TD :=
  let excluded := mkExcluded exclude_reward exclude_done exclude_action
    reward_keys done_keys action_keys
  match tensordict.get "next" with
  | some (.node nes) =>
    let next_td := TD.node nes
    let out : TD := .node []
    let out :=
      if keep_other then
        tensordict.keys.foldl
          (fun o k => if k = "next" then o else (_set tensordict o k [] excluded).2) out
      else if !exclude_action then
        action_keys.foldl (fun o a => _set_single_key tensordict o a) out
      else out
    let out := next_td.keys.foldl (fun o k => (_set next_td o k [] excluded).2) out
    some out
  | _ => none

/-! ### The stateful engine `_StepMDP` (utils.py 88-229) -/

/-- The nested key-presence tree produced by
`_StepMDP._repr_key_list_as_tree`: each entry maps a segment to `none`
(leaf: copy this path verbatim) or to a subtree. -/
inductive KTree where
  | mk (es : List (Key × Option KTree))

namespace KTree

def findE : List (Key × Option KTree) → Key → Option (Option KTree)
  | [], _ => none
  | e :: rest, k => if e.1 = k then some e.2 else findE rest k

def setE : List (Key × Option KTree) → Key → Option KTree → List (Key × Option KTree)
  | [], k, v => [(k, v)]
  | e :: rest, k, v => if e.1 = k then (k, v) :: rest else e :: setE rest k v

/-- Insert one unraveled path, as the nested-`TensorDict` construction in
`_repr_key_list_as_tree` does. -/
def insertPath : KTree → KPath → KTree
  | t, [] => t
  | .mk es, k :: rest =>
    if rest.isEmpty then .mk (setE es k none)
    else
      let sub :=
        match findE es k with
        | some (some t) => t
        | _ => KTree.mk []
      .mk (setE es k (some (insertPath sub rest)))

end KTree

/-- `_StepMDP._repr_key_list_as_tree` (utils.py 170-175). -/
def _repr_key_list_as_tree (keys : List KPath) : KTree :=
  keys.foldl KTree.insertPath (.mk [])

mutual

/-- `_StepMDP._grab_and_place` (utils.py 177-202): tree-driven copy from
`data_in` into `data_out`.  `none` models the exception raised when a
tree path is missing from the data (`NO_DEFAULT`) or reaches a tensor
where a sub-batch is required; the lazily stacked branch is outside this
model. -/
def _grab_and_place (t : KTree) (data_in data_out : TD) : Option TD :=
  match t with
  | .mk es => grabList es data_in data_out

def grabList (es : List (Key × Option KTree)) (data_in data_out : TD) : Option TD :=
  match es with
  | [] => some data_out
  | (key, subdict) :: rest =>
    match data_in.get key with
    | none => none
    | some val =>
      match subdict with
      | none => grabList rest data_in (data_out.set key val)
      | some sub =>
        let val_out := (data_out.get key).getD (.node [])
        match val with
        | .leaf _ => none
        | .node _ =>
          match _grab_and_place sub val val_out with
          | none => none
          | some v => grabList rest data_in (data_out.set key v)

end

/-- The key lists the stateful engine reads off the environment at
construction time (`env.action_keys`, `env.done_keys`, `env.reward_keys`,
`env.full_observation_spec.keys(True, True)`,
`env.full_state_spec.keys(True, True)`), already unraveled. -/
structure EnvKeys where
  action_keys : List KPath
  done_keys : List KPath
  reward_keys : List KPath
  observation_keys : List KPath
  state_keys : List KPath

/-- The immutable part of a `_StepMDP` instance after `__init__`
(utils.py 96-141); the mutable `validated` flag is threaded separately. -/
structure StepMDPConf where
  action_keys : List KPath
  done_keys : List KPath
  reward_keys : List KPath
  observation_keys : List KPath
  state_keys : List KPath
  excluded : List KPath
  keep_other : Bool
  exclude_action : Bool
  keys_from_root : KTree
  keys_from_next : KTree

namespace StepMDP

/-- `_StepMDP.__init__` (utils.py 96-141). -/
def init (env : EnvKeys) (keep_other exclude_reward exclude_done
    exclude_action : Bool) : StepMDPConf :=
  let keys_from_next := env.observation_keys ++
    (if !exclude_reward then env.reward_keys else []) ++
    (if !exclude_done then env.done_keys else [])
  let keys_from_root := (if !exclude_action then env.action_keys else []) ++
    (if keep_other then env.state_keys else [])
  { action_keys := env.action_keys
    done_keys := env.done_keys
    reward_keys := env.reward_keys
    observation_keys := env.observation_keys
    state_keys := env.state_keys
    excluded := mkExcluded exclude_reward exclude_done exclude_action
      env.reward_keys env.done_keys env.action_keys
    keep_other := keep_other
    exclude_action := exclude_action
    keys_from_root := _repr_key_list_as_tree keys_from_root
    keys_from_next := _repr_key_list_as_tree keys_from_next }

/-- The expected full key set compared against the data inside
`_StepMDP.validate` (utils.py 148-156): declared root keys plus their
`"next"`-prefixed counterparts. -/
def expected (s : StepMDPConf) : List KPath :=
  s.state_keys ++ s.action_keys ++ s.done_keys ++ s.observation_keys ++
  s.observation_keys.map (fun p => "next" :: p) ++
  s.done_keys.map (fun p => "next" :: p) ++
  s.reward_keys.map (fun p => "next" :: p)

/-- Set equality of two path collections (`set(expected) == actual`). -/
def eqAsSetB (l1 l2 : List KPath) : Bool :=
  l1.all (fun p => decide (p ∈ l2)) && l2.all (fun p => decide (p ∈ l1))

/-- `_StepMDP.validate` (utils.py 143-168) as a state transformer on the
cached `validated` flag.  Output: (returned result, whether the warning
was emitted on this call, new flag).  The function is total: a mismatch
warns, it never raises. -/
def validate (validated : Option Bool) (s : StepMDPConf) (td : TD) :
    Bool × Bool × Option Bool :=
  match validated with
  | some true => (true, false, some true)
  | some false => (false, false, some false)
  | none =>
    let ok := eqAsSetB (expected s) td.leafPaths
    (ok, !ok, some ok)

/-- `_StepMDP.__call__` (utils.py 204-229) on a plain batch, threading the
mutable `validated` flag.  `none` models the error on a missing (or
non-sub-batch) `"next"` entry. -/
def call (s : StepMDPConf) (validated : Option Bool) (tensordict : TD) :
    Option TD × Option Bool :=
  match tensordict.get "next" with
  | some (.node nes) =>
    let next_td := TD.node nes
    let out : TD := .node []
    let v := validate validated s tensordict
    if v.1 then
      match _grab_and_place s.keys_from_root tensordict out with
      | none => (none, v.2.2)
      | some out1 =>
        match _grab_and_place s.keys_from_next next_td out1 with
        | none => (none, v.2.2)
        | some out2 => (some out2, v.2.2)
    else
      let out :=
        if s.keep_other then
          tensordict.keys.foldl
            (fun o k => if k = "next" then o else (_set tensordict o k [] s.excluded).2) out
        else if !s.exclude_action then
          s.action_keys.foldl (fun o a => _set_single_key tensordict o a) out
        else out
      let out := next_td.keys.foldl (fun o k => (_set next_td o k [] s.excluded).2) out
      (some out, v.2.2)
  | _ => (none, validated)

end StepMDP

/-! ### Claims C3 and C4 -/

/-- The concrete batch of testable-property scenario A (also the
`step_mdp` docstring example, utils.py 283-294). -/
def tdC4 : TD := .node [
  ("done", .leaf (.b false)),
  ("reward", .leaf (.i 0)),
  ("extra", .leaf (.i 0)),
  ("action", .leaf (.i 0)),
  ("next", .node [("done", .leaf (.b false)), ("reward", .leaf (.i 0)),
                  ("obs", .leaf (.i 1))]),
  ("obs", .leaf (.i 0))]

/-- C4: on the batch `{done: false, reward: 0, extra: 0, action: 0,
next: {done: false, reward: 0, obs: 1}, obs: 0}`, `step_mdp` with the
default configuration (`keep_other = true`, `exclude_reward = true`,
`exclude_done = false`, `exclude_action = true`) returns exactly
`{done: false, extra: 0, obs: 1}`: reward and action are dropped, `obs`
carries the value 1 promoted from the `next` sub-batch, and `done`
carries the `next` sub-batch's value. -/
theorem step_mdp_concrete_scenario_A :
    step_mdp tdC4 true true false true [["reward"]] [["done"]] [["action"]]
      = some (TD.node [("done", .leaf (.b false)), ("extra", .leaf (.i 0)),
                       ("obs", .leaf (.i 1))])
    ∧ TD.leafGet tdC4 ["next", "obs"] = some (.i 1)
    ∧ TD.leafGet tdC4 ["obs"] = some (.i 0) := by
  exact ⟨rfl, rfl, rfl⟩

/-- C3: the stateful engine's key-set validation is cached.  On a first
call (flag unchecked) it compares the batch's full nested leaf key set
with the expected set derived from the declared keys, warns exactly on a
mismatch (it never raises: `validate` is total), and stores the outcome;
on any later call the cached flag is returned unchanged with no warning.
Hence the flag only ever moves from unchecked to valid or from unchecked
to fallback, and never changes afterwards (also across `__call__`). -/
theorem StepMDP.validate_flag_permanent (s : StepMDPConf) (td td' : TD)
    (f : Option Bool) (b : Bool) :
    StepMDP.validate (some b) s td = (b, false, some b)
    ∧ StepMDP.validate none s td =
        (StepMDP.eqAsSetB (StepMDP.expected s) td.leafPaths,
         !StepMDP.eqAsSetB (StepMDP.expected s) td.leafPaths,
         some (StepMDP.eqAsSetB (StepMDP.expected s) td.leafPaths))
    ∧ (StepMDP.validate f s td).2.2 = some (StepMDP.validate f s td).1
    ∧ (StepMDP.validate (StepMDP.validate f s td).2.2 s td').2.2
        = (StepMDP.validate f s td).2.2
    ∧ (StepMDP.call s (some b) td).2 = some b := by
  refine ⟨by cases b <;> rfl, rfl, ?_, ?_, ?_⟩
  · rcases f with _ | b <;> [rfl; (cases b <;> rfl)]
  · rcases f with _ | b
    · simp only [StepMDP.validate]
      cases StepMDP.eqAsSetB (StepMDP.expected s) td.leafPaths <;> rfl
    · cases b <;> rfl
  · unfold StepMDP.call
    cases h : td.get "next" with
    | none => rfl
    | some nt => cases nt with
      | leaf v => rfl
      | node nes =>
        cases b <;> simp only [StepMDP.validate] <;>
          repeat first
            | rfl
            | split

/-! ### End-of-trajectory aggregation: `_aggregate_end_of_traj`
(utils.py 1156-1209).  The batch shape is modelled as one leading
dimension of size `batch_size` (so `n = len(batch_size) = 1`), vector
payloads living along it and `vbb` carrying one extra trailing
dimension. -/

/-- `torchrl._utils._replace_last`: replace the last segment of an
unraveled key path. -/
def _replace_last (p : KPath) (k : Key) : KPath := p.dropLast ++ [k]

/-- Number of dimensions of a payload in this model. -/
def Val.ndim : Val → Nat
  | .b _ => 0
  | .i _ => 0
  | .vb _ => 1
  | .vi _ => 1
  | .vbb _ => 2

/-- `local_reset.flatten(n, local_reset.ndim - 1).any(-1)` for a payload
with one extra trailing dimension beyond the batch dimension. -/
def Val.flattenAny : Val → Val
  | .vbb bss => .vb (bss.map (fun r => r.any id))
  | v => v

/-- Elementwise/broadcast boolean `|` between reset payloads (the
combinations outside boolean scalar/vector never arise in the verified
statements and default to the left operand). -/
def Val.orV : Val → Val → Val
  | .b x, .b y => .b (x || y)
  | .b x, .vb ys => .vb (ys.map (fun y => x || y))
  | .vb xs, .b y => .vb (xs.map (fun x => x || y))
  | .vb xs, .vb ys => .vb (List.zipWith (fun a c => a || c) xs ys)
  | v, _ => v

/-- `.any()` of a payload. -/
def Val.anyV : Val → Bool
  | .b x => x
  | .i n => decide (n ≠ 0)
  | .vb bs => bs.any id
  | .vi ns => ns.any (fun m => decide (m ≠ 0))
  | .vbb bss => bss.any (fun r => r.any id)

/-- `.all()` of a payload. -/
def Val.allV : Val → Bool
  | .b x => x
  | .i n => decide (n ≠ 0)
  | .vb bs => bs.all id
  | .vi ns => ns.all (fun m => decide (m ≠ 0))
  | .vbb bss => bss.all (fun r => r.all id)

/-- `PARTIAL_MISSING_ERR` (utils.py 1156). -/
def PARTIAL_MISSING_ERR : String :=
  "Some reset keys were present but not all. Either all the _reset entries must be present, or none."

/-- Payload of a batch entry; a sub-batch found where a tensor is
expected is dead code in the verified statements and defaults to a false
scalar. -/
def TD.leafValD : TD → Val
  | .leaf v => v
  | .node _ => .b false

/-- The `for key in reset_keys` loop of `_aggregate_end_of_traj`
(utils.py 1171-1184), threading the `reset` accumulator and the
three-valued `has_missing` flag. -/
def aggLoop (data : TD) : List KPath → Val → Option Bool →
    Except String (Val × Option Bool)
  | [], reset, has_missing => .ok (reset, has_missing)
  | key :: rest, reset, has_missing =>
    match data.getPath key with
    | none =>
      if has_missing = some false then .error PARTIAL_MISSING_ERR
      else aggLoop data rest reset (some true)
    | some lr =>
      if has_missing = some true then .error PARTIAL_MISSING_ERR
      else
        let lr0 := lr.leafValD
        let lr1 := if lr0.ndim > 1 then lr0.flattenAny else lr0
        aggLoop data rest (reset.orV lr1) (some false)

mutual

/-- `skim_through` (utils.py 1191-1206): schema-less scan for `"_reset"`
entries (a `"_reset"` entry that is itself a sub-batch is dead code here
and is skipped). -/
def skim (td : TD) (reset : Val) : Val :=
  match td with
  | .leaf _ => reset
  | .node es => skimList es reset

def skimList : List (Key × TD) → Val → Val
  | [], reset => reset
  | (k, t) :: rest, reset =>
    let reset1 :=
      if k = "_reset" then
        match t with
        | .leaf v => reset.orV (if v.ndim > 1 then v.flattenAny else v)
        | .node _ => reset
      else
        match t with
        | .node _ => skim t reset
        | .leaf _ => reset
    skimList rest reset1

end

/-- `_aggregate_end_of_traj(data, reset_keys, done_keys)`
(utils.py 1159-1209). -/
def _aggregate_end_of_traj (data : TD) (batch_size : Nat)
    (reset_keys done_keys : Option (List KPath)) : Except String Val :=
  let reset_keys :=
    match done_keys, reset_keys with
    | some dk, none => some (dk.map (fun k => _replace_last k "done"))
    | _, rk => rk
  match reset_keys with
  | some ks =>
    match aggLoop data ks (.b false) none with
    | .error e => .error e
    | .ok (reset, has_missing) =>
      if has_missing = some true then .ok (.vb (List.replicate batch_size true))
      else .ok reset
  | none => .ok (skim data (.b false))

/-! ### Claims C9 and C10 -/

theorem aggLoop_present_after_missing (data : TD) :
    ∀ (l : List KPath) (r : Val), (∃ k ∈ l, (data.getPath k).isSome) →
      aggLoop data l r (some true) = .error PARTIAL_MISSING_ERR := by
  intro l
  induction l with
  | nil => rintro r ⟨k, hk, _⟩; exact absurd hk (List.not_mem_nil k)
  | cons key rest ih =>
    rintro r ⟨k, hk, hp⟩
    rcases List.mem_cons.1 hk with rfl | hk
    · rcases hs : data.getPath k with _ | lr
      · rw [hs] at hp; exact absurd hp (by simp)
      · simp [aggLoop, hs]
    · rcases hs : data.getPath key with _ | lr
      · simpa [aggLoop, hs] using ih r ⟨k, hk, hp⟩
      · simp [aggLoop, hs]

theorem aggLoop_missing_after_present (data : TD) :
    ∀ (l : List KPath) (r : Val), (∃ k ∈ l, data.getPath k = none) →
      aggLoop data l r (some false) = .error PARTIAL_MISSING_ERR := by
  intro l
  induction l with
  | nil => rintro r ⟨k, hk, _⟩; exact absurd hk (List.not_mem_nil k)
  | cons key rest ih =>
    rintro r ⟨k, hk, hp⟩
    rcases List.mem_cons.1 hk with rfl | hk
    · simp [aggLoop, hp]
    · rcases hs : data.getPath key with _ | lr
      · simp [aggLoop, hs]
      · simpa [aggLoop, hs] using ih _ ⟨k, hk, hp⟩

/-- C9: when `_aggregate_end_of_traj` receives expected reset key paths
(directly or derived from done keys) and some but not all of them are
present in the batch, it fails with the dedicated partial-missing error,
whatever the order of present and absent keys in the list. -/
theorem aggregate_end_of_traj_partial_missing (data : TD) (bs : Nat)
    (ks : List KPath) (dk : Option (List KPath)) (k1 k2 : KPath)
    (h1 : k1 ∈ ks) (h2 : k2 ∈ ks)
    (hp : (data.getPath k1).isSome = true) (ha : data.getPath k2 = none) :
    _aggregate_end_of_traj data bs (some ks) dk = .error PARTIAL_MISSING_ERR := by
  suffices h : aggLoop data ks (.b false) none = .error PARTIAL_MISSING_ERR by
    unfold _aggregate_end_of_traj
    rcases dk with _ | dk <;> simp only [] <;> rw [h]
  clear dk
  induction ks with
  | nil => exact absurd h1 (List.not_mem_nil k1)
  | cons key rest ih =>
    rcases hs : data.getPath key with _ | lr
    · have hk1 : k1 ∈ rest := by
        rcases List.mem_cons.1 h1 with rfl | h
        · rw [hs] at hp; exact absurd hp (by simp)
        · exact h
      simpa [aggLoop, hs] using
        aggLoop_present_after_missing data rest _ ⟨k1, hk1, hp⟩
    · have hk2 : k2 ∈ rest := by
        rcases List.mem_cons.1 h2 with rfl | h
        · rw [hs] at ha; exact absurd ha (by simp)
        · exact h
      simpa [aggLoop, hs] using
        aggLoop_missing_after_present data rest _ ⟨k2, hk2, ha⟩

/-- Witness for C9 at a concrete input: reset keys `a` (present) and `b`
(absent). -/
theorem aggregate_end_of_traj_partial_missing_witness :
    _aggregate_end_of_traj (.node [("a", .leaf (.vb [false]))]) 1
        (some [["a"], ["b"]]) none = .error PARTIAL_MISSING_ERR :=
  aggregate_end_of_traj_partial_missing _ 1 _ none ["a"] ["b"]
    (by decide) (by decide) rfl rfl

theorem aggLoop_all_missing (data : TD) :
    ∀ (l : List KPath) (r : Val), (∀ k ∈ l, data.getPath k = none) →
      aggLoop data l r (some true) = .ok (r, some true) := by
  intro l
  induction l with
  | nil => intro r _; rfl
  | cons key rest ih =>
    intro r hall
    have hs : data.getPath key = none := hall key (by simp)
    simpa [aggLoop, hs] using ih r (fun k hk => hall k (List.mem_cons_of_mem _ hk))

/-- C10: when `_aggregate_end_of_traj` receives a non-empty expected
reset key list none of whose paths is present in the batch, it neither
raises nor returns all-false: it returns an all-true boolean tensor of
the batch shape (a fully absent reset-key set means reset everything). -/
theorem aggregate_end_of_traj_all_missing (data : TD) (bs : Nat)
    (ks : List KPath) (dk : Option (List KPath))
    (hne : ks ≠ []) (hall : ∀ k ∈ ks, data.getPath k = none) :
    _aggregate_end_of_traj data bs (some ks) dk
      = .ok (.vb (List.replicate bs true)) := by
  suffices h : aggLoop data ks (.b false) none = .ok (.b false, some true) by
    unfold _aggregate_end_of_traj
    rcases dk with _ | dk <;> simp only [] <;> rw [h] <;> rfl
  rcases ks with _ | ⟨key, rest⟩
  · exact absurd rfl hne
  · have hs : data.getPath key = none := hall key (by simp)
    simpa [aggLoop, hs] using
      aggLoop_all_missing data rest _ (fun k hk => hall k (List.mem_cons_of_mem _ hk))

/-- Witness for C10 at a concrete input: both reset keys absent, batch
size 2, result all-true of size 2. -/
theorem aggregate_end_of_traj_all_missing_witness :
    _aggregate_end_of_traj (.node [("x", .leaf (.i 3))]) 2
        (some [["a"], ["b"]]) none = .ok (.vb [true, true]) :=
  aggregate_end_of_traj_all_missing _ 2 _ none (by decide)
    (by
      intro k hk
      simp only [List.mem_cons, List.not_mem_nil, or_false] at hk
      rcases hk with rfl | rfl <;> rfl)

/-! ### Episode-boundary aggregation: `_terminated_or_truncated`
(utils.py 908-1034).  The inner walk is split per source structure into
the first scan over the items (collecting the direct done-category
aggregate), the recursion over sub-batches, and the final write; done
payloads are scalar booleans in this model (the squeeze of a trailing
singleton dimension, utils.py 1021-1024, is a no-op here). -/

/-- `eot_key in ("terminated", "truncated", "done")`. -/
def isDoneName (k : Key) : Bool := k = "terminated" || k = "truncated" || k = "done"

/-- The done-spec tree (`full_done_spec`): a `CompositeSpec` whose items
are either nested `CompositeSpec`s or leaf specs. -/
inductive FSpec where
  | leafSpec
  | comp (es : List (Key × FSpec))

def FSpec.isLeaf : FSpec → Bool
  | .leafSpec => true
  | .comp _ => false

/-- First loop of the schema-less `inner_terminated_or_truncated`
(utils.py 968-980): fold the direct done-category leaves into
`aggregate` and count them (`found_leaf`).  A done-named entry that is
itself a sub-batch makes the original compute `aggregate | sub_batch`,
which is not meaningful; it is modelled as a failure. -/
def pass1NS : List (Key × TD) → Option Val → Nat → Option (Option Val × Nat)
  | [], agg, fl => some (agg, fl)
  | (k, t) :: rest, agg, fl =>
    if isDoneName k then
      match t with
      | .leaf v => pass1NS rest (some ((agg.getD (.b false)).orV v)) (fl + 1)
      | .node _ => none
    else pass1NS rest agg fl

/-- Final write of one walk level (utils.py 1019-1027): write the
aggregate under the destination key (when a destination was given),
record the written path, and fold `aggregate.any()` into the result. -/
def finalizeAgg (key? : Option Key) (aggregate : Option Val)
    (r : Bool × TD × List KPath) : Bool × TD × List KPath :=
  match aggregate with
  | none => r
  | some a =>
    match key? with
    | some kk => (r.1 || a.anyV, r.2.1.set kk (.leaf a), r.2.2 ++ [[kk]])
    | none => (r.1 || a.anyV, r.2.1, r.2.2)

mutual

/-- Schema-less `inner_terminated_or_truncated` (utils.py 965-1028 with
`full_done_spec is None`), on one node of the batch; returns (any end of
trajectory, updated node, written destination paths relative to this
node). -/
def innerNS (key? : Option Key) (data : TD) : Option (Bool × TD × List KPath) :=
  match data with
  | .leaf _ => none
  | .node es =>
    match pass1NS es none 0 with
    | none => none
    | some p1 =>
      match pass2NS key? es (.node es) p1.2 with
      | none => none
      | some r => some (finalizeAgg key? p1.1 r)

/-- Recursion over the collected sub-batches (utils.py 981-990): the
sub-batches are exactly the non-done-named node entries, in order; a
child's end-of-trajectory result feeds the parent's only when the parent
found no direct done leaf. -/
def pass2NS (key? : Option Key) (es : List (Key × TD)) (data : TD)
    (found_leaf : Nat) : Option (Bool × TD × List KPath) :=
  match es with
  | [] => some (false, data, [])
  | (k, t) :: rest =>
    if isDoneName k then pass2NS key? rest data found_leaf
    else
      match t with
      | .leaf _ => pass2NS key? rest data found_leaf
      | .node _ =>
        match innerNS key? t with
        | none => none
        | some r =>
          match pass2NS key? rest (data.set k r.2.1) found_leaf with
          | none => none
          | some rrest =>
            some ((if found_leaf = 0 then r.1 || rrest.1 else rrest.1),
                  rrest.2.1, (r.2.2.map (fun p => k :: p)) ++ rrest.2.2)

end

/-- First loop of the schema-driven `inner_terminated_or_truncated`
(utils.py 992-1006): leaf specs contribute the matching data entry (an
all-false default when absent) to `aggregate` and are counted; a leaf
spec whose data entry is a sub-batch is modelled as a failure as above. -/
def pass1S (data : TD) : List (Key × FSpec) → Option Val → Nat →
    Option (Option Val × Nat)
  | [], agg, fl => some (agg, fl)
  | (k, s) :: rest, agg, fl =>
    match s with
    | .comp _ => pass1S data rest agg fl
    | .leafSpec =>
      match data.get k with
      | some (.node _) => none
      | some (.leaf v) => pass1S data rest (some ((agg.getD (.b false)).orV v)) (fl + 1)
      | none => pass1S data rest (some ((agg.getD (.b false)).orV (.b false))) (fl + 1)

mutual

/-- Schema-driven `inner_terminated_or_truncated` (utils.py 991-1017):
the walk follows the spec tree; `data.get(eot_key)` on a missing or
non-sub-batch entry under a composite spec is the error case. -/
def innerS (key? : Option Key) (spec : FSpec) (data : TD) :
    Option (Bool × TD × List KPath) :=
  match spec with
  | .leafSpec => none
  | .comp ses =>
    match pass1S data ses none 0 with
    | none => none
    | some p1 =>
      match pass2S key? ses data p1.2 with
      | none => none
      | some r => some (finalizeAgg key? p1.1 r)

/-- Recursion over the composite spec entries (utils.py 1008-1017). -/
def pass2S (key? : Option Key) (ses : List (Key × FSpec)) (data : TD)
    (found_leaf : Nat) : Option (Bool × TD × List KPath) :=
  match ses with
  | [] => some (false, data, [])
  | (k, s) :: rest =>
    match s with
    | .leafSpec => pass2S key? rest data found_leaf
    | .comp _ =>
      match data.get k with
      | some t@(.node _) =>
        match innerS key? s t with
        | none => none
        | some r =>
          match pass2S key? rest (data.set k r.2.1) found_leaf with
          | none => none
          | some rrest =>
            some ((if found_leaf = 0 then rrest.1 || r.1 else rrest.1),
                  rrest.2.1, (r.2.2.map (fun p => k :: p)) ++ rrest.2.2)
      | _ => none

end

/-- Remove the entry at one full key path (one key of
`TensorDict.exclude`); parents are kept. -/
def TD.removeEntry (p : KPath) (t : TD) : TD :=
  match p with
  | [] => t
  | k :: rest =>
    match t with
    | .leaf v => .leaf v
    | .node es =>
      if rest.isEmpty then .node (es.filter (fun e => decide (e.1 ≠ k)))
      else .node (es.map (fun e => if e.1 = k then (e.1, TD.removeEntry rest e.2) else e))

/-- `data.exclude(*list_of_keys, inplace=True)` (utils.py 1033). -/
def TD.excludeAll (t : TD) (l : List KPath) : TD :=
  l.foldl (fun t p => TD.removeEntry p t) t

/-- `_terminated_or_truncated(data, full_done_spec, key, write_full_false)`
(utils.py 908-1034). -/
def _terminated_or_truncated (data : TD) (full_done_spec : Option FSpec)
    (key? : Option Key) (write_full_false : Bool) : Option (Bool × TD) :=
  match (match full_done_spec with
         | none => innerNS key? data
         | some sp => innerS key? sp data) with
  | none => none
  | some r =>
    if !r.1 && !write_full_false then some (r.1, r.2.1.excludeAll r.2.2)
    else some (r.1, r.2.1)

/-! ### Spec-side notions for claims C2 and C5 -/

mutual

/-- Whether any done-category leaf anywhere in the tree is true: the
reading of C2 as stated. -/
def anyTrueDoneLeafB : TD → Bool
  | .leaf _ => false
  | .node es => anyTrueDoneLeafListB es

def anyTrueDoneLeafListB : List (Key × TD) → Bool
  | [] => false
  | (k, t) :: rest =>
    (match t with
     | .leaf v => isDoneName k && v.anyV
     | .node _ => anyTrueDoneLeafB t) || anyTrueDoneLeafListB rest

end

/-- Whether a node has a direct done-category entry (`found_leaf` would
be non-zero there). -/
def hasDirectDone (es : List (Key × TD)) : Bool := es.any (fun e => isDoneName e.1)

/-- Logical OR of a node's direct done-category leaves. -/
def directAnyB (es : List (Key × TD)) : Bool :=
  es.any (fun e => isDoneName e.1 && e.2.leafValD.anyV)

mutual

/-- The precedence-aware rollup of the schema-less walk: a node with
direct done-category leaves contributes exactly their OR; only a node
with no direct done leaf bubbles up the OR of its sub-batches'
rollups. -/
def effAnyNS : TD → Bool
  | .leaf _ => false
  | .node es => if hasDirectDone es then directAnyB es else childAnyNS es

def childAnyNS : List (Key × TD) → Bool
  | [] => false
  | (k, t) :: rest =>
    (if isDoneName k then false
     else
       match t with
       | .node _ => effAnyNS t
       | .leaf _ => false) || childAnyNS rest

end

/-- Count of direct done-category entries (`found_leaf`). -/
def countDone (es : List (Key × TD)) : Nat := es.countP (fun e => isDoneName e.1)

mutual

/-- Done-category payloads are scalar booleans wherever they occur
(done-named entries are never sub-batches): well-formedness for the
schema-less walk. -/
def wfDoneB : TD → Bool
  | .leaf _ => true
  | .node es => wfDoneListB es

def wfDoneListB : List (Key × TD) → Bool
  | [] => true
  | (k, t) :: rest =>
    (if isDoneName k then
       match t with
       | .leaf (.b _) => true
       | _ => false
     else
       match t with
       | .node _ => wfDoneB t
       | .leaf _ => true) && wfDoneListB rest

end

def hasLeafSpecB (ses : List (Key × FSpec)) : Bool := ses.any (fun e => e.2.isLeaf)

/-- OR of the data entries at a spec node's leaf-spec keys (absent
entries default to false, as the all-false default tensor does). -/
def directAnyS (data : TD) (ses : List (Key × FSpec)) : Bool :=
  ses.any (fun e => e.2.isLeaf &&
    (match data.get e.1 with
     | some t => t.leafValD.anyV
     | none => false))

/-- Count of leaf specs among a spec node's entries. -/
def countLeafSpec (ses : List (Key × FSpec)) : Nat := ses.countP (fun e => e.2.isLeaf)

mutual

/-- The precedence-aware rollup of the schema-driven walk. -/
def effAnyS : FSpec → TD → Bool
  | .leafSpec, _ => false
  | .comp ses, data =>
    if hasLeafSpecB ses then directAnyS data ses else childAnyS ses data

def childAnyS : List (Key × FSpec) → TD → Bool
  | [], _ => false
  | (k, s) :: rest, data =>
    (match s with
     | .leafSpec => false
     | .comp _ =>
       match data.get k with
       | some t => effAnyS s t
       | none => false) || childAnyS rest data

end

mutual

/-- The data matches the done spec: composite spec entries are present
sub-batches, leaf spec entries are absent or scalar-boolean leaves. -/
def specMatchB : FSpec → TD → Bool
  | .leafSpec, _ => true
  | .comp ses, data => specMatchListB ses data

def specMatchListB : List (Key × FSpec) → TD → Bool
  | [], _ => true
  | (k, s) :: rest, data =>
    (match s with
     | .leafSpec =>
       match data.get k with
       | none => true
       | some (.leaf (.b _)) => true
       | _ => false
     | .comp _ =>
       match data.get k with
       | some (.node es2) => specMatchB s (.node es2)
       | _ => false) && specMatchListB rest data

end

mutual

/-- Entry names are pairwise distinct at every level of the spec. -/
def specNodupB : FSpec → Bool
  | .leafSpec => true
  | .comp ses => nodupKeysSB ses && specNodupListB ses

def nodupKeysSB : List (Key × FSpec) → Bool
  | [] => true
  | e :: rest => rest.all (fun f => decide (f.1 ≠ e.1)) && nodupKeysSB rest

def specNodupListB : List (Key × FSpec) → Bool
  | [] => true
  | e :: rest => specNodupB e.2 && specNodupListB rest

end

mutual

/-- All full key paths of entries whose last segment is `k0`, at any
nesting level. -/
def namedPaths (t : TD) (k0 : Key) : List KPath :=
  match t with
  | .leaf _ => []
  | .node es => namedPathsList es k0

def namedPathsList : List (Key × TD) → Key → List KPath
  | [], _ => []
  | (k1, t) :: rest, k0 =>
    (if k1 = k0 then [[k1]] else []) ++ (namedPaths t k0).map (fun p => k1 :: p)
      ++ namedPathsList rest k0

end

/-- The C2 counterexample batch: a node with a direct false done leaf
and a nested sub-batch whose done leaf is true. -/
def dataC2 : TD :=
  .node [("done", .leaf (.b false)), ("nested", .node [("done", .leaf (.b true))])]

/-- C2 counterexample: on `{done: false, nested: {done: true}}` the
aggregator returns `false` although a done leaf in the tree is true —
the parent's direct (all-false) done leaves suppress the nested true
leaf from the top-level result (utils.py 989-990: the child's result is
dropped when `found_leaf` is non-zero). -/
theorem terminated_or_truncated_missed_nested_true :
    (_terminated_or_truncated dataC2 none (some "_reset") false).map Prod.fst
      = some false
    ∧ anyTrueDoneLeafB dataC2 = true := ⟨rfl, rfl⟩

/-- The C5 counterexample batch: all done leaves false, but a
pre-existing `_reset` entry sits in a sub-batch that has no done
leaves. -/
def dataC5 : TD :=
  .node [("done", .leaf (.b false)), ("sub", .node [("_reset", .leaf (.b true))])]

/-- C5 counterexample: on `{done: false, sub: {_reset: true}}` with
`write_full_false = false` the overall result is false, yet the returned
batch still contains a destination (`_reset`) entry at a nested level:
the cleanup only removes the keys the walk itself wrote. -/
theorem terminated_or_truncated_residual_reset :
    _terminated_or_truncated dataC5 none (some "_reset") false
      = some (false, dataC5)
    ∧ namedPaths dataC5 "_reset" = [["sub", "_reset"]] := ⟨rfl, rfl⟩

/-! ### Helper lemmas on the structured-batch operations -/

theorem TD.findEntry_setEntry (es : List (Key × TD)) (k k' : Key) (v : TD) :
    TD.findEntry (TD.setEntry es k v) k' =
      if k' = k then some v else TD.findEntry es k' := by
  induction es with
  | nil =>
    by_cases h : k' = k
    · simp [TD.setEntry, TD.findEntry, h]
    · have h2 : ¬(k = k') := fun hh => h hh.symm
      simp [TD.setEntry, TD.findEntry, h, h2]
  | cons e rest ih =>
    by_cases he : e.1 = k
    · by_cases h : k' = k
      · simp [TD.setEntry, TD.findEntry, he, h]
      · have h2 : ¬(k = k') := fun hh => h hh.symm
        have h3 : ¬(e.1 = k') := by rw [he]; exact h2
        simp [TD.setEntry, TD.findEntry, he, h, h2, h3]
    · by_cases h : k' = e.1
      · have h4 : ¬(k' = k) := fun hh => he (h.symm.trans hh)
        have h5 : e.1 = k' := h.symm
        simp [TD.setEntry, TD.findEntry, he, h5, h4]
      · have h6 : ¬(e.1 = k') := fun hh => h hh.symm
        simp [TD.setEntry, TD.findEntry, he, h6, ih]

theorem TD.get_set_self (es : List (Key × TD)) (k : Key) (v : TD) :
    ((TD.node es).set k v).get k = some v := by
  simp [TD.set, TD.get, TD.findEntry_setEntry]

theorem TD.get_set_ne (t : TD) (k k' : Key) (v : TD) (h : k' ≠ k) :
    (t.set k v).get k' = t.get k' := by
  cases t with
  | leaf w => rfl
  | node es => simp [TD.set, TD.get, TD.findEntry_setEntry, h]

theorem TD.mem_of_findEntry {es : List (Key × TD)} {k : Key} {t : TD}
    (h : TD.findEntry es k = some t) : (k, t) ∈ es := by
  induction es with
  | nil => simp [TD.findEntry] at h
  | cons e rest ih =>
    by_cases he : e.1 = k
    · simp only [TD.findEntry, he, if_pos] at h
      cases h
      have hpe : (k, e.2) = e := by rw [← he]
      rw [hpe]
      exact List.mem_cons_self e rest
    · simp only [TD.findEntry, he, if_neg, not_false_iff] at h
      exact List.mem_cons_of_mem _ (ih h)

theorem TD.findEntry_of_mem_nodup {es : List (Key × TD)} {k : Key} {t : TD}
    (hnd : TD.nodupKeysB es = true) (h : (k, t) ∈ es) :
    TD.findEntry es k = some t := by
  induction es with
  | nil => exact absurd h (List.not_mem_nil _)
  | cons e rest ih =>
    simp only [TD.nodupKeysB, Bool.and_eq_true, List.all_eq_true] at hnd
    rcases List.mem_cons.1 h with heq | h
    · rw [← heq]
      simp [TD.findEntry]
    · have hne : e.1 ≠ k := by
        have h2 := hnd.1 (k, t) h
        simp only [decide_eq_true_eq] at h2
        exact fun hh => h2 hh.symm
      simp only [TD.findEntry, hne, if_neg, not_false_iff]
      exact ih hnd.2 h

theorem TD.wfListB_of_mem {es : List (Key × TD)} {e : Key × TD}
    (hwf : TD.wfListB es = true) (h : e ∈ es) : TD.wfB e.2 = true := by
  induction es with
  | nil => exact absurd h (List.not_mem_nil _)
  | cons f rest ih =>
    simp only [TD.wfListB, Bool.and_eq_true] at hwf
    rcases List.mem_cons.1 h with rfl | h
    · exact hwf.1
    · exact ih hwf.2 h

theorem TD.wfB_node {es : List (Key × TD)} (h : TD.wfB (.node es) = true) :
    TD.nodupKeysB es = true ∧ TD.wfListB es = true := by
  simpa [TD.wfB, Bool.and_eq_true] using h

/-! ### Lemmas about `namedPaths` -/

theorem mem_namedPathsList_cons {e : Key × TD} {rest : List (Key × TD)}
    {k0 : Key} {q : KPath} :
    q ∈ namedPathsList (e :: rest) k0 ↔
      (q = [e.1] ∧ e.1 = k0) ∨ (∃ q', q = e.1 :: q' ∧ q' ∈ namedPaths e.2 k0)
        ∨ q ∈ namedPathsList rest k0 := by
  rcases e with ⟨k1, t⟩
  by_cases h : k1 = k0 <;>
    simp [namedPathsList, h, List.mem_append, or_assoc, and_comm, eq_comm]

theorem namedPathsList_ne_nil {es : List (Key × TD)} {k0 : Key} {q : KPath}
    (h : q ∈ namedPathsList es k0) : q ≠ [] := by
  induction es with
  | nil => simp [namedPathsList] at h
  | cons e rest ih =>
    rcases mem_namedPathsList_cons.1 h with ⟨rfl, _⟩ | ⟨q', rfl, _⟩ | h
    · simp
    · simp
    · exact ih h

theorem namedPaths_ne_nil {t : TD} {k0 : Key} {q : KPath}
    (h : q ∈ namedPaths t k0) : q ≠ [] := by
  cases t with
  | leaf v => simp [namedPaths] at h
  | node es =>
    rw [namedPaths] at h
    exact namedPathsList_ne_nil h

theorem mem_namedPaths_set {es : List (Key × TD)} {k k0 : Key} {v : TD} {q : KPath}
    (h : q ∈ namedPaths ((TD.node es).set k v) k0) :
    (q = [k] ∧ k = k0) ∨ (∃ q', q = k :: q' ∧ q' ∈ namedPaths v k0)
      ∨ q ∈ namedPaths (.node es) k0 := by
  induction es with
  | nil =>
    simp only [TD.set, TD.setEntry, namedPaths] at h ⊢
    rcases mem_namedPathsList_cons.1 h with h | h | h
    · exact Or.inl h
    · exact Or.inr (Or.inl h)
    · simp [namedPathsList] at h
  | cons e rest ih =>
    by_cases he : e.1 = k
    · simp only [TD.set, TD.setEntry, he, if_pos, namedPaths] at h ⊢
      rcases mem_namedPathsList_cons.1 h with h | h | h
      · exact Or.inl h
      · exact Or.inr (Or.inl h)
      · exact Or.inr (Or.inr (mem_namedPathsList_cons.2 (Or.inr (Or.inr h))))
    · simp only [TD.set, TD.setEntry, he, if_neg, not_false_iff, namedPaths] at h ⊢
      rcases mem_namedPathsList_cons.1 h with h | h | h
      · exact Or.inr (Or.inr (mem_namedPathsList_cons.2 (Or.inl h)))
      · exact Or.inr (Or.inr (mem_namedPathsList_cons.2 (Or.inr (Or.inl h))))
      · have := ih (by simpa [TD.set, namedPaths] using h)
        rcases this with h1 | h1 | h1
        · exact Or.inl h1
        · exact Or.inr (Or.inl h1)
        · exact Or.inr (Or.inr (mem_namedPathsList_cons.2 (Or.inr (Or.inr h1))))

theorem mem_namedPaths_of_get {es : List (Key × TD)} {k k0 : Key} {t : TD}
    (hg : (TD.node es).get k = some t) {q' : KPath}
    (h : q' ∈ namedPaths t k0) : (k :: q') ∈ namedPaths (.node es) k0 := by
  induction es with
  | nil => simp [TD.get, TD.findEntry] at hg
  | cons e rest ih =>
    rw [namedPaths, mem_namedPathsList_cons]
    by_cases he : e.1 = k
    · simp only [TD.get, TD.findEntry, he, if_pos] at hg
      cases hg
      exact Or.inr (Or.inl ⟨q', by rw [he], h⟩)
    · simp only [TD.get, TD.findEntry, he, if_neg, not_false_iff] at hg
      have hmem := ih hg
      rw [namedPaths] at hmem
      exact Or.inr (Or.inr hmem)

theorem mem_namedPaths_self_of_get {es : List (Key × TD)} {k0 : Key} {t : TD}
    (hg : (TD.node es).get k0 = some t) : [k0] ∈ namedPaths (.node es) k0 := by
  induction es with
  | nil => simp [TD.get, TD.findEntry] at hg
  | cons e rest ih =>
    rw [namedPaths, mem_namedPathsList_cons]
    by_cases he : e.1 = k0
    · exact Or.inl ⟨by rw [he], he⟩
    · simp only [TD.get, TD.findEntry, he, if_neg, not_false_iff] at hg
      have hmem := ih hg
      rw [namedPaths] at hmem
      exact Or.inr (Or.inr hmem)

theorem namedPathsList_filter_subset {f : Key × TD → Bool} {k0 : Key} :
    ∀ {es : List (Key × TD)} {q : KPath},
    q ∈ namedPathsList (es.filter f) k0 → q ∈ namedPathsList es k0 := by
  intro es
  induction es with
  | nil => intro q h; simpa using h
  | cons e rest ih =>
    intro q h
    rw [mem_namedPathsList_cons]
    rw [List.filter_cons] at h
    by_cases hf : f e
    · rw [if_pos hf] at h
      rcases mem_namedPathsList_cons.1 h with h1 | h1 | h1
      · exact Or.inl h1
      · exact Or.inr (Or.inl h1)
      · exact Or.inr (Or.inr (ih h1))
    · rw [if_neg hf] at h
      exact Or.inr (Or.inr (ih h))

theorem namedPathsList_mapRemove_subset {rest : KPath} {k k0 : Key}
    (ihp : ∀ {t : TD} {q : KPath},
      q ∈ namedPaths (TD.removeEntry rest t) k0 → q ∈ namedPaths t k0) :
    ∀ {es : List (Key × TD)} {q : KPath},
    q ∈ namedPathsList
        (es.map (fun e => if e.1 = k then (e.1, TD.removeEntry rest e.2) else e)) k0 →
    q ∈ namedPathsList es k0 := by
  intro es
  induction es with
  | nil => intro q h; simpa using h
  | cons e rest2 ih =>
    intro q h
    rw [List.map_cons] at h
    rw [mem_namedPathsList_cons]
    by_cases he : e.1 = k
    · rw [if_pos he] at h
      rcases mem_namedPathsList_cons.1 h with h1 | h1 | h1
      · exact Or.inl h1
      · exact Or.inr (Or.inl ⟨h1.choose, h1.choose_spec.1, ihp h1.choose_spec.2⟩)
      · exact Or.inr (Or.inr (ih h1))
    · rw [if_neg he] at h
      rcases mem_namedPathsList_cons.1 h with h1 | h1 | h1
      · exact Or.inl h1
      · exact Or.inr (Or.inl h1)
      · exact Or.inr (Or.inr (ih h1))

theorem mem_namedPaths_removeEntry : ∀ {p : KPath} {t : TD} {k0 : Key} {q : KPath},
    q ∈ namedPaths (TD.removeEntry p t) k0 → q ∈ namedPaths t k0 := by
  intro p
  induction p with
  | nil => intro t k0 q h; simpa [TD.removeEntry] using h
  | cons k rest ih =>
    intro t k0 q h
    cases t with
    | leaf v => simpa [TD.removeEntry] using h
    | node es =>
      rw [TD.removeEntry] at h
      by_cases hre : rest.isEmpty
      · rw [if_pos hre] at h
        rw [namedPaths] at h ⊢
        exact namedPathsList_filter_subset h
      · rw [if_neg hre] at h
        rw [namedPaths] at h ⊢
        exact namedPathsList_mapRemove_subset (fun hh => ih hh) h

theorem namedPathsList_singleton_key {k0 k : Key} :
    ∀ {es : List (Key × TD)}, [k] ∈ namedPathsList es k0 → ∃ t, (k, t) ∈ es := by
  intro es
  induction es with
  | nil => intro h; simp [namedPathsList] at h
  | cons e rest ih =>
    intro h
    rcases mem_namedPathsList_cons.1 h with ⟨h1, _⟩ | ⟨q', h1, h2⟩ | h1
    · have he : e.1 = k := (List.head_eq_of_cons_eq h1).symm
      exact ⟨e.2, by rw [← he]; exact List.mem_cons_self e rest⟩
    · have hq : q' = [] := List.tail_eq_of_cons_eq h1.symm
      exact absurd hq (namedPaths_ne_nil h2)
    · rcases ih h1 with ⟨t, ht⟩
      exact ⟨t, List.mem_cons_of_mem _ ht⟩

theorem not_mem_namedPaths_removeEntry_self :
    ∀ {p : KPath} {t : TD} {k0 : Key}, p ≠ [] →
    p ∉ namedPaths (TD.removeEntry p t) k0 := by
  intro p
  induction p with
  | nil => intro t k0 h; exact absurd rfl h
  | cons k rest ih =>
    intro t k0 _
    cases t with
    | leaf v => simp [TD.removeEntry, namedPaths]
    | node es =>
      rw [TD.removeEntry]
      by_cases hre : rest.isEmpty
      · rw [if_pos hre]
        have hrest : rest = [] := by
          cases rest with
          | nil => rfl
          | cons a b => simp [List.isEmpty] at hre
        subst hrest
        intro h
        rw [namedPaths] at h
        rcases namedPathsList_singleton_key h with ⟨t1, ht1⟩
        have := List.of_mem_filter ht1
        simp at this
      · rw [if_neg hre]
        have hrest : rest ≠ [] := by
          intro hh
          subst hh
          simp [List.isEmpty] at hre
        intro h
        rw [namedPaths] at h
        induction es with
        | nil => simp [namedPathsList] at h
        | cons e rest2 ih2 =>
          rw [List.map_cons] at h
          rcases mem_namedPathsList_cons.1 h with ⟨h1, _⟩ | ⟨q', h1, h2⟩ | h1
          · exact hrest (List.tail_eq_of_cons_eq h1)
          · have hq : q' = rest := (List.tail_eq_of_cons_eq h1).symm
            subst hq
            by_cases he : e.1 = k
            · rw [if_pos he] at h2
              exact ih hrest h2
            · rw [if_neg he] at h1 h2
              exact he (List.head_eq_of_cons_eq h1).symm
          · exact ih2 h1

theorem mem_namedPaths_excludeAll {k0 : Key} :
    ∀ {L : List KPath} {t : TD} {q : KPath},
    q ∈ namedPaths (t.excludeAll L) k0 → q ∈ namedPaths t k0 := by
  intro L
  induction L with
  | nil => intro t q h; simpa [TD.excludeAll] using h
  | cons p rest ih =>
    intro t q h
    have h2 : q ∈ namedPaths (TD.removeEntry p t) k0 := ih h
    exact mem_namedPaths_removeEntry h2

theorem not_mem_namedPaths_excludeAll {k0 : Key} :
    ∀ {L : List KPath} {t : TD} {q : KPath}, q ∈ L → q ≠ [] →
    q ∉ namedPaths (t.excludeAll L) k0 := by
  intro L
  induction L with
  | nil => intro t q hq _; exact absurd hq (List.not_mem_nil q)
  | cons p rest ih =>
    intro t q hq hne h
    rcases List.mem_cons.1 hq with rfl | hq
    · have h2 : q ∈ namedPaths (TD.removeEntry q t) k0 := mem_namedPaths_excludeAll h
      exact not_mem_namedPaths_removeEntry_self hne h2
    · exact ih hq hne h

/-! ### Walk lemmas for claim C5: every entry named `k0` in the batch a
walk returns either already existed in the input or its path was
recorded in the list of written keys. -/

theorem pass2NS_writes {k0 : Key} {key? : Option Key} :
    ∀ (es : List (Key × TD)) (data : TD) (fl : Nat) (b : Bool) (d : TD)
      (keys : List KPath),
    pass2NS key? es data fl = some (b, d, keys) →
    (∀ e ∈ es, ∀ (b' : Bool) (d' : TD) (keys' : List KPath), TD.wfB e.2 = true →
      innerNS key? e.2 = some (b', d', keys') →
      (∀ q ∈ namedPaths d' k0, q ∈ namedPaths e.2 k0 ∨ q ∈ keys')
        ∧ (∀ p ∈ keys', p ≠ [])) →
    TD.wfListB es = true →
    TD.nodupKeysB es = true →
    (∀ e ∈ es, data.get e.1 = some e.2) →
    (∀ q ∈ namedPaths d k0, q ∈ namedPaths data k0 ∨ q ∈ keys)
      ∧ (∀ p ∈ keys, p ≠ []) := by
  intro es
  induction es with
  | nil =>
    intro data fl b d keys h _ _ _ _
    simp only [pass2NS, Option.some.injEq] at h
    rcases h with ⟨_, rfl, rfl⟩
    exact ⟨fun q hq => Or.inl hq, by simp⟩
  | cons e rest ih =>
    rcases e with ⟨k, t⟩
    intro data fl b d keys h hrec hwfes hnd hres
    have hndr : TD.nodupKeysB rest = true := by
      simp only [TD.nodupKeysB, Bool.and_eq_true] at hnd
      exact hnd.2
    have hkne : ∀ e2 ∈ rest, e2.1 ≠ k := by
      intro e2 he2
      simp only [TD.nodupKeysB, Bool.and_eq_true, List.all_eq_true] at hnd
      have := hnd.1 e2 he2
      simpa using this
    have hwfr : TD.wfListB rest = true := by
      simp only [TD.wfListB, Bool.and_eq_true] at hwfes
      exact hwfes.2
    have hwft : TD.wfB t = true := by
      simp only [TD.wfListB, Bool.and_eq_true] at hwfes
      exact hwfes.1
    by_cases hdn : isDoneName k
    · simp only [pass2NS] at h
      rw [if_pos hdn] at h
      exact ih data fl b d keys h
        (fun e2 he2 => hrec e2 (List.mem_cons_of_mem _ he2)) hwfr hndr
        (fun e2 he2 => hres e2 (List.mem_cons_of_mem _ he2))
    · simp only [pass2NS] at h
      rw [if_neg hdn] at h
      cases t with
      | leaf v =>
        dsimp only at h
        exact ih data fl b d keys h
          (fun e2 he2 => hrec e2 (List.mem_cons_of_mem _ he2)) hwfr hndr
          (fun e2 he2 => hres e2 (List.mem_cons_of_mem _ he2))
      | node tes =>
        dsimp only at h
        rcases hr : innerNS key? (.node tes) with _ | r
        · rw [hr] at h
          simp at h
        · rcases r with ⟨rb, rd, rkeys⟩
          rw [hr] at h
          dsimp only at h
          rcases hrr : pass2NS key? rest (data.set k rd) fl with _ | rr
          · rw [hrr] at h
            simp at h
          · rcases rr with ⟨rrb, rrd, rrkeys⟩
            rw [hrr] at h
            dsimp only at h
            simp only [Option.some.injEq, Prod.mk.injEq] at h
            rcases h with ⟨_, rfl, rfl⟩
            have hget : data.get k = some (.node tes) :=
              hres (k, .node tes) (List.mem_cons_self _ _)
            obtain ⟨des, rfl⟩ : ∃ des, data = TD.node des := by
              cases data with
              | leaf v => simp [TD.get] at hget
              | node des => exact ⟨des, rfl⟩
            have hhead := hrec (k, .node tes) (List.mem_cons_self _ _) rb rd rkeys hwft hr
            have hih := ih (TD.node des |>.set k rd) fl rrb rrd rrkeys hrr
              (fun e2 he2 => hrec e2 (List.mem_cons_of_mem _ he2)) hwfr hndr
              (fun e2 he2 => by
                rw [TD.get_set_ne _ _ _ _ (hkne e2 he2)]
                exact hres e2 (List.mem_cons_of_mem _ he2))
            constructor
            · intro q hq
              rcases hih.1 q hq with hq1 | hq1
              · rcases mem_namedPaths_set hq1 with ⟨rfl, rfl⟩ | ⟨q', rfl, hq2⟩ | hq1
                · exact Or.inl (mem_namedPaths_self_of_get hget)
                · rcases hhead.1 q' hq2 with hq3 | hq3
                  · exact Or.inl (mem_namedPaths_of_get hget hq3)
                  · exact Or.inr (List.mem_append_left _
                      (List.mem_map_of_mem _ hq3))
                · exact Or.inl hq1
              · exact Or.inr (List.mem_append_right _ hq1)
            · intro p hp
              rcases List.mem_append.1 hp with hp | hp
              · rcases List.mem_map.1 hp with ⟨p', _, rfl⟩
                simp
              · exact hih.2 p hp

theorem innerNS_writes {k0 : Key} {key? : Option Key} :
    ∀ (n : Nat) (data : TD), sizeOf data < n → data.wfB = true →
    ∀ (b : Bool) (d : TD) (keys : List KPath),
    innerNS key? data = some (b, d, keys) →
    (∀ q ∈ namedPaths d k0, q ∈ namedPaths data k0 ∨ q ∈ keys)
      ∧ (∀ p ∈ keys, p ≠ []) := by
  intro n
  induction n with
  | zero => intro data h; omega
  | succ n ih =>
    intro data hsz hwf b d keys h
    cases data with
    | leaf v => simp [innerNS] at h
    | node es =>
      rw [innerNS] at h
      rcases hp1 : pass1NS es none 0 with _ | p1
      · rw [hp1] at h
        simp at h
      · rw [hp1] at h
        dsimp only at h
        rcases hr2 : pass2NS key? es (.node es) p1.2 with _ | r
        · rw [hr2] at h
          simp at h
        · rcases r with ⟨rb, rd, rkeys⟩
          rw [hr2] at h
          dsimp only at h
          have hw := pass2NS_writes es (.node es) p1.2 rb rd rkeys hr2
            (fun e2 he2 b' d' keys' hwfe hre => by
              refine ih e2.2 ?_ hwfe b' d' keys' hre
              have h1 : sizeOf e2 < sizeOf es := List.sizeOf_lt_of_mem he2
              have h2 : sizeOf e2.2 < sizeOf e2 := by
                rcases e2 with ⟨a, t2⟩
                simp
              have h3 : sizeOf es < sizeOf (TD.node es) := by
                simp
              omega)
            (TD.wfB_node hwf).2 (TD.wfB_node hwf).1
            (fun e2 he2 => by
              rcases e2 with ⟨a, t2⟩
              exact TD.findEntry_of_mem_nodup (TD.wfB_node hwf).1 he2)
          rcases hagg : p1.1 with _ | a
          · rw [hagg] at h
            simp only [finalizeAgg, Option.some.injEq] at h
            rcases h with ⟨_, rfl, rfl⟩
            exact hw
          · rw [hagg] at h
            cases key? with
            | none =>
              simp only [finalizeAgg, Option.some.injEq] at h
              rcases h with ⟨_, rfl, rfl⟩
              exact hw
            | some kk =>
              simp only [finalizeAgg, Option.some.injEq] at h
              rcases h with ⟨_, rfl, rfl⟩
              constructor
              · intro q hq
                cases rd with
                | leaf v => simp [TD.set, namedPaths] at hq
                | node rds =>
                  rcases mem_namedPaths_set hq with ⟨rfl, rfl⟩ | ⟨q', rfl, hq2⟩ | hq1
                  · exact Or.inr (List.mem_append_right _ (by simp))
                  · simp [namedPaths] at hq2
                  · rcases hw.1 q hq1 with hq2 | hq2
                    · exact Or.inl hq2
                    · exact Or.inr (List.mem_append_left _ hq2)
              · intro p hp
                rcases List.mem_append.1 hp with hp | hp
                · exact hw.2 p hp
                · simp only [List.mem_singleton] at hp
                  subst hp
                  simp

theorem pass2S_writes {k0 : Key} {key? : Option Key} :
    ∀ (ses : List (Key × FSpec)) (data : TD) (fl : Nat) (b : Bool) (d : TD)
      (keys : List KPath),
    pass2S key? ses data fl = some (b, d, keys) →
    (∀ e ∈ ses, ∀ (t : TD) (b' : Bool) (d' : TD) (keys' : List KPath),
      innerS key? e.2 t = some (b', d', keys') →
      (∀ q ∈ namedPaths d' k0, q ∈ namedPaths t k0 ∨ q ∈ keys')
        ∧ (∀ p ∈ keys', p ≠ [])) →
    (∀ q ∈ namedPaths d k0, q ∈ namedPaths data k0 ∨ q ∈ keys)
      ∧ (∀ p ∈ keys, p ≠ []) := by
  intro ses
  induction ses with
  | nil =>
    intro data fl b d keys h _
    simp only [pass2S, Option.some.injEq] at h
    rcases h with ⟨_, rfl, rfl⟩
    exact ⟨fun q hq => Or.inl hq, by simp⟩
  | cons e rest ih =>
    rcases e with ⟨k, s⟩
    intro data fl b d keys h hrec
    cases s with
    | leafSpec =>
      simp only [pass2S] at h
      exact ih data fl b d keys h
        (fun e2 he2 => hrec e2 (List.mem_cons_of_mem _ he2))
    | comp ces =>
      simp only [pass2S] at h
      rcases hg : data.get k with _ | t
      · rw [hg] at h
        simp at h
      · rw [hg] at h
        cases t with
        | leaf v => simp at h
        | node tes =>
          dsimp only at h
          rcases hr : innerS key? (.comp ces) (.node tes) with _ | r
          · rw [hr] at h
            simp at h
          · rcases r with ⟨rb, rd, rkeys⟩
            rw [hr] at h
            dsimp only at h
            rcases hrr : pass2S key? rest (data.set k rd) fl with _ | rr
            · rw [hrr] at h
              simp at h
            · rcases rr with ⟨rrb, rrd, rrkeys⟩
              rw [hrr] at h
              dsimp only at h
              simp only [Option.some.injEq, Prod.mk.injEq] at h
              rcases h with ⟨_, rfl, rfl⟩
              obtain ⟨des, rfl⟩ : ∃ des, data = TD.node des := by
                cases data with
                | leaf v => simp [TD.get] at hg
                | node des => exact ⟨des, rfl⟩
              have hhead := hrec (k, .comp ces) (List.mem_cons_self _ _)
                (.node tes) rb rd rkeys hr
              have hih := ih (TD.node des |>.set k rd) fl rrb rrd rrkeys hrr
                (fun e2 he2 => hrec e2 (List.mem_cons_of_mem _ he2))
              constructor
              · intro q hq
                rcases hih.1 q hq with hq1 | hq1
                · rcases mem_namedPaths_set hq1 with ⟨rfl, rfl⟩ | ⟨q', rfl, hq2⟩ | hq1
                  · exact Or.inl (mem_namedPaths_self_of_get hg)
                  · rcases hhead.1 q' hq2 with hq3 | hq3
                    · exact Or.inl (mem_namedPaths_of_get hg hq3)
                    · exact Or.inr (List.mem_append_left _
                        (List.mem_map_of_mem _ hq3))
                  · exact Or.inl hq1
                · exact Or.inr (List.mem_append_right _ hq1)
              · intro p hp
                rcases List.mem_append.1 hp with hp | hp
                · rcases List.mem_map.1 hp with ⟨p', _, rfl⟩
                  simp
                · exact hih.2 p hp

theorem innerS_writes {k0 : Key} {key? : Option Key} :
    ∀ (n : Nat) (sp : FSpec), sizeOf sp < n →
    ∀ (data : TD) (b : Bool) (d : TD) (keys : List KPath),
    innerS key? sp data = some (b, d, keys) →
    (∀ q ∈ namedPaths d k0, q ∈ namedPaths data k0 ∨ q ∈ keys)
      ∧ (∀ p ∈ keys, p ≠ []) := by
  intro n
  induction n with
  | zero => intro sp h; omega
  | succ n ih =>
    intro sp hsz data b d keys h
    cases sp with
    | leafSpec => simp [innerS] at h
    | comp ses =>
      simp only [innerS] at h
      rcases hp1 : pass1S data ses none 0 with _ | p1
      · rw [hp1] at h
        simp at h
      · rw [hp1] at h
        dsimp only at h
        rcases hr2 : pass2S key? ses data p1.2 with _ | r
        · rw [hr2] at h
          simp at h
        · rcases r with ⟨rb, rd, rkeys⟩
          rw [hr2] at h
          dsimp only at h
          have hw := pass2S_writes ses data p1.2 rb rd rkeys hr2
            (fun e2 he2 t b' d' keys' hre => by
              refine ih e2.2 ?_ t b' d' keys' hre
              have h1 : sizeOf e2 < sizeOf ses := List.sizeOf_lt_of_mem he2
              have h2 : sizeOf e2.2 < sizeOf e2 := by
                rcases e2 with ⟨a, s2⟩
                simp
              have h3 : sizeOf ses < sizeOf (FSpec.comp ses) := by
                simp
              omega)
          rcases hagg : p1.1 with _ | a
          · rw [hagg] at h
            simp only [finalizeAgg, Option.some.injEq] at h
            rcases h with ⟨_, rfl, rfl⟩
            exact hw
          · rw [hagg] at h
            cases key? with
            | none =>
              simp only [finalizeAgg, Option.some.injEq] at h
              rcases h with ⟨_, rfl, rfl⟩
              exact hw
            | some kk =>
              simp only [finalizeAgg, Option.some.injEq] at h
              rcases h with ⟨_, rfl, rfl⟩
              constructor
              · intro q hq
                cases rd with
                | leaf v => simp [TD.set, namedPaths] at hq
                | node rds =>
                  rcases mem_namedPaths_set hq with ⟨rfl, rfl⟩ | ⟨q', rfl, hq2⟩ | hq1
                  · exact Or.inr (List.mem_append_right _ (by simp))
                  · simp [namedPaths] at hq2
                  · rcases hw.1 q hq1 with hq2 | hq2
                    · exact Or.inl hq2
                    · exact Or.inr (List.mem_append_left _ hq2)
              · intro p hp
                rcases List.mem_append.1 hp with hp | hp
                · exact hw.2 p hp
                · simp only [List.mem_singleton] at hp
                  subst hp
                  simp

theorem no_residual_of_walk (data rd : TD) (rkeys : List KPath) (k0 : Key)
    (hin : namedPaths data k0 = [])
    (hW1 : ∀ q ∈ namedPaths rd k0, q ∈ namedPaths data k0 ∨ q ∈ rkeys)
    (hW2 : ∀ p ∈ rkeys, p ≠ []) :
    namedPaths (rd.excludeAll rkeys) k0 = [] := by
  rw [List.eq_nil_iff_forall_not_mem]
  intro q hq
  have h1 : q ∈ namedPaths rd k0 := mem_namedPaths_excludeAll hq
  rcases hW1 q h1 with h2 | h2
  · rw [hin] at h2
    exact absurd h2 (List.not_mem_nil q)
  · exact not_mem_namedPaths_excludeAll h2 (hW2 q h2) hq

/-- C5 (amended): when the aggregator's overall result is false and
`write_full_false` is false, every destination key written during the
walk is removed again before returning; hence when the input batch
contains no destination-named entries at all — at any nesting level —
neither does the returned batch.  (As stated the claim fails when the
input already carries a destination-named entry at a node the walk does
not write, see the counterexample.)  Holds in both schema-less and
schema-driven modes. -/
theorem terminated_or_truncated_no_residual (data : TD) (sp? : Option FSpec)
    (k0 : Key) (out : TD)
    (hwf : data.wfB = true)
    (hin : namedPaths data k0 = [])
    (hrun : _terminated_or_truncated data sp? (some k0) false = some (false, out)) :
    namedPaths out k0 = [] := by
  cases sp? with
  | none =>
    rw [_terminated_or_truncated] at hrun
    rcases hr : innerNS (some k0) data with _ | r
    · rw [hr] at hrun
      simp at hrun
    · rcases r with ⟨rb, rd, rkeys⟩
      rw [hr] at hrun
      dsimp only at hrun
      cases rb with
      | true => simp at hrun
      | false =>
        simp only [Bool.not_false, Bool.and_self, if_pos, Option.some.injEq,
          Prod.mk.injEq] at hrun
        rcases hrun with ⟨_, rfl⟩
        have hw := @innerNS_writes k0 (some k0) (sizeOf data + 1)
          data (by omega) hwf false rd rkeys hr
        exact no_residual_of_walk data rd rkeys k0 hin hw.1 hw.2
  | some sp =>
    rw [_terminated_or_truncated] at hrun
    rcases hr : innerS (some k0) sp data with _ | r
    · rw [hr] at hrun
      simp at hrun
    · rcases r with ⟨rb, rd, rkeys⟩
      rw [hr] at hrun
      dsimp only at hrun
      cases rb with
      | true => simp at hrun
      | false =>
        simp only [Bool.not_false, Bool.and_self, if_pos, Option.some.injEq,
          Prod.mk.injEq] at hrun
        rcases hrun with ⟨_, rfl⟩
        have hw := @innerS_writes k0 (some k0) (sizeOf sp + 1)
          sp (by omega) data false rd rkeys hr
        exact no_residual_of_walk data rd rkeys k0 hin hw.1 hw.2

/-- Witness for C5 (amended) at a concrete input: `{done: false}` with
destination `_reset`; the returned batch carries no `_reset` entry. -/
theorem terminated_or_truncated_no_residual_witness :
    namedPaths (TD.node [("done", TD.leaf (.b false))]) "_reset" = [] :=
  terminated_or_truncated_no_residual (TD.node [("done", TD.leaf (.b false))])
    none "_reset" (TD.node [("done", TD.leaf (.b false))]) rfl rfl rfl

/-! ### Characterization of the aggregator result for claim C2 -/

theorem hasDirectDone_countDone (es : List (Key × TD)) :
    hasDirectDone es = true ↔ countDone es ≠ 0 := by
  unfold hasDirectDone countDone
  rw [List.any_eq_true]
  constructor
  · rintro ⟨e, he, hp⟩
    have := (List.countP_pos_iff (p := fun e => isDoneName e.1) (l := es)).2 ⟨e, he, hp⟩
    omega
  · intro h
    exact (List.countP_pos_iff (p := fun e => isDoneName e.1) (l := es)).1 (by omega)

theorem pass1NS_char :
    ∀ (es : List (Key × TD)), wfDoneListB es = true →
    (∀ (a : Bool) (fl : Nat),
      pass1NS es (some (.b a)) fl
        = some (some (.b (a || directAnyB es)), fl + countDone es))
    ∧ (∀ fl : Nat,
      pass1NS es none fl
        = some ((if hasDirectDone es then some (.b (directAnyB es)) else none),
                fl + countDone es)) := by
  intro es
  induction es with
  | nil =>
    intro _
    constructor
    · intro a fl
      simp [pass1NS, directAnyB, countDone]
    · intro fl
      simp [pass1NS, hasDirectDone, countDone]
  | cons e rest ih =>
    rcases e with ⟨k, t⟩
    intro hwf
    simp only [wfDoneListB, Bool.and_eq_true] at hwf
    have ihr := ih hwf.2
    by_cases hdn : isDoneName k
    · obtain ⟨x, rfl⟩ : ∃ x, t = TD.leaf (.b x) := by
        rw [if_pos hdn] at hwf
        rcases hwf.1 with h1
        cases t with
        | node tes => simp at h1
        | leaf v =>
          cases v with
          | b x => exact ⟨x, rfl⟩
          | i m => simp at h1
          | vb bs => simp at h1
          | vi ns => simp at h1
          | vbb bss => simp at h1
      have hda : directAnyB ((k, TD.leaf (.b x)) :: rest)
          = (x || directAnyB rest) := by
        simp [directAnyB, hdn, TD.leafValD, Val.anyV]
      have hcd : countDone ((k, TD.leaf (.b x)) :: rest) = countDone rest + 1 := by
        simp [countDone, List.countP_cons, hdn]
      have hhd : hasDirectDone ((k, TD.leaf (.b x)) :: rest) = true := by
        simp [hasDirectDone, hdn]
      constructor
      · intro a fl
        simp only [pass1NS]
        rw [if_pos hdn]
        try dsimp only
        simp only [Option.getD_some, Val.orV]
        rw [ihr.1 (a || x) (fl + 1), hda, hcd]
        simp only [Option.some.injEq, Prod.mk.injEq, Val.b.injEq]
        exact ⟨Bool.or_assoc a x _, by omega⟩
      · intro fl
        simp only [pass1NS]
        rw [if_pos hdn]
        try dsimp only
        simp only [Option.getD_none, Val.orV, Bool.false_or]
        rw [ihr.1 x (fl + 1), hda, hcd, hhd]
        simp only [if_true, Option.some.injEq, Prod.mk.injEq]
        exact ⟨trivial, by omega⟩
    · have hda : directAnyB ((k, t) :: rest) = directAnyB rest := by
        simp [directAnyB, hdn]
      have hcd : countDone ((k, t) :: rest) = countDone rest := by
        simp [countDone, List.countP_cons, hdn]
      have hhd : hasDirectDone ((k, t) :: rest) = hasDirectDone rest := by
        simp [hasDirectDone, hdn]
      constructor
      · intro a fl
        simp only [pass1NS]
        rw [if_neg hdn, ihr.1 a fl, hda, hcd]
      · intro fl
        simp only [pass1NS]
        rw [if_neg hdn, ihr.2 fl, hda, hcd, hhd]

theorem pass2NS_char (key? : Option Key) :
    ∀ (es : List (Key × TD)) (data : TD) (fl : Nat),
    (∀ e ∈ es, isDoneName e.1 = false → (∃ tes, e.2 = TD.node tes) →
      wfDoneB e.2 = true →
      ∃ d keys, innerNS key? e.2 = some (effAnyNS e.2, d, keys)) →
    wfDoneListB es = true →
    ∃ d keys, pass2NS key? es data fl
      = some ((if fl = 0 then childAnyNS es else false), d, keys) := by
  intro es
  induction es with
  | nil =>
    intro data fl _ _
    refine ⟨data, [], ?_⟩
    simp [pass2NS, childAnyNS, ite_self]
  | cons e rest ih =>
    rcases e with ⟨k, t⟩
    intro data fl hrec hwf
    simp only [wfDoneListB, Bool.and_eq_true] at hwf
    by_cases hdn : isDoneName k
    · have hch : childAnyNS ((k, t) :: rest) = childAnyNS rest := by
        simp [childAnyNS, hdn]
      rcases ih data fl (fun e2 he2 => hrec e2 (List.mem_cons_of_mem _ he2))
        hwf.2 with ⟨d, keys, hd⟩
      refine ⟨d, keys, ?_⟩
      simp only [pass2NS]
      rw [if_pos hdn, hd, hch]
    · cases t with
      | leaf v =>
        have hch : childAnyNS ((k, TD.leaf v) :: rest) = childAnyNS rest := by
          simp [childAnyNS, hdn]
        rcases ih data fl (fun e2 he2 => hrec e2 (List.mem_cons_of_mem _ he2))
          hwf.2 with ⟨d, keys, hd⟩
        refine ⟨d, keys, ?_⟩
        simp only [pass2NS]
        rw [if_neg hdn]
        try dsimp only
        rw [hd, hch]
      | node tes =>
        have hwft : wfDoneB (TD.node tes) = true := by
          rw [if_neg hdn] at hwf
          exact hwf.1
        rcases hrec (k, .node tes) (List.mem_cons_self _ _)
          (by simpa using hdn) ⟨tes, rfl⟩ hwft with ⟨d1, keys1, hr1⟩
        rcases ih (data.set k d1) fl
          (fun e2 he2 => hrec e2 (List.mem_cons_of_mem _ he2)) hwf.2
          with ⟨d2, keys2, hd2⟩
        refine ⟨d2, keys1.map (fun p => k :: p) ++ keys2, ?_⟩
        simp only [pass2NS]
        rw [if_neg hdn]
        try dsimp only
        rw [hr1]
        try dsimp only
        rw [hd2]
        try dsimp only
        have hch : childAnyNS ((k, TD.node tes) :: rest)
            = (effAnyNS (.node tes) || childAnyNS rest) := by
          simp [childAnyNS, hdn]
        rcases Nat.eq_zero_or_pos fl with rfl | hfl
        · simp [hch]
        · have hne : fl ≠ 0 := by omega
          simp [hne]

theorem innerNS_char (key? : Option Key) :
    ∀ (n : Nat) (data : TD), sizeOf data < n →
    ∀ es, data = TD.node es → wfDoneListB es = true →
    ∃ d keys, innerNS key? data = some (effAnyNS data, d, keys) := by
  intro n
  induction n with
  | zero => intro data h; omega
  | succ n ih =>
    rintro data hsz es rfl hwf
    have hp1 := (pass1NS_char es hwf).2 0
    have hp2 := pass2NS_char key? es (.node es) (0 + countDone es)
      (fun e2 he2 hdn2 htes hwfe => by
        rcases htes with ⟨tes2, he⟩
        refine ih e2.2 ?_ tes2 he (by rw [he] at hwfe; simpa [wfDoneB] using hwfe)
        have h1 : sizeOf e2 < sizeOf es := List.sizeOf_lt_of_mem he2
        have h2 : sizeOf e2.2 < sizeOf e2 := by
          rcases e2 with ⟨a, t2⟩
          simp
        have h3 : sizeOf es < sizeOf (TD.node es) := by
          simp
        omega)
      hwf
    rcases hp2 with ⟨d2, keys2, hd2⟩
    by_cases hhd : hasDirectDone es
    · have hcd : countDone es ≠ 0 := (hasDirectDone_countDone es).1 hhd
      have heff : effAnyNS (.node es) = directAnyB es := by
        simp only [effAnyNS]
        rw [if_pos hhd]
      rw [if_pos hhd] at hp1
      have hfl : ¬(0 + countDone es = 0) := by omega
      rw [if_neg hfl] at hd2
      cases key? with
      | none =>
        refine ⟨d2, keys2, ?_⟩
        simp only [innerNS]
        rw [hp1]
        try dsimp only
        rw [hd2]
        try dsimp only
        rw [heff]
        simp [finalizeAgg, Val.anyV]
      | some kk =>
        refine ⟨d2.set kk (.leaf (.b (directAnyB es))), keys2 ++ [[kk]], ?_⟩
        simp only [innerNS]
        rw [hp1]
        try dsimp only
        rw [hd2]
        try dsimp only
        rw [heff]
        simp [finalizeAgg, Val.anyV]
    · have hcd : countDone es = 0 := by
        by_contra hc
        exact absurd ((hasDirectDone_countDone es).2 hc) (by simpa using hhd)
      have heff : effAnyNS (.node es) = childAnyNS es := by
        simp only [effAnyNS]
        rw [if_neg (by simpa using hhd)]
      rw [if_neg (by simpa using hhd)] at hp1
      rw [hcd, Nat.add_zero] at hp1
      rw [hcd, Nat.add_zero, if_pos rfl] at hd2
      refine ⟨d2, keys2, ?_⟩
      simp only [innerNS]
      rw [hp1]
      try dsimp only
      rw [hd2]
      try dsimp only
      rw [heff]
      simp [finalizeAgg]

theorem hasLeafSpec_countLeafSpec (ses : List (Key × FSpec)) :
    hasLeafSpecB ses = true ↔ countLeafSpec ses ≠ 0 := by
  unfold hasLeafSpecB countLeafSpec
  rw [List.any_eq_true]
  constructor
  · rintro ⟨e, he, hp⟩
    have := (List.countP_pos_iff (p := fun e => e.2.isLeaf) (l := ses)).2 ⟨e, he, hp⟩
    omega
  · intro h
    exact (List.countP_pos_iff (p := fun e => e.2.isLeaf) (l := ses)).1 (by omega)

theorem pass1S_char (data : TD) :
    ∀ (ses : List (Key × FSpec)), specMatchListB ses data = true →
    (∀ (a : Bool) (fl : Nat),
      pass1S data ses (some (.b a)) fl
        = some (some (.b (a || directAnyS data ses)), fl + countLeafSpec ses))
    ∧ (∀ fl : Nat,
      pass1S data ses none fl
        = some ((if hasLeafSpecB ses then some (.b (directAnyS data ses)) else none),
                fl + countLeafSpec ses)) := by
  intro ses
  induction ses with
  | nil =>
    intro _
    constructor
    · intro a fl
      simp [pass1S, directAnyS, countLeafSpec]
    · intro fl
      simp [pass1S, hasLeafSpecB, countLeafSpec]
  | cons e rest ih =>
    rcases e with ⟨k, s⟩
    intro hsm
    simp only [specMatchListB, Bool.and_eq_true] at hsm
    have ihr := ih hsm.2
    cases s with
    | comp ces =>
      have hda : directAnyS data ((k, FSpec.comp ces) :: rest)
          = directAnyS data rest := by
        simp [directAnyS, FSpec.isLeaf]
      have hcd : countLeafSpec ((k, FSpec.comp ces) :: rest)
          = countLeafSpec rest := by
        simp [countLeafSpec, List.countP_cons, FSpec.isLeaf]
      have hhd : hasLeafSpecB ((k, FSpec.comp ces) :: rest)
          = hasLeafSpecB rest := by
        simp [hasLeafSpecB, FSpec.isLeaf]
      constructor
      · intro a fl
        simp only [pass1S]
        rw [ihr.1 a fl, hda, hcd]
      · intro fl
        simp only [pass1S]
        rw [ihr.2 fl, hda, hcd, hhd]
    | leafSpec =>
      have hcd : countLeafSpec ((k, FSpec.leafSpec) :: rest)
          = countLeafSpec rest + 1 := by
        simp [countLeafSpec, List.countP_cons, FSpec.isLeaf]
      have hhd : hasLeafSpecB ((k, FSpec.leafSpec) :: rest) = true := by
        simp [hasLeafSpecB, FSpec.isLeaf]
      rcases hg : data.get k with _ | t
      · have hda : directAnyS data ((k, FSpec.leafSpec) :: rest)
            = directAnyS data rest := by
          simp [directAnyS, FSpec.isLeaf, hg]
        constructor
        · intro a fl
          simp only [pass1S]
          rw [hg]
          simp only [Option.getD_some, Val.orV, Bool.or_false]
          rw [ihr.1 a (fl + 1), hda, hcd]
          simp only [Option.some.injEq, Prod.mk.injEq]
          exact ⟨trivial, by omega⟩
        · intro fl
          simp only [pass1S]
          rw [hg]
          simp only [Option.getD_none, Val.orV, Bool.or_false]
          rw [ihr.1 false (fl + 1), hda, hcd, hhd]
          simp only [if_true, Option.some.injEq, Prod.mk.injEq, Val.b.injEq,
            Bool.false_or]
          exact ⟨trivial, by omega⟩
      · obtain ⟨x, rfl⟩ : ∃ x, t = TD.leaf (.b x) := by
          rw [hg] at hsm
          rcases hsm.1 with h1
          cases t with
          | node tes => simp at h1
          | leaf v =>
            cases v with
            | b x => exact ⟨x, rfl⟩
            | i m => simp at h1
            | vb bs => simp at h1
            | vi ns => simp at h1
            | vbb bss => simp at h1
        have hda : directAnyS data ((k, FSpec.leafSpec) :: rest)
            = (x || directAnyS data rest) := by
          simp [directAnyS, FSpec.isLeaf, hg, TD.leafValD, Val.anyV]
        constructor
        · intro a fl
          simp only [pass1S]
          rw [hg]
          simp only [Option.getD_some, Val.orV]
          rw [ihr.1 (a || x) (fl + 1), hda, hcd]
          simp only [Option.some.injEq, Prod.mk.injEq, Val.b.injEq]
          exact ⟨Bool.or_assoc a x _, by omega⟩
        · intro fl
          simp only [pass1S]
          rw [hg]
          simp only [Option.getD_none, Val.orV, Bool.false_or]
          rw [ihr.1 x (fl + 1), hda, hcd, hhd]
          simp only [if_true, Option.some.injEq, Prod.mk.injEq]
          exact ⟨trivial, by omega⟩

theorem pass2S_char (key? : Option Key) (data0 : TD) :
    ∀ (ses : List (Key × FSpec)) (data : TD) (fl : Nat),
    (∀ e ∈ ses, ∀ ces, e.2 = FSpec.comp ces → ∀ tes : List (Key × TD),
      specMatchB e.2 (.node tes) = true → specNodupB e.2 = true →
      ∃ d keys, innerS key? e.2 (.node tes)
        = some (effAnyS e.2 (.node tes), d, keys)) →
    specMatchListB ses data0 = true →
    nodupKeysSB ses = true →
    specNodupListB ses = true →
    (∀ e ∈ ses, data.get e.1 = data0.get e.1) →
    ∃ d keys, pass2S key? ses data fl
      = some ((if fl = 0 then childAnyS ses data0 else false), d, keys) := by
  intro ses
  induction ses with
  | nil =>
    intro data fl _ _ _ _ _
    refine ⟨data, [], ?_⟩
    simp [pass2S, childAnyS, ite_self]
  | cons e rest ih =>
    rcases e with ⟨k, s⟩
    intro data fl hrec hsm hnd hsnd hpres
    simp only [specMatchListB, Bool.and_eq_true] at hsm
    simp only [nodupKeysSB, Bool.and_eq_true, List.all_eq_true] at hnd
    simp only [specNodupListB, Bool.and_eq_true] at hsnd
    cases s with
    | leafSpec =>
      have hch : childAnyS ((k, FSpec.leafSpec) :: rest) data0
          = childAnyS rest data0 := by
        simp [childAnyS]
      rcases ih data fl (fun e2 he2 => hrec e2 (List.mem_cons_of_mem _ he2))
        hsm.2 hnd.2 hsnd.2
        (fun e2 he2 => hpres e2 (List.mem_cons_of_mem _ he2))
        with ⟨d, keys, hd⟩
      refine ⟨d, keys, ?_⟩
      simp only [pass2S]
      rw [hd, hch]
    | comp ces =>
      obtain ⟨tes, hg0, hm⟩ : ∃ tes, data0.get k = some (TD.node tes)
          ∧ specMatchB (FSpec.comp ces) (.node tes) = true := by
        rcases hg0 : data0.get k with _ | t
        · rw [hg0] at hsm
          rcases hsm.1 with h1
          simp at h1
        · rw [hg0] at hsm
          cases t with
          | leaf v =>
            rcases hsm.1 with h1
            simp at h1
          | node tes => exact ⟨tes, rfl, hsm.1⟩
      have hg : data.get k = some (TD.node tes) := by
        rw [hpres (k, FSpec.comp ces) (List.mem_cons_self _ _)]
        exact hg0
      rcases hrec (k, FSpec.comp ces) (List.mem_cons_self _ _) ces rfl tes hm
        hsnd.1 with ⟨d1, keys1, hr1⟩
      rcases ih (data.set k d1) fl
        (fun e2 he2 => hrec e2 (List.mem_cons_of_mem _ he2))
        hsm.2 hnd.2 hsnd.2
        (fun e2 he2 => by
          have hne : e2.1 ≠ k := by
            have := hnd.1 e2 he2
            simpa using this
          rw [TD.get_set_ne _ _ _ _ hne]
          exact hpres e2 (List.mem_cons_of_mem _ he2))
        with ⟨d2, keys2, hd2⟩
      refine ⟨d2, keys1.map (fun p => k :: p) ++ keys2, ?_⟩
      simp only [pass2S]
      rw [hg]
      try dsimp only
      rw [hr1]
      try dsimp only
      rw [hd2]
      try dsimp only
      have hch : childAnyS ((k, FSpec.comp ces) :: rest) data0
          = (effAnyS (.comp ces) (.node tes) || childAnyS rest data0) := by
        simp only [childAnyS]
        rw [hg0]
      rcases Nat.eq_zero_or_pos fl with rfl | hfl
      · simp only [if_pos rfl, hch]
        simp [Bool.or_comm]
      · have hne : fl ≠ 0 := by omega
        simp [hne]

theorem innerS_char (key? : Option Key) :
    ∀ (n : Nat) (sp : FSpec), sizeOf sp < n →
    ∀ (tes : List (Key × TD)), specMatchB sp (.node tes) = true →
    specNodupB sp = true →
    ∀ ces, sp = FSpec.comp ces →
    ∃ d keys, innerS key? sp (.node tes)
      = some (effAnyS sp (.node tes), d, keys) := by
  intro n
  induction n with
  | zero => intro sp h; omega
  | succ n ih =>
    rintro sp hsz tes hsm hsnd ces rfl
    have hsml : specMatchListB ces (.node tes) = true := by
      simpa [specMatchB] using hsm
    have hndk : nodupKeysSB ces = true ∧ specNodupListB ces = true := by
      simpa [specNodupB, Bool.and_eq_true] using hsnd
    have hp1 := (pass1S_char (.node tes) ces hsml).2 0
    have hp2 := pass2S_char key? (.node tes) ces (.node tes) (0 + countLeafSpec ces)
      (fun e2 he2 ces2 he tes2 hm2 hnd2 => by
        rcases e2 with ⟨k2, s2⟩
        dsimp only at he
        subst he
        refine ih (FSpec.comp ces2) ?_ tes2 hm2 hnd2 ces2 rfl
        have h1 : sizeOf (k2, FSpec.comp ces2) < sizeOf ces :=
          List.sizeOf_lt_of_mem he2
        have h2 : sizeOf (FSpec.comp ces2) < sizeOf (k2, FSpec.comp ces2) := by
          simp
        have h3 : sizeOf ces < sizeOf (FSpec.comp ces) := by
          simp
        omega)
      hsml hndk.1 hndk.2 (fun _ _ => rfl)
    rcases hp2 with ⟨d2, keys2, hd2⟩
    by_cases hhd : hasLeafSpecB ces
    · have hcd : countLeafSpec ces ≠ 0 := (hasLeafSpec_countLeafSpec ces).1 hhd
      have heff : effAnyS (.comp ces) (.node tes) = directAnyS (.node tes) ces := by
        simp only [effAnyS]
        rw [if_pos hhd]
      rw [if_pos hhd] at hp1
      have hfl : ¬(0 + countLeafSpec ces = 0) := by omega
      rw [if_neg hfl] at hd2
      cases key? with
      | none =>
        refine ⟨d2, keys2, ?_⟩
        simp only [innerS]
        rw [hp1]
        try dsimp only
        rw [hd2]
        try dsimp only
        rw [heff]
        simp [finalizeAgg, Val.anyV]
      | some kk =>
        refine ⟨d2.set kk (.leaf (.b (directAnyS (.node tes) ces))),
          keys2 ++ [[kk]], ?_⟩
        simp only [innerS]
        rw [hp1]
        try dsimp only
        rw [hd2]
        try dsimp only
        rw [heff]
        simp [finalizeAgg, Val.anyV]
    · have heff : effAnyS (.comp ces) (.node tes) = childAnyS ces (.node tes) := by
        simp only [effAnyS]
        rw [if_neg (by simpa using hhd)]
      have hcd : countLeafSpec ces = 0 := by
        by_contra hc
        exact absurd ((hasLeafSpec_countLeafSpec ces).2 hc) (by simpa using hhd)
      rw [if_neg (by simpa using hhd)] at hp1
      rw [hcd, Nat.add_zero] at hp1
      rw [hcd, Nat.add_zero, if_pos rfl] at hd2
      refine ⟨d2, keys2, ?_⟩
      simp only [innerS]
      rw [hp1]
      try dsimp only
      rw [hd2]
      try dsimp only
      rw [heff]
      simp [finalizeAgg]

/-- C2 (amended): the episode-boundary aggregator returns true iff the
precedence-aware rollup of the tree is true: a node that has direct
done-category leaves contributes exactly the OR of those leaves, and the
rollups of its nested sub-nodes are computed (and written) but do not
feed the parent's result; only a node with no direct done leaf bubbles
up the OR of its children's rollups.  (The claim as stated — true iff
any leaf anywhere is true — fails, see the counterexample.)  Holds in
both the schema-less and the schema-driven mode, for any destination
key and `write_full_false` flag. -/
theorem terminated_or_truncated_precedence_rollup (key? : Option Key) (wff : Bool) :
    (∀ es : List (Key × TD), wfDoneListB es = true →
      ∃ out, _terminated_or_truncated (.node es) none key? wff
        = some (effAnyNS (.node es), out))
    ∧ (∀ (ses : List (Key × FSpec)) (des : List (Key × TD)),
        specMatchB (.comp ses) (.node des) = true →
        specNodupB (.comp ses) = true →
        ∃ out, _terminated_or_truncated (.node des) (some (.comp ses)) key? wff
          = some (effAnyS (.comp ses) (.node des), out)) := by
  constructor
  · intro es hwf
    rcases innerNS_char key? (sizeOf (TD.node es) + 1) (.node es) (by omega) es rfl
      hwf with ⟨d, keys, hd⟩
    by_cases hc : (!effAnyNS (TD.node es) && !wff) = true
    · refine ⟨d.excludeAll keys, ?_⟩
      rw [_terminated_or_truncated, hd]
      try dsimp only
      rw [if_pos hc]
    · refine ⟨d, ?_⟩
      rw [_terminated_or_truncated, hd]
      try dsimp only
      rw [if_neg hc]
  · intro ses des hsm hsnd
    rcases innerS_char key? (sizeOf (FSpec.comp ses) + 1) (.comp ses) (by omega)
      des hsm hsnd ses rfl with ⟨d, keys, hd⟩
    by_cases hc : (!effAnyS (.comp ses) (TD.node des) && !wff) = true
    · refine ⟨d.excludeAll keys, ?_⟩
      rw [_terminated_or_truncated, hd]
      try dsimp only
      rw [if_pos hc]
    · refine ⟨d, ?_⟩
      rw [_terminated_or_truncated, hd]
      try dsimp only
      rw [if_neg hc]

/-- Witness for C2 (amended) at the counterexample batch: the run
returns exactly the precedence rollup (false there). -/
theorem terminated_or_truncated_precedence_rollup_witness :
    ∃ out, _terminated_or_truncated dataC2 none (some "_reset") false
      = some (effAnyNS dataC2, out) :=
  (terminated_or_truncated_precedence_rollup (some "_reset") false).1
    [("done", .leaf (.b false)), ("nested", .node [("done", .leaf (.b true))])] rfl

/-! ### The reset-merge engine: `_update_during_reset` (utils.py 1212-1262).
Batches are 1-dimensional here: nodes have one leading batch dimension,
leaves hold vectors along it (`vbb` one extra trailing dimension).  The
`reset.reshape(node.shape)` of the original is the identity on a mask
already collapsed to the batch shape. -/

/-- Full-path set: used to write a (pure-model) mutated node back at its
path, materialising missing intermediates. -/
def TD.setPath (t : TD) (p : KPath) (v : TD) : TD :=
  match p with
  | [] => v
  | k :: rest =>
    match t with
    | .leaf w => .leaf w
    | .node es =>
      match TD.findEntry es k with
      | some sub => .node (TD.setEntry es k (sub.setPath rest v))
      | none => .node (TD.setEntry es k ((TD.node []).setPath rest v))

/-- `tensordict.pop(reset_key, None)`: return the entry at the path (or
none) and the batch with that entry removed. -/
def TD.popPath (t : TD) (p : KPath) : Option TD × TD :=
  match t.getPath p with
  | none => (none, t)
  | some v => (some v, TD.removeEntry p t)

mutual

/-- `.all()` over a popped reset signal (a tensor, or — dead corner — a
sub-batch, where `TensorDict.all()` folds over all leaves). -/
def TD.allB : TD → Bool
  | .leaf v => v.allV
  | .node es => TD.allListB es

def TD.allListB : List (Key × TD) → Bool
  | [] => true
  | (_, t) :: rest => TD.allB t && TD.allListB rest

end

/-- The boolean mask carried by a collapsed reset payload (the verified
statements only use the boolean-vector case). -/
def Val.toMask : Val → List Bool
  | .vb bs => bs
  | .b x => [x]
  | _ => []

mutual

/-- The iteration of `TensorDict.update` over the other batch's entries
(`node.update(node_reset)`): entries of the other batch overwrite; when
both sides hold sub-batches at a key the update is recursive; entries
absent from the other batch are kept. -/
def updList (self : TD) (oes : List (Key × TD)) : TD :=
  match oes with
  | [] => self
  | (k, v) :: rest => updList (self.set k (updEntry (self.get k) v)) rest

/-- The value written for one key during `TensorDict.update`: when both
sides hold sub-batches the update recurses, otherwise the other batch's
entry overwrites. -/
def updEntry : Option TD → TD → TD
  | some (.node ses), .node ves => updList (.node ses) ves
  | _, v => v

end

/-- `TensorDict.update` (used as `node.update(node_reset)`). -/
def tdUpdate (self other : TD) : TD :=
  match other with
  | .leaf _ => self
  | .node oes => updList self oes

/-- `torch.where(cond, x, y)` elementwise along the batch dimension:
keep `x` where the condition is true. -/
def whereVec {α : Type} : List Bool → List α → List α → List α
  | c :: cs, x :: xs, y :: ys => (if c then x else y) :: whereVec cs xs ys
  | _, _, _ => []

/-- Zero payload of the same kind (the `pad=0` argument of
`TensorDict.where`). -/
def Val.padLike : Val → Val
  | .b _ => .b false
  | .i _ => .i 0
  | .vb bs => .vb (bs.map (fun _ => false))
  | .vi ns => .vi (ns.map (fun _ => 0))
  | .vbb bss => .vbb (bss.map (fun r => r.map (fun _ => false)))

/-- One leaf of `TensorDict.where`: keep the first payload where the
condition holds, otherwise the second. -/
def whereLeaf (cond : List Bool) (a b : Val) : Val :=
  match a, b with
  | .vi xs, .vi ys => .vi (whereVec cond xs ys)
  | .vb xs, .vb ys => .vb (whereVec cond xs ys)
  | _, _ => a

mutual

/-- `self.where(cond, other=other, out=self, pad=0)`: per-leaf masked
merge over the structure of `self`; entries missing from `other` are
merged against the zero pad. -/
def tdWhere (cond : List Bool) (self other : TD) : TD :=
  match self with
  | .leaf v => .leaf v
  | .node es => .node (whereList cond es other)

def whereList (cond : List Bool) : List (Key × TD) → TD → List (Key × TD)
  | [], _ => []
  | (k, t) :: rest, other =>
    (k, whereEntry cond t (other.get k)) :: whereList cond rest other

/-- One entry of `TensorDict.where`: leaves merge pointwise (against the
zero pad when the other side is missing or not a leaf), sub-batches
recurse. -/
def whereEntry (cond : List Bool) : TD → Option TD → TD
  | .leaf a, some (.leaf b) => .leaf (whereLeaf cond a b)
  | .leaf a, _ => .leaf (whereLeaf cond a a.padLike)
  | .node ses, some (.node oes) => .node (whereList cond ses (.node oes))
  | .node ses, _ => .node (whereList cond ses (.node []))

end

/-- The running state of the `for reset_key in reset_keys` loop: the set
of already-seen owner nodes (`roots`) and the evolving input batch. -/
structure URState where
  roots : List KPath
  td : TD

/-- One iteration of the loop body of `_update_during_reset`
(utils.py 1219-1261).  `none` models the error raised when the owner
node of the reset key is missing from either batch (the `get` calls at
utils.py 1225-1226), or the dead corner of a not-all-true sub-batch
reset signal. -/
def updStep (tensordict_reset : TD) (st : URState) (reset_key : KPath) :
    Option URState :=
  let node_key := reset_key.dropLast
  match tensordict_reset.getPath node_key, st.td.getPath node_key with
  | some node_reset, some _ =>
    let pr := st.td.popPath reset_key
    let reset := pr.1
    let td1 := pr.2
    let processed := st.roots.any (fun x => decide (reset_key.take x.length = x))
    let roots1 := node_key :: st.roots
    if processed then some ⟨roots1, td1⟩
    else
      let node := (td1.getPath node_key).getD (.node [])
      match reset with
      | none => some ⟨roots1, td1.setPath node_key (tdUpdate node node_reset)⟩
      | some r =>
        if r.allB then
          some ⟨roots1, td1.setPath node_key (tdUpdate node node_reset)⟩
        else
          match r with
          | .leaf rv =>
            let rv1 := if rv.ndim > 1 then rv.flattenAny else rv
            some ⟨roots1, td1.setPath node_key
              (tdWhere (rv1.toMask.map (fun b => !b)) node node_reset)⟩
          | .node _ => none
  | _, _ => none

/-- The loop of `_update_during_reset` over the reset keys. -/
def updRun (tensordict_reset : TD) : URState → List KPath → Option URState
  | st, [] => some st
  | st, rk :: rest =>
    match updStep tensordict_reset st rk with
    | none => none
    | some st1 => updRun tensordict_reset st1 rest

/-- `_update_during_reset(tensordict_reset, tensordict, reset_keys)`
(utils.py 1212-1262). -/
def _update_during_reset (tensordict_reset tensordict : TD)
    (reset_keys : List KPath) : Option TD :=
  match updRun tensordict_reset ⟨[], tensordict⟩ reset_keys with
  | some st => some st.td
  | none => none

/-! ### Support lemmas for the reset-merge claims -/

theorem dropLast_snoc {α : Type} (l : List α) (a : α) : (l ++ [a]).dropLast = l := by
  simp

theorem TD.findEntry_none_of_forall_ne {es : List (Key × TD)} {k : Key}
    (h : ∀ e ∈ es, e.1 ≠ k) : TD.findEntry es k = none := by
  induction es with
  | nil => rfl
  | cons e rest ih =>
    have hne : e.1 ≠ k := h e (List.mem_cons_self _ _)
    simp only [TD.findEntry, hne, if_neg, not_false_iff]
    exact ih (fun e2 he2 => h e2 (List.mem_cons_of_mem _ he2))

theorem TD.findEntry_map_transform (f : TD → TD) (k : Key) :
    ∀ (es : List (Key × TD)) (k0 : Key),
    TD.findEntry (es.map (fun e => if e.1 = k then (e.1, f e.2) else e)) k0
      = if k0 = k then (TD.findEntry es k0).map f else TD.findEntry es k0 := by
  intro es
  induction es with
  | nil =>
    intro k0
    by_cases h : k0 = k <;> simp [TD.findEntry, h]
  | cons e rest ih =>
    intro k0
    by_cases he : e.1 = k
    · by_cases h : k0 = k
      · subst h
        have he2 : e.1 = k0 := he
        simp [TD.findEntry, he, he2, ih]
      · have hk0 : ¬(k = k0) := fun hh => h hh.symm
        have hne : e.1 ≠ k0 := by rw [he]; exact hk0
        simp [TD.findEntry, he, hne, ih, h, hk0]
    · by_cases h2 : e.1 = k0
      · have hk : ¬(k0 = k) := by rw [← h2]; exact fun hh => he hh
        simp [TD.findEntry, he, h2, hk]
      · simp [TD.findEntry, he, h2, ih]

theorem TD.getPath_setPath_self :
    ∀ (p : KPath) (t w v : TD), t.getPath p = some w →
    (t.setPath p v).getPath p = some v := by
  intro p
  induction p with
  | nil => intro t w v _; rfl
  | cons k rest ih =>
    intro t w v h
    cases t with
    | leaf u => simp [TD.getPath, TD.get] at h
    | node es =>
      simp only [TD.getPath, TD.get] at h
      rcases hf : TD.findEntry es k with _ | sub
      · rw [hf] at h
        simp at h
      · rw [hf] at h
        simp only [TD.setPath, hf, TD.getPath, TD.get, TD.findEntry_setEntry,
          if_pos rfl]
        exact ih sub w v h

theorem TD.getPath_removeEntry_concat :
    ∀ (node_key : KPath) (t : TD) (nes : List (Key × TD)) (lastk : Key),
    t.getPath node_key = some (.node nes) →
    (TD.removeEntry (node_key ++ [lastk]) t).getPath node_key
      = some (.node (nes.filter (fun e => decide (e.1 ≠ lastk)))) := by
  intro node_key
  induction node_key with
  | nil =>
    intro t nes lastk h
    simp only [TD.getPath, Option.some.injEq] at h
    subst h
    simp [TD.removeEntry, TD.getPath]
  | cons k rest ih =>
    intro t nes lastk h
    cases t with
    | leaf u => simp [TD.getPath, TD.get] at h
    | node es =>
      simp only [TD.getPath, TD.get] at h
      rcases hf : TD.findEntry es k with _ | sub
      · rw [hf] at h
        simp at h
      · rw [hf] at h
        try dsimp only at h
        have hne : ¬((rest ++ [lastk]).isEmpty = true) := by
          cases rest <;> simp
        rw [List.cons_append]
        simp only [TD.removeEntry]
        rw [if_neg hne]
        simp only [TD.getPath, TD.get]
        rw [TD.findEntry_map_transform (TD.removeEntry (rest ++ [lastk])) k es k,
          if_pos rfl, hf]
        simp only [Option.map]
        try dsimp only
        exact ih sub nes lastk h

mutual

/-- Two batches have the same key skeleton (same entry names in the same
order, recursively, with leaves facing leaves). -/
def sameStructB : TD → TD → Bool
  | .leaf _, .leaf _ => true
  | .node es, .node fs => sameStructListB es fs
  | _, _ => false

def sameStructListB : List (Key × TD) → List (Key × TD) → Bool
  | [], [] => true
  | (k1, t1) :: r1, (k2, t2) :: r2 =>
    decide (k1 = k2) && sameStructB t1 t2 && sameStructListB r1 r2
  | _, _ => false

end

theorem sameStruct_findEntry :
    ∀ {ses oes : List (Key × TD)}, sameStructListB ses oes = true →
    ∀ (k : Key),
    (match TD.findEntry ses k, TD.findEntry oes k with
     | some a, some b => sameStructB a b = true
     | none, none => True
     | _, _ => False) := by
  intro ses
  induction ses with
  | nil =>
    intro oes h k
    cases oes with
    | nil => simp [TD.findEntry]
    | cons f r2 => simp [sameStructListB] at h
  | cons e r1 ih =>
    intro oes h k
    cases oes with
    | nil => rcases e with ⟨k1, t1⟩; simp [sameStructListB] at h
    | cons f r2 =>
      rcases e with ⟨k1, t1⟩
      rcases f with ⟨k2, t2⟩
      simp only [sameStructListB, Bool.and_eq_true, decide_eq_true_eq] at h
      rcases h with ⟨⟨rfl, hst⟩, hrest⟩
      by_cases hk : k1 = k
      · simp [TD.findEntry, hk, hst]
      · simp only [TD.findEntry, hk, if_neg, not_false_iff]
        exact ih hrest k

theorem updList_node (oes : List (Key × TD)) :
    ∀ (ses : List (Key × TD)), ∃ es', updList (.node ses) oes = TD.node es' := by
  induction oes with
  | nil => intro ses; exact ⟨ses, rfl⟩
  | cons e rest ih =>
    intro ses
    rcases e with ⟨k, v⟩
    rcases ih (TD.setEntry ses k (updEntry ((TD.node ses).get k) v)) with ⟨es', he⟩
    refine ⟨es', ?_⟩
    simp only [updList, TD.set]
    exact he

theorem updList_get (oes : List (Key × TD)) :
    ∀ (ses : List (Key × TD)), TD.nodupKeysB oes = true → ∀ (k : Key),
    (updList (.node ses) oes).get k =
      (match TD.findEntry oes k with
       | some v => some (updEntry ((TD.node ses).get k) v)
       | none => (TD.node ses).get k) := by
  induction oes with
  | nil =>
    intro ses _ k
    simp [updList, TD.findEntry]
  | cons e rest ih =>
    rcases e with ⟨k1, v⟩
    intro ses hnd k
    simp only [TD.nodupKeysB, Bool.and_eq_true, List.all_eq_true] at hnd
    simp only [updList, TD.set]
    rw [ih _ hnd.2 k]
    by_cases hk : k = k1
    · subst hk
      have hrest : TD.findEntry rest k = none :=
        TD.findEntry_none_of_forall_ne (fun e2 he2 => by
          have := hnd.1 e2 he2
          simpa using this)
      rw [hrest]
      try dsimp only
      simp only [TD.findEntry, if_pos rfl, TD.get, TD.findEntry_setEntry]
      simp
    · have hk1 : ¬(k1 = k) := fun hh => hk hh.symm
      simp only [TD.findEntry, hk1, if_neg, not_false_iff, TD.get,
        TD.findEntry_setEntry, hk]

theorem TD.findEntry_append_not_mem {l1 : List (Key × TD)} (l2 : List (Key × TD))
    (k : Key) (h : ∀ e ∈ l1, e.1 ≠ k) :
    TD.findEntry (l1 ++ l2) k = TD.findEntry l2 k := by
  induction l1 with
  | nil => rfl
  | cons e rest ih =>
    have hne : e.1 ≠ k := h e (List.mem_cons_self _ _)
    simp only [List.cons_append, TD.findEntry, hne, if_neg, not_false_iff]
    exact ih (fun e2 he2 => h e2 (List.mem_cons_of_mem _ he2))

theorem TD.setEntry_append_not_mem {l1 : List (Key × TD)} (l2 : List (Key × TD))
    (k : Key) (v : TD) (h : ∀ e ∈ l1, e.1 ≠ k) :
    TD.setEntry (l1 ++ l2) k v = l1 ++ TD.setEntry l2 k v := by
  induction l1 with
  | nil => rfl
  | cons e rest ih =>
    have hne : e.1 ≠ k := h e (List.mem_cons_self _ _)
    simp only [List.cons_append, TD.setEntry, hne, if_neg, not_false_iff,
      List.cons.injEq, true_and]
    exact ih (fun e2 he2 => h e2 (List.mem_cons_of_mem _ he2))

/-- `TensorDict.update` against a well-formed batch of the same key
skeleton (same keys, same order, sub-batches facing sub-batches) rewrites
every entry, so the updated prefix-extended node is exactly the other
batch's entries appended to the untouched prefix. -/
theorem updList_sameStruct :
    ∀ (n : Nat) (oes : List (Key × TD)), sizeOf oes ≤ n →
    ∀ (pre suf : List (Key × TD)),
    (∀ e ∈ oes, ∀ e2 ∈ pre, e2.1 ≠ e.1) →
    sameStructListB suf oes = true →
    TD.nodupKeysB oes = true → TD.wfListB oes = true →
    updList (.node (pre ++ suf)) oes = .node (pre ++ oes) := by
  intro n
  induction n with
  | zero =>
    intro oes hsz
    exfalso
    cases oes <;> simp at hsz
  | succ n ih =>
    intro oes hsz pre suf hdisj hstr hnd hwf
    cases oes with
    | nil =>
      cases suf with
      | nil => simp [updList]
      | cons f r2 => rcases f with ⟨k2, t2⟩; simp [sameStructListB] at hstr
    | cons e rest =>
      rcases e with ⟨k, v⟩
      cases suf with
      | nil => simp [sameStructListB] at hstr
      | cons f suf2 =>
        rcases f with ⟨k2, s1⟩
        simp only [sameStructListB, Bool.and_eq_true, decide_eq_true_eq] at hstr
        rcases hstr with ⟨⟨rfl, hst⟩, hrest⟩
        simp only [TD.nodupKeysB, Bool.and_eq_true, List.all_eq_true] at hnd
        simp only [TD.wfListB, Bool.and_eq_true] at hwf
        have hpre : ∀ e2 ∈ pre, e2.1 ≠ k2 :=
          fun e2 he2 => hdisj (k2, v) (List.mem_cons_self _ _) e2 he2
        have hget : (TD.node (pre ++ (k2, s1) :: suf2)).get k2 = some s1 := by
          simp only [TD.get]
          rw [TD.findEntry_append_not_mem _ k2 hpre]
          simp [TD.findEntry]
        have hupd : updEntry (some s1) v = v := by
          cases s1 with
          | leaf a => cases v <;> rfl
          | node ss1 =>
            cases v with
            | leaf b => rfl
            | node vv1 =>
              simp only [sameStructB] at hst
              have hv1 : TD.wfB (.node vv1) = true := hwf.1
              simp only [TD.wfB, Bool.and_eq_true] at hv1
              have hszv : sizeOf vv1 ≤ n := by
                simp only [List.cons.sizeOf_spec, Prod.mk.sizeOf_spec,
                  TD.node.sizeOf_spec] at hsz ⊢
                omega
              have := ih vv1 hszv [] ss1 (by simp) hst hv1.1 hv1.2
              simpa [updEntry] using this
        have hset : (TD.node (pre ++ (k2, s1) :: suf2)).set k2 v
            = TD.node (pre ++ (k2, v) :: suf2) := by
          simp only [TD.set]
          rw [TD.setEntry_append_not_mem _ k2 v hpre]
          simp [TD.setEntry]
        have hszr : sizeOf rest ≤ n := by
          simp only [List.cons.sizeOf_spec] at hsz
          omega
        have hdisj2 : ∀ e ∈ rest, ∀ e2 ∈ pre ++ [(k2, v)], e2.1 ≠ e.1 := by
          intro e he e2 he2
          rcases List.mem_append.mp he2 with h2 | h2
          · exact hdisj e (List.mem_cons_of_mem _ he) e2 h2
          · have hk : e.1 ≠ k2 := by simpa using hnd.1 e he
            simp only [List.mem_singleton] at h2
            subst h2
            exact fun hh => hk hh.symm
        have := ih rest hszr (pre ++ [(k2, v)]) suf2 hdisj2 hrest hnd.2 hwf.2
        simp only [List.append_assoc, List.singleton_append] at this
        simp only [updList, hget, hupd, hset]
        exact this

/-- `node.update(node_reset)` with matching key skeletons (and a
well-formed reset node) replaces the node wholesale by the reset node. -/
theorem tdUpdate_sameStruct (ses oes : List (Key × TD))
    (hs : sameStructListB ses oes = true) (hwf : TD.wfB (.node oes) = true) :
    tdUpdate (.node ses) (.node oes) = .node oes := by
  simp only [TD.wfB, Bool.and_eq_true] at hwf
  have := updList_sameStruct (sizeOf oes) oes le_rfl [] ses (by simp) hs hwf.1 hwf.2
  simpa [tdUpdate] using this

/-- Spec-side elementwise masked merge: keep the current batch's element
where the reset mask is false, take the post-reset batch's element where
it is true. -/
def maskedMergeSpec {α : Type} : List Bool → List α → List α → List α
  | m :: ms, x :: xs, y :: ys => (if m then y else x) :: maskedMergeSpec ms xs ys
  | _, _, _ => []

theorem whereVec_map_not {α : Type} :
    ∀ (m : List Bool) (xs ys : List α),
    whereVec (m.map (fun b => !b)) xs ys = maskedMergeSpec m xs ys := by
  intro m
  induction m with
  | nil => intro xs ys; cases xs <;> cases ys <;> rfl
  | cons c ms ih =>
    intro xs ys
    cases xs with
    | nil => rfl
    | cons x xs2 =>
      cases ys with
      | nil => rfl
      | cons y ys2 =>
        simp only [List.map_cons, whereVec, maskedMergeSpec, ih]
        cases c <;> rfl

theorem findEntry_whereList (cond : List Bool) (other : TD) (k : Key) :
    ∀ (es : List (Key × TD)),
    TD.findEntry (whereList cond es other) k
      = (TD.findEntry es k).map (fun t => whereEntry cond t (other.get k)) := by
  intro es
  induction es with
  | nil => rfl
  | cons e rest ih =>
    rcases e with ⟨k1, t⟩
    by_cases hk : k1 = k
    · subst hk
      simp [whereList, TD.findEntry]
    · simp only [whereList, TD.findEntry, hk, if_neg, not_false_iff]
      exact ih

/-- **C6** (counterexample).  With an all-true reset signal, the owner
node is *not* overwritten wholesale by the reset batch's node: the entry
`stale`, absent from the reset node, survives in the output.  The update
is the recursive `TensorDict.update`, which retains entries of the
current node that the reset node does not carry. -/
theorem update_during_reset_not_wholesale :
    _update_during_reset
        (.node [("sub", .node [("obs", .leaf (.vi [100, 200]))])])
        (.node [("done", .leaf (.b false)),
                ("sub", .node [("obs", .leaf (.vi [1, 2])),
                               ("_reset", .leaf (.vb [true, true])),
                               ("stale", .leaf (.i 5))])])
        [["sub", "_reset"]]
      = some (.node [("done", .leaf (.b false)),
                     ("sub", .node [("obs", .leaf (.vi [100, 200])),
                                    ("stale", .leaf (.i 5))])])
    ∧ (TD.node [("sub", .node [("obs", .leaf (.vi [100, 200]))])]).getPath
        ["sub", "stale"] = none
    ∧ TD.allB (.leaf (.vb [true, true])) = true :=
  ⟨rfl, rfl, rfl⟩

/-- **C6** (amended).  For a reset key processed by the reset-merge loop
body (owner node present in both batches, owner not yet processed): when
the popped reset signal is absent or all-true, the owner node is updated
with the reset node by the recursive `TensorDict.update` — which equals a
wholesale overwrite by the reset node exactly when the two nodes share
the same key skeleton (in general, entries of the current node missing
from the reset node are retained); when the popped signal is a mixed
boolean mask, the owner node is merged elementwise: an integer-vector
leaf present in both nodes takes the reset batch's element where the
mask is true and keeps the current batch's element where it is false. -/
theorem update_during_reset_merge_semantics
    (tensordict_reset : TD) (st : URState) (reset_key : KPath)
    (st' : URState) (node_reset node node0 : TD)
    (hstep : updStep tensordict_reset st reset_key = some st')
    (hnew : st.roots.any (fun x => decide (reset_key.take x.length = x)) = false)
    (hnr : tensordict_reset.getPath reset_key.dropLast = some node_reset)
    (hn0 : st.td.getPath reset_key.dropLast = some node0)
    (hn : ((st.td.popPath reset_key).2).getPath reset_key.dropLast = some node) :
    (((st.td.popPath reset_key).1 = none
        ∨ ∃ r, (st.td.popPath reset_key).1 = some r ∧ TD.allB r = true) →
      st'.td.getPath reset_key.dropLast = some (tdUpdate node node_reset)
      ∧ ∀ nes oes, node = .node nes → node_reset = .node oes →
          sameStructListB nes oes = true → TD.wfB (.node oes) = true →
          st'.td.getPath reset_key.dropLast = some node_reset)
    ∧ (∀ mask, (st.td.popPath reset_key).1 = some (.leaf (.vb mask)) →
        mask.all id = false →
        st'.td.getPath reset_key.dropLast
          = some (tdWhere (mask.map (fun b => !b)) node node_reset)
        ∧ ∀ k xs ys, node.get k = some (.leaf (.vi xs)) →
            node_reset.get k = some (.leaf (.vi ys)) →
            ∃ nd, st'.td.getPath reset_key.dropLast = some nd
              ∧ nd.get k = some (.leaf (.vi (maskedMergeSpec mask xs ys)))) := by
  simp only [updStep] at hstep
  rw [hnr, hn0] at hstep
  try dsimp only at hstep
  rw [hnew] at hstep
  simp only [Bool.false_eq_true, if_false] at hstep
  refine ⟨?_, ?_⟩
  · intro hcase
    have hk2 := hstep
    have hres2 : ((st.td.popPath reset_key).1 = none
        ∨ ∃ r, (st.td.popPath reset_key).1 = some r ∧ TD.allB r = true) := hcase
    have hfinal : st'.td = (st.td.popPath reset_key).2.setPath reset_key.dropLast
        (tdUpdate node node_reset) := by
      rcases hres2 with hres | ⟨r, hres, hall⟩
      · rw [hres] at hk2
        try dsimp only at hk2
        rw [hn] at hk2
        simp only [Option.getD_some, Option.some.injEq] at hk2
        rw [← hk2]
      · rw [hres] at hk2
        try dsimp only at hk2
        rw [hall] at hk2
        simp only [if_true] at hk2
        rw [hn] at hk2
        simp only [Option.getD_some, Option.some.injEq] at hk2
        rw [← hk2]
    constructor
    · rw [hfinal]
      exact TD.getPath_setPath_self _ _ node _ hn
    · intro nes oes hne hnre hstr hwf
      rw [hfinal, hne, hnre, tdUpdate_sameStruct nes oes hstr hwf, ← hnre]
      exact TD.getPath_setPath_self _ _ node _ (hne ▸ hn)
  · intro mask hres hall
    have hk2 := hstep
    rw [hres] at hk2
    try dsimp only at hk2
    have hallB : TD.allB (.leaf (.vb mask)) = false := by
      simp [TD.allB, Val.allV, hall]
    rw [hallB] at hk2
    simp only [Bool.false_eq_true, if_false] at hk2
    rw [hn] at hk2
    simp only [Option.getD_some, Option.some.injEq] at hk2
    try dsimp only [Val.ndim, Val.toMask] at hk2
    simp only [show ¬((1 : Nat) > 1) by omega, if_false] at hk2
    have hfinal : st'.td = (st.td.popPath reset_key).2.setPath reset_key.dropLast
        (tdWhere (mask.map (fun b => !b)) node node_reset) := by
      rw [← hk2]
    have hget : st'.td.getPath reset_key.dropLast
        = some (tdWhere (mask.map (fun b => !b)) node node_reset) := by
      rw [hfinal]
      exact TD.getPath_setPath_self _ _ node _ hn
    refine ⟨hget, ?_⟩
    intro k xs ys hx hy
    refine ⟨tdWhere (mask.map (fun b => !b)) node node_reset, hget, ?_⟩
    cases node with
    | leaf v => simp [TD.get] at hx
    | node nes =>
      simp only [tdWhere, TD.get] at hx ⊢
      rw [findEntry_whereList, hx]
      try simp only [Option.map_some]
      try simp only [Option.map]
      try dsimp only
      rw [show whereEntry (mask.map (fun b => !b)) (.leaf (.vi xs))
            (node_reset.get k) = whereEntry (mask.map (fun b => !b))
            (.leaf (.vi xs)) (some (.leaf (.vi ys))) by rw [hy]]
      simp only [whereEntry, whereLeaf, whereVec_map_not]

theorem update_during_reset_merge_semantics_witness :
    ∃ nd, (TD.node [("sub", TD.node [("obs", TD.leaf (Val.vi [100, 2]))])]).getPath
        ["sub"] = some nd
      ∧ nd.get "obs"
        = some (.leaf (.vi (maskedMergeSpec [true, false] [1, 2] [100, 200]))) :=
  ((update_during_reset_merge_semantics
    (.node [("sub", .node [("obs", .leaf (.vi [100, 200]))])])
    ⟨[], .node [("sub", .node [("obs", .leaf (.vi [1, 2])),
                               ("_reset", .leaf (.vb [true, false]))])]⟩
    ["sub", "_reset"]
    ⟨[["sub"]], .node [("sub", .node [("obs", .leaf (.vi [100, 2]))])]⟩
    (.node [("obs", .leaf (.vi [100, 200]))])
    (.node [("obs", .leaf (.vi [1, 2]))])
    (.node [("obs", .leaf (.vi [1, 2])), ("_reset", .leaf (.vb [true, false]))])
    rfl rfl rfl rfl rfl).2 [true, false] rfl rfl).2 "obs" [1, 2] [100, 200] rfl rfl

theorem updRun_append (r : TD) :
    ∀ (l1 l2 : List KPath) (st : URState),
    updRun r st (l1 ++ l2)
      = (match updRun r st l1 with
         | none => none
         | some st1 => updRun r st1 l2) := by
  intro l1
  induction l1 with
  | nil => intro l2 st; rfl
  | cons rk rest ih =>
    intro l2 st
    simp only [List.cons_append, updRun]
    rcases updStep r st rk with _ | st1
    · rfl
    · exact ih l2 st1

theorem updStep_roots (r : TD) (st : URState) (rk : KPath) (st' : URState)
    (h : updStep r st rk = some st') : st'.roots = rk.dropLast :: st.roots := by
  simp only [updStep] at h
  repeat' split at h
  all_goals first
    | exact Option.noConfusion h
    | (cases h; rfl)

theorem updRun_roots_mono (r : TD) :
    ∀ (l : List KPath) (st st' : URState),
    updRun r st l = some st' → ∀ x ∈ st.roots, x ∈ st'.roots := by
  intro l
  induction l with
  | nil =>
    intro st st' h x hx
    simp only [updRun, Option.some.injEq] at h
    rw [← h]
    exact hx
  | cons rk rest ih =>
    intro st st' h x hx
    simp only [updRun] at h
    rcases h1 : updStep r st rk with _ | st1 <;> rw [h1] at h
    · cases h
    · have := updStep_roots r st rk st1 h1
      exact ih st1 st' h x (this ▸ List.mem_cons_of_mem _ hx)

/-- **C7**.  Once a reset key `rk1` has been processed by the reset-merge
loop, the owner path of `rk1` is recorded; a later reset key `rk2` whose
owner node is a (non-strict) descendant of that recorded owner is
skipped: its step only pops (consumes) the reset signal and records its
own owner, leaving the batch otherwise untouched — the first-seen
ancestor wins. -/
theorem update_during_reset_descendant_skipped
    (tensordict_reset : TD) (st : URState) (keys1 : List KPath) (rk1 : KPath)
    (keys2 : List KPath) (rk2 : KPath) (stA : URState) (nr n0 : TD)
    (hrun : updRun tensordict_reset st (keys1 ++ rk1 :: keys2) = some stA)
    (hdesc : rk1.dropLast <+: rk2.dropLast)
    (hnr : tensordict_reset.getPath rk2.dropLast = some nr)
    (hn0 : stA.td.getPath rk2.dropLast = some n0) :
    updStep tensordict_reset stA rk2
      = some ⟨rk2.dropLast :: stA.roots, (stA.td.popPath rk2).2⟩ := by
  rw [updRun_append] at hrun
  rcases h0 : updRun tensordict_reset st keys1 with _ | st0 <;> rw [h0] at hrun
  · cases hrun
  · simp only [updRun] at hrun
    rcases h1 : updStep tensordict_reset st0 rk1 with _ | st1 <;> rw [h1] at hrun
    · cases hrun
    · have hroot1 : rk1.dropLast ∈ st1.roots := by
        rw [updStep_roots tensordict_reset st0 rk1 st1 h1]
        exact List.mem_cons_self _ _
      have hrootA : rk1.dropLast ∈ stA.roots :=
        updRun_roots_mono tensordict_reset keys2 st1 stA hrun _ hroot1
      have hpref : rk1.dropLast <+: rk2 :=
        hdesc.trans (List.dropLast_prefix rk2)
      have htake : rk2.take rk1.dropLast.length = rk1.dropLast :=
        (List.prefix_iff_eq_take.mp hpref).symm
      have hproc : stA.roots.any
          (fun x => decide (rk2.take x.length = x)) = true := by
        rw [List.any_eq_true]
        exact ⟨rk1.dropLast, hrootA, by simp only [htake, decide_eq_true_eq]⟩
      simp only [updStep]
      rw [hnr, hn0]
      try dsimp only
      rw [hproc]
      simp only [if_true]

theorem update_during_reset_descendant_skipped_witness :
    updStep
      (.node [("sub", .node [("obs", .leaf (.vi [100, 200])),
                             ("nested", .node [("x", .leaf (.i 9))])])])
      ⟨[["sub"]],
       .node [("sub", .node [("obs", .leaf (.vi [100, 200])),
                             ("nested", .node [("x", .leaf (.i 9)),
                                               ("_reset", .leaf (.vb [true, true]))])])]⟩
      ["sub", "nested", "_reset"]
      = some ⟨[["sub", "nested"], ["sub"]],
          .node [("sub", .node [("obs", .leaf (.vi [100, 200])),
                                ("nested", .node [("x", .leaf (.i 9))])])]⟩ :=
  update_during_reset_descendant_skipped
    (.node [("sub", .node [("obs", .leaf (.vi [100, 200])),
                           ("nested", .node [("x", .leaf (.i 9))])])])
    ⟨[], .node [("sub", .node [("obs", .leaf (.vi [1, 2])),
                               ("_reset", .leaf (.vb [true, true])),
                               ("nested", .node [("x", .leaf (.i 1)),
                                                 ("_reset", .leaf (.vb [true, true]))])])]⟩
    [] ["sub", "_reset"] [] ["sub", "nested", "_reset"]
    ⟨[["sub"]],
     .node [("sub", .node [("obs", .leaf (.vi [100, 200])),
                           ("nested", .node [("x", .leaf (.i 9)),
                                             ("_reset", .leaf (.vb [true, true]))])])]⟩
    (.node [("x", .leaf (.i 9))])
    (.node [("x", .leaf (.i 9)), ("_reset", .leaf (.vb [true, true]))])
    rfl ⟨["nested"], rfl⟩ rfl rfl

/-! ### The lazily stacked variant and the heterogeneous-shape catch
(utils.py 428-437 and 465-477)

`_set` / `_set_single_key` wrap their body in `try/except RuntimeError`:
when the message of the caught error matches (anchored, `re.match`) the
pattern "Found more than one unique shape in the tensors", the copy is
re-executed element-wise over `zip(source.tensordicts,
dest.tensordicts)` and the results land back in the stacked
destination; any other error is re-raised unchanged.  This model adds a
`stacked` constructor (`LazyStackedTensorDict`) and an error-raising
entry (an underlying storage failure surfacing on lookup).  The
nested-collection branch of the body is the `_set` model above; here the
body is restricted to the leaf-copy branch, which is where the lookup
raises. -/

/-- Python exception classes seen by the except-clause, with their
message. -/
inductive PyErr where
  | runtimeError (msg : String)
  | typeError (msg : String)
  | attributeError (msg : String)
deriving DecidableEq, Repr

/-- The anchored pattern of utils.py 431/468. -/
def hetPattern : String := "Found more than one unique shape in the tensors"

/-- `re.match(pattern, msg)` for a pattern without metacharacters:
anchored prefix match on the characters. -/
def reMatch (pattern msg : String) : Bool := pattern.data.isPrefixOf msg.data

/-- The message of the error raised by a heterogeneous stacked lookup
(`torch.stack` over tensors of distinct shapes). -/
def hetErrMsg : String := hetPattern ++ " to stack"

/-- The batch with a lazily stacked variant: `raising e` is an entry
whose retrieval raises `e`. -/
inductive TD8 where
  | leaf (v : Val)
  | raising (e : PyErr)
  | node (es : List (Key × TD8))
  | stacked (ts : List TD8)

def findEntry8 : List (Key × TD8) → Key → Option TD8
  | [], _ => none
  | e :: rest, k => if e.1 = k then some e.2 else findEntry8 rest k

def setEntry8 : List (Key × TD8) → Key → TD8 → List (Key × TD8)
  | [], k, v => [(k, v)]
  | e :: rest, k, v => if e.1 = k then (k, v) :: rest else e :: setEntry8 rest k v

/-- `dest._set_str(key, val, ...)` at one level. -/
def set8 : TD8 → Key → TD8 → TD8
  | .node es, k, v => .node (setEntry8 es k v)
  | t, _, _ => t

/-- Leading shape of a stacked leaf component (the dimension
`torch.stack` compares). -/
def shape8 : TD8 → Nat
  | .leaf (.vb bs) => bs.length
  | .leaf (.vi ns) => ns.length
  | .leaf (.vbb bss) => bss.length
  | _ => 0

def allLeaves8 : List TD8 → Bool
  | [] => true
  | .leaf _ :: rest => allLeaves8 rest
  | _ => false

def allShapesEq8 : List TD8 → Bool
  | [] => true
  | t :: rest => rest.all (fun u => shape8 u == shape8 t)

mutual

/-- `source.get(key)` with the stacked variant: a plain node looks the
entry up (an error-carrying entry raises); a stacked batch gathers the
entry from each component and stacks — raising the heterogeneous-shape
`RuntimeError` when the gathered leaves disagree on shape. -/
def get8 : TD8 → Key → Except PyErr (Option TD8)
  | .node es, k =>
    match findEntry8 es k with
    | some (.raising e) => .error e
    | some t => .ok (some t)
    | none => .ok none
  | .stacked ts, k =>
    match gatherGets8 ts k with
    | .error e => .error e
    | .ok none => .ok none
    | .ok (some vals) =>
      if allLeaves8 vals && !allShapesEq8 vals then
        .error (.runtimeError hetErrMsg)
      else .ok (some (.stacked vals))
  | _, _ => .ok none

/-- Gather one key from every component of a stack (`none` when any
component lacks it). -/
def gatherGets8 : List TD8 → Key → Except PyErr (Option (List TD8))
  | [], _ => .ok (some [])
  | t :: rest, k =>
    match get8 t k with
    | .error e => .error e
    | .ok none => .ok none
    | .ok (some v) =>
      match gatherGets8 rest k with
      | .error e => .error e
      | .ok none => .ok none
      | .ok (some vs) => .ok (some (v :: vs))

end

/-- `source.tensordicts` (raises `AttributeError` on a batch that is not
lazily stacked; kept total below by re-raising through the caller). -/
def tensordicts8 : TD8 → Option (List TD8)
  | .stacked ts => some ts
  | _ => none

/-- Rebuild the stacked destination from the element-wise results. -/
def restack8 : Except PyErr (Bool × List TD8) → Except PyErr (Bool × TD8)
  | .error e => .error e
  | .ok (ne, ds1) => .ok (ne, .stacked ds1)

/-- `non_empty_local = _set(...) or non_empty_local` folded over the
zipped stacks, collecting the updated components. -/
def consRes8 : Except PyErr (Bool × TD8) → Except PyErr (Bool × List TD8) →
    Except PyErr (Bool × List TD8)
  | .error e, _ => .error e
  | .ok _, .error e => .error e
  | .ok (b1, d1), .ok (b2, ds1) => .ok (b1 || b2, d1 :: ds1)

/-- The `try/except RuntimeError` of utils.py 444-477 applied to the
outcome of the body, with `retry` the element-wise re-run of the het
branch: a `RuntimeError` whose message matches (anchored, `re.match`)
the heterogeneous-shape pattern triggers the retry; anything else
propagates unchanged. -/
def _set8Catch (dest : TD8) (key : Key) (retry : Except PyErr (Bool × TD8)) :
    Except PyErr (Option TD8) → Except PyErr (Bool × TD8)
  | .ok none => .ok (false, dest)
  | .ok (some val) => .ok (true, set8 dest key val)
  | .error (.runtimeError msg) =>
    if reMatch hetPattern msg then retry else .error (.runtimeError msg)
  | .error e => .error e

mutual

/-- `_set(source, dest, key, total_key, excluded)` (utils.py 440-479),
restricted to the leaf-copy branch of the body, with the
heterogeneous-shape catch of lines 465-477: on a caught match the copy
re-runs element-wise over `zip(source.tensordicts, dest.tensordicts)`
and the results are restacked; when either side is not lazily stacked
the `.tensordicts` access of the het branch surfaces an
`AttributeError`. -/
def _set8 (source dest : TD8) (key : Key) (total_key : KPath)
    (excluded : List KPath) : Except PyErr (Bool × TD8) :=
  if total_key ++ [key] ∈ excluded then .ok (false, dest)
  else
    match source, dest with
    | .stacked ss, .stacked ds =>
      _set8Catch (.stacked ds) key
        (restack8 (_set8Stack ss ds key total_key excluded))
        (get8 (.stacked ss) key)
    | s, d =>
      _set8Catch d key (.error (.attributeError "tensordicts")) (get8 s key)

/-- `for s_td, d_td in zip(...): non_empty_local = _set(s_td, d_td, key,
total_key, excluded) or non_empty_local` (utils.py 471-475). -/
def _set8Stack : List TD8 → List TD8 → Key → KPath → List KPath →
    Except PyErr (Bool × List TD8)
  | s :: ss, d :: ds, key, tk, ex =>
    consRes8 (_set8 s d key tk ex) (_set8Stack ss ds key tk ex)
  | _, _, _, _, _ => .ok (false, [])

end

theorem set8Stack_forall2 :
    ∀ (ss ds : List TD8) (key : Key) (tk : KPath) (ex : List KPath)
      (ne : Bool) (ds1 : List TD8),
    _set8Stack ss ds key tk ex = .ok (ne, ds1) →
    List.Forall₂ (fun (p : TD8 × TD8) (d1 : TD8) =>
        ∃ b, _set8 p.1 p.2 key tk ex = .ok (b, d1)) (ss.zip ds) ds1 := by
  intro ss
  induction ss with
  | nil =>
    intro ds key tk ex ne ds1 h
    simp only [_set8Stack, Except.ok.injEq, Prod.mk.injEq] at h
    rw [← h.2]
    exact List.Forall₂.nil
  | cons s ss2 ih =>
    intro ds key tk ex ne ds1 h
    cases ds with
    | nil =>
      simp only [_set8Stack, Except.ok.injEq, Prod.mk.injEq] at h
      rw [← h.2]
      exact List.Forall₂.nil
    | cons d ds2 =>
      simp only [_set8Stack] at h
      rcases h1 : _set8 s d key tk ex with e1 | ⟨b1, d1⟩ <;> rw [h1] at h
      · simp only [consRes8] at h
        exact Except.noConfusion h
      · rcases h2 : _set8Stack ss2 ds2 key tk ex with e2 | ⟨b2, dsr⟩ <;>
          rw [h2] at h
        · simp only [consRes8] at h
          exact Except.noConfusion h
        · simp only [consRes8, Except.ok.injEq, Prod.mk.injEq] at h
          rw [← h.2]
          exact List.Forall₂.cons ⟨b1, h1⟩ (ih ds2 key tk ex b2 dsr h2)

/-- **C8**.  In the transition's key copying, a failure raised by the
lookup of `key` triggers the element-wise re-execution over the zipped
stacks (with re-stacking of the per-element results) exactly when it is
a `RuntimeError` whose message matches (anchored) the heterogeneous-shape
pattern; any other failure — whatever its class or message — propagates
to the caller unchanged. -/
theorem set_het_catch
    (source dest : TD8) (key : Key) (total_key : KPath)
    (excluded : List KPath) (e : PyErr)
    (hnotex : (total_key ++ [key] ∈ excluded) = False)
    (hget : get8 source key = .error e) :
    ((∀ msg, e = .runtimeError msg → reMatch hetPattern msg = false) →
      _set8 source dest key total_key excluded = .error e)
    ∧ (∀ msg ss ds ne ds1, e = .runtimeError msg →
        reMatch hetPattern msg = true →
        source = .stacked ss → dest = .stacked ds →
        _set8Stack ss ds key total_key excluded = .ok (ne, ds1) →
        _set8 source dest key total_key excluded = .ok (ne, .stacked ds1)
        ∧ List.Forall₂ (fun (p : TD8 × TD8) (d1 : TD8) =>
            ∃ b, _set8 p.1 p.2 key total_key excluded = .ok (b, d1))
            (ss.zip ds) ds1) := by
  have hni : ¬(total_key ++ [key] ∈ excluded) := by rw [hnotex]; exact id
  constructor
  · intro hother
    cases e with
    | runtimeError msg =>
      have hm := hother msg rfl
      cases source <;> cases dest <;>
        simp only [_set8, if_neg hni, hget, _set8Catch, hm, Bool.false_eq_true,
          if_false]
    | typeError msg =>
      cases source <;> cases dest <;>
        simp only [_set8, if_neg hni, hget, _set8Catch]
    | attributeError msg =>
      cases source <;> cases dest <;>
        simp only [_set8, if_neg hni, hget, _set8Catch]
  · intro msg ss ds ne ds1 he hmatch hs hd hstack
    subst he hs hd
    constructor
    · simp only [_set8, if_neg hni, hget, _set8Catch, hmatch, if_true, hstack,
        restack8]
    · exact set8Stack_forall2 ss ds key total_key excluded ne ds1 hstack

/-- Witness for C8: a `TypeError` carrying the very heterogeneous-shape
message still propagates unchanged (left), while the `RuntimeError`
raised by a lookup over a genuinely heterogeneous stack is caught and
the copy re-runs element-wise, restacking both updated components
(right). -/
theorem set_het_catch_witness :
    _set8 (.node [("k", .raising (.typeError hetErrMsg))]) (.node []) "k" [] []
      = .error (.typeError hetErrMsg)
    ∧ _set8
        (.stacked [.node [("k", .leaf (.vi [1]))],
                   .node [("k", .leaf (.vi [1, 2]))]])
        (.stacked [.node [], .node []]) "k" [] []
      = .ok (true, .stacked [.node [("k", .leaf (.vi [1]))],
                             .node [("k", .leaf (.vi [1, 2]))]]) :=
  ⟨(set_het_catch (.node [("k", .raising (.typeError hetErrMsg))]) (.node [])
      "k" [] [] (.typeError hetErrMsg) (by simp) rfl).1
      (fun msg h => nomatch h),
   ((set_het_catch
      (.stacked [.node [("k", .leaf (.vi [1]))],
                 .node [("k", .leaf (.vi [1, 2]))]])
      (.stacked [.node [], .node []]) "k" [] [] (.runtimeError hetErrMsg)
      (by simp) rfl).2 hetErrMsg
      [.node [("k", .leaf (.vi [1]))], .node [("k", .leaf (.vi [1, 2]))]]
      [.node [], .node []] true
      [.node [("k", .leaf (.vi [1]))], .node [("k", .leaf (.vi [1, 2]))]]
      rfl rfl rfl rfl rfl).1⟩

/-! ### C1: the stateful engine refines the stateless `step_mdp`

The round-trip claim compares the leaf content of `_StepMDP.__call__`
with that of `step_mdp`.  The comparison is pointwise on full leaf key
paths: `TD.leafGet` captures at once the key set (`keys(True, True)`)
and the carried values. -/

/-- `p` is a (non-strict) prefix of `q`. -/
def isPrefB : KPath → KPath → Bool
  | [], _ => true
  | _, [] => false
  | a :: p, b :: q => decide (a = b) && isPrefB p q

/-- Two paths are comparable when one is a prefix of the other. -/
def comparableB (p q : KPath) : Bool := isPrefB p q || isPrefB q p

theorem isPrefB_refl : ∀ p : KPath, isPrefB p p = true := by
  intro p
  induction p with
  | nil => rfl
  | cons a p ih => simp [isPrefB, ih]

theorem comparableB_refl (p : KPath) : comparableB p p = true := by
  simp [comparableB, isPrefB_refl]

theorem comparableB_cons (a b : Key) (p q : KPath) :
    comparableB (a :: p) (b :: q) = (decide (a = b) && comparableB p q) := by
  simp only [comparableB, isPrefB]
  by_cases h : a = b
  · subst h
    simp [Bool.and_or_distrib_left]
  · have h2 : ¬(b = a) := fun hh => h hh.symm
    simp [h, h2]

theorem comparableB_append_right : ∀ (p q : KPath), comparableB p (p ++ q) = true := by
  intro p
  induction p with
  | nil => intro q; simp [comparableB, isPrefB]
  | cons a p ih => intro q; simpa [comparableB_cons] using ih q

/-- The chain of `total_key ∈ excluded` checks performed along one
branch of the recursive copy: `base` is the path of the entry about to
be copied, `q` the remaining segments below it. -/
def prefixClear (E : List KPath) : KPath → KPath → Bool
  | base, [] => !(decide (base ∈ E))
  | base, k :: q => !(decide (base ∈ E)) && prefixClear E (base ++ [k]) q

theorem TD.leafGet_set_node (es : List (Key × TD)) (k : Key) (v : TD)
    (k' : Key) (q : KPath) :
    ((TD.node es).set k v).leafGet (k' :: q)
      = if k' = k then v.leafGet q else (TD.node es).leafGet (k' :: q) := by
  simp only [TD.set, TD.leafGet, TD.findEntry_setEntry]
  by_cases h : k' = k
  · simp [h]
  · simp [h]

theorem TD.leafPathsList_shape :
    ∀ (es : List (Key × TD)) (p : KPath), p ∈ TD.leafPathsList es →
    ∃ k q t1, p = k :: q ∧ (k, t1) ∈ es := by
  intro es
  induction es with
  | nil => intro p h; simp [TD.leafPathsList] at h
  | cons e rest ih =>
    intro p h
    rcases e with ⟨k, t1⟩
    simp only [TD.leafPathsList, List.mem_append] at h
    rcases h with h | h
    · cases t1 with
      | leaf v =>
        simp only [List.mem_singleton] at h
        exact ⟨k, [], .leaf v, h, List.mem_cons_self _ _⟩
      | node es1 =>
        simp only [List.mem_map] at h
        rcases h with ⟨q, _, hq⟩
        exact ⟨k, q, .node es1, hq.symm, List.mem_cons_self _ _⟩
    · rcases ih p h with ⟨k2, q2, t2, hp, hm⟩
      exact ⟨k2, q2, t2, hp, List.mem_cons_of_mem _ hm⟩

/-- On a well-formed batch, the enumerated leaf paths are exactly the
paths at which `leafGet` returns a value. -/
theorem TD.mem_leafPaths_iff :
    ∀ (n : Nat) (t : TD), sizeOf t ≤ n → TD.wfB t = true →
    ∀ p, p ∈ t.leafPaths ↔ (t.leafGet p).isSome = true := by
  intro n
  induction n with
  | zero =>
    intro t hsz
    exfalso
    cases t <;> simp at hsz
  | succ n ih =>
    intro t hsz hwf p
    cases t with
    | leaf v =>
      cases p with
      | nil => simp [TD.leafPaths, TD.leafGet]
      | cons k q => simp [TD.leafPaths, TD.leafGet]
    | node es =>
      simp only [TD.node.sizeOf_spec] at hsz
      simp only [TD.wfB, Bool.and_eq_true] at hwf
      have hszes : sizeOf es ≤ n := by omega
      simp only [TD.leafPaths]
      clear hsz
      revert p
      induction es with
      | nil =>
        intro p
        cases p <;> simp [TD.leafPathsList, TD.leafGet, TD.findEntry]
      | cons e rest ihe =>
        intro p
        rcases e with ⟨k, t1⟩
        simp only [TD.nodupKeysB, TD.wfListB, Bool.and_eq_true,
          List.all_eq_true] at hwf
        have hwfr : TD.nodupKeysB rest = true ∧ TD.wfListB rest = true :=
          ⟨hwf.1.2, hwf.2.2⟩
        have hszr : sizeOf rest ≤ n := by
          simp only [List.cons.sizeOf_spec] at hszes
          omega
        have hrec := ihe ⟨hwfr.1, hwfr.2⟩ hszr
        cases p with
        | nil =>
          simp only [TD.leafPathsList, List.mem_append, TD.leafGet]
          constructor
          · intro h
            rcases h with h | h
            · cases t1 <;> simp at h
            · rcases TD.leafPathsList_shape rest [] h with ⟨k2, q2, t2, hp, _⟩
              cases hp
          · intro h
            simp at h
        | cons k3 q =>
          simp only [TD.leafPathsList, List.mem_append, TD.leafGet,
            TD.findEntry]
          by_cases hk : k = k3
          · subst hk
            rw [if_pos rfl]
            have hnr : ∀ p2, p2 ∈ TD.leafPathsList rest → ¬p2 = k :: q := by
              intro p2 hp2 hpe
              rcases TD.leafPathsList_shape rest p2 hp2 with ⟨k2, q2, t2, hp, hm⟩
              rw [hpe] at hp
              have := hwf.1.1 (k2, t2) hm
              simp only [List.cons.injEq] at hp
              simp [hp.1] at this
            constructor
            · intro h
              rcases h with h | h
              · cases t1 with
                | leaf v =>
                  simp only [List.mem_singleton, List.cons.injEq] at h
                  obtain ⟨-, rfl⟩ := h
                  simp [TD.leafGet]
                | node es1 =>
                  simp only [List.mem_map] at h
                  rcases h with ⟨q1, hq1, hqe⟩
                  simp only [List.cons.injEq] at hqe
                  have hq : q1 = q := hqe.2
                  rw [hq] at hq1
                  have hwf1 : TD.wfB (.node es1) = true := hwf.2.1
                  have hsz1 : sizeOf (TD.node es1) ≤ n := by
                    simp only [List.cons.sizeOf_spec, Prod.mk.sizeOf_spec,
                      TD.node.sizeOf_spec] at hszes ⊢
                    omega
                  exact (ih (.node es1) hsz1 hwf1 q).mp hq1
              · exact absurd rfl (hnr _ h)
            · intro h
              left
              cases t1 with
              | leaf v =>
                cases q with
                | nil => simp
                | cons a b => simp [TD.leafGet] at h
              | node es1 =>
                simp only [List.mem_map]
                refine ⟨q, ?_, rfl⟩
                have hwf1 : TD.wfB (.node es1) = true := hwf.2.1
                have hsz1 : sizeOf (TD.node es1) ≤ n := by
                  simp only [List.cons.sizeOf_spec, Prod.mk.sizeOf_spec,
                    TD.node.sizeOf_spec] at hszes ⊢
                  omega
                exact (ih (.node es1) hsz1 hwf1 q).mpr h
          · rw [if_neg hk]
            have hthis := hrec (k3 :: q)
            simp only [TD.leafGet, TD.findEntry] at hthis
            constructor
            · intro h
              rcases h with h | h
              · exfalso
                cases t1 with
                | leaf v =>
                  simp only [List.mem_singleton, List.cons.injEq] at h
                  exact hk h.1.symm
                | node es1 =>
                  simp only [List.mem_map] at h
                  rcases h with ⟨q1, _, hqe⟩
                  simp only [List.cons.injEq] at hqe
                  exact hk hqe.1
              · exact hthis.mp h
            · intro h
              right
              exact hthis.mpr h

theorem prefixClear_false_of_mem (E : List KPath) (base : KPath)
    (h : base ∈ E) : ∀ q, prefixClear E base q = false := by
  intro q
  cases q <;> simp [prefixClear, h]

theorem prefixClear_cons (E : List KPath) (base : KPath) (k : Key) (q : KPath) :
    prefixClear E base (k :: q)
      = (!(decide (base ∈ E)) && prefixClear E (base ++ [k]) q) := rfl

/-- The copy condition of one branch of `_set`: the path denotes a leaf
of the copied value and no accumulated total key along it is excluded. -/
def copyCond (val : TD) (E : List KPath) (tkk : KPath) (q : KPath) : Bool :=
  (val.leafGet q).isSome && prefixClear E tkk q

/-- Copying into a tensor destination leaves it unchanged (dead code in
the original: `dest` is a batch wherever `_set` recurses). -/
theorem setCopy_leaf :
    ∀ n : Nat,
    (∀ val : TD, sizeOf val ≤ n → ∀ (w : Val) (k : Key) (tk : KPath)
        (E : List KPath), (_setEntry val (.leaf w) k tk E).2 = .leaf w)
    ∧ (∀ kvs : List (Key × TD), sizeOf kvs ≤ n → ∀ (w : Val) (tk : KPath)
        (E : List KPath), (_setList kvs (.leaf w) tk E).2 = .leaf w) := by
  intro n
  induction n with
  | zero =>
    constructor
    · intro val hsz; exfalso; cases val <;> simp at hsz
    · intro kvs hsz; exfalso; cases kvs <;> simp at hsz
  | succ n ih =>
    constructor
    · intro val hsz w k tk E
      simp only [_setEntry.eq_def]
      by_cases hm : tk ++ [k] ∈ E
      · simp [hm]
      · rw [if_neg hm]
        try dsimp only
        cases val with
        | leaf v => simp [TD.set]
        | node kvs =>
          try dsimp only
          simp only [TD.get, Option.getD_none]
          rcases hr : (_setList kvs (.node []) (tk ++ [k]) E).1
          · simp [hr]
          · simp [hr, TD.set]
    · intro kvs hsz w tk E
      cases kvs with
      | nil => rfl
      | cons e rest =>
        rcases e with ⟨k1, v1⟩
        simp only [_setList]
        have hsz1 : sizeOf v1 ≤ n := by
          simp only [List.cons.sizeOf_spec, Prod.mk.sizeOf_spec] at hsz
          omega
        have hszr : sizeOf rest ≤ n := by
          simp only [List.cons.sizeOf_spec] at hsz
          omega
        rw [ih.1 v1 hsz1 w k1 tk E]
        exact ih.2 rest hszr w tk E

/-- Leaf-level extensional description of `_setEntry` / `_setList`
(utils.py 440-479): a path below the written key receives the source
value exactly when it denotes a source leaf whose accumulated total keys
avoid the exclusion set; every other leaf path of the destination is
untouched; and the `non_empty` flag is set whenever something is copied.
The hypotheses demand that copied paths are never strictly comparable
with existing destination leaves (guaranteed downstream by
prefix-freeness of the declared environment keys). -/
theorem setCopy_ext :
    ∀ n : Nat,
    (∀ val : TD, sizeOf val ≤ n → ∀ (des : List (Key × TD)) (key : Key)
        (tk : KPath) (E : List KPath), TD.wfB val = true →
      (∀ q, copyCond val E (tk ++ [key]) q = true →
        ∀ p', ((TD.node des).leafGet p').isSome = true →
        comparableB (key :: q) p' = true → p' = key :: q) →
      (∃ des', (_setEntry val (.node des) key tk E).2 = .node des')
      ∧ (∀ q, ((_setEntry val (.node des) key tk E).2).leafGet (key :: q)
          = if copyCond val E (tk ++ [key]) q then val.leafGet q
            else (TD.node des).leafGet (key :: q))
      ∧ (∀ k' q, k' ≠ key →
          ((_setEntry val (.node des) key tk E).2).leafGet (k' :: q)
            = (TD.node des).leafGet (k' :: q))
      ∧ (∀ q, copyCond val E (tk ++ [key]) q = true →
          (_setEntry val (.node des) key tk E).1 = true))
    ∧ (∀ kvs : List (Key × TD), sizeOf kvs ≤ n → ∀ (nd : List (Key × TD))
        (tk : KPath) (E : List KPath),
      TD.nodupKeysB kvs = true → TD.wfListB kvs = true →
      (∀ k v q, TD.findEntry kvs k = some v →
        copyCond v E (tk ++ [k]) q = true →
        ∀ p', ((TD.node nd).leafGet p').isSome = true →
        comparableB (k :: q) p' = true → p' = k :: q) →
      (∃ nd', (_setList kvs (.node nd) tk E).2 = .node nd')
      ∧ (∀ k q v, TD.findEntry kvs k = some v →
          ((_setList kvs (.node nd) tk E).2).leafGet (k :: q)
            = if copyCond v E (tk ++ [k]) q then v.leafGet q
              else (TD.node nd).leafGet (k :: q))
      ∧ (∀ k q, TD.findEntry kvs k = none →
          ((_setList kvs (.node nd) tk E).2).leafGet (k :: q)
            = (TD.node nd).leafGet (k :: q))
      ∧ (∀ k v q, TD.findEntry kvs k = some v →
          copyCond v E (tk ++ [k]) q = true →
          (_setList kvs (.node nd) tk E).1 = true)) := by
  intro n
  induction n with
  | zero =>
    constructor
    · intro val hsz; exfalso; cases val <;> simp at hsz
    · intro kvs hsz; exfalso; cases kvs <;> simp at hsz
  | succ n ih =>
    constructor
    · intro val hsz des key tk E hwf hnc
      by_cases hm : tk ++ [key] ∈ E
      · have hcc : ∀ q, copyCond val E (tk ++ [key]) q = false := by
          intro q
          simp [copyCond, prefixClear_false_of_mem E _ hm q]
        have hres : _setEntry val (.node des) key tk E = (false, .node des) := by
          simp [_setEntry.eq_def, hm]
        rw [hres]
        refine ⟨⟨des, rfl⟩, ?_, ?_, ?_⟩
        · intro q; rw [hcc q]; simp
        · intro k' q _; trivial
        · intro q hq; rw [hcc q] at hq; cases hq
      · have hnm : (!(decide ((tk ++ [key]) ∈ E))) = true := by simp [hm]
        cases val with
        | leaf v =>
          have hres : _setEntry (.leaf v) (.node des) key tk E
              = (true, (TD.node des).set key (.leaf v)) := by
            simp [_setEntry.eq_def, hm]
          rw [hres]
          refine ⟨⟨TD.setEntry des key (.leaf v), rfl⟩, ?_, ?_, ?_⟩
          · intro q
            rw [TD.leafGet_set_node, if_pos rfl]
            cases q with
            | nil =>
              have hc : copyCond (.leaf v) E (tk ++ [key]) [] = true := by
                simp [copyCond, TD.leafGet, prefixClear, hm]
              rw [hc]
              simp [TD.leafGet]
            | cons a b =>
              have hc : copyCond (.leaf v) E (tk ++ [key]) (a :: b) = false := by
                simp [copyCond, TD.leafGet]
              rw [hc]
              simp only [Bool.false_eq_true, if_false]
              have hrhs : (TD.node des).leafGet (key :: a :: b) = none := by
                rcases hx : (TD.node des).leafGet (key :: a :: b) with _ | w2
                · rfl
                · exfalso
                  have hc0 : copyCond (.leaf v) E (tk ++ [key]) [] = true := by
                    simp [copyCond, TD.leafGet, prefixClear, hm]
                  have hcmp : comparableB (key :: ([] : KPath)) (key :: a :: b)
                      = true := by
                    simp [comparableB_cons, comparableB, isPrefB]
                  have := hnc [] hc0 (key :: a :: b) (by rw [hx]; rfl) hcmp
                  simp at this
              rw [hrhs]
              rfl
          · intro k' q hk'
            rw [TD.leafGet_set_node, if_neg hk']
          · intro q _
            rfl
        | node kvs =>
          have hszk : sizeOf kvs ≤ n := by
            simp only [TD.node.sizeOf_spec] at hsz
            omega
          simp only [TD.wfB, Bool.and_eq_true] at hwf
          have hcopy : ∀ k2 q2, copyCond (.node kvs) E (tk ++ [key]) (k2 :: q2) = true →
              ∃ v2, TD.findEntry kvs k2 = some v2
                ∧ copyCond v2 E ((tk ++ [key]) ++ [k2]) q2 = true := by
            intro k2 q2 hq
            simp only [copyCond, TD.leafGet, Bool.and_eq_true] at hq
            rcases hq with ⟨hq1, hq2⟩
            rcases hf : TD.findEntry kvs k2 with _ | v2
            · rw [hf] at hq1; simp at hq1
            · rw [hf] at hq1
              refine ⟨v2, rfl, ?_⟩
              rw [prefixClear_cons] at hq2
              simp only [Bool.and_eq_true] at hq2
              have h22 := hq2.2
              rw [List.append_assoc] at h22
              simp only [List.cons_append, List.nil_append] at h22
              simp [copyCond, hq1, h22]
          have hcopynil : copyCond (.node kvs) E (tk ++ [key]) [] = false := by
            simp [copyCond, TD.leafGet]
          cases hnv : (TD.node des).get key with
          | some sub =>
            cases sub with
            | leaf w =>
              -- destination already holds a tensor at `key`
              have hres : _setEntry (.node kvs) (.node des) key tk E
                  = (if (_setList kvs (.leaf w) (tk ++ [key]) E).1
                     then (true, (TD.node des).set key
                       (_setList kvs (.leaf w) (tk ++ [key]) E).2)
                     else (false, .node des)) := by
                simp only [_setEntry.eq_def]
                rw [if_neg hm]
                try dsimp only
                rw [hnv]
                rfl
              have hr2 : (_setList kvs (.leaf w) (tk ++ [key]) E).2 = .leaf w :=
                (setCopy_leaf (sizeOf kvs)).2 kvs le_rfl w (tk ++ [key]) E
              have hdleaf : ((TD.node des).leafGet (key :: [])).isSome = true := by
                simp [TD.leafGet]
                rw [show TD.findEntry des key = some (.leaf w) from hnv]
                simp [TD.leafGet]
              have hnocond : ∀ q, copyCond (.node kvs) E (tk ++ [key]) q = true →
                  False := by
                intro q hq
                cases q with
                | nil => rw [hcopynil] at hq; cases hq
                | cons k2 q2 =>
                  have hcmp : comparableB (key :: k2 :: q2) (key :: ([] : KPath))
                      = true := by
                    simp [comparableB_cons, comparableB, isPrefB]
                  have := hnc (k2 :: q2) hq (key :: []) hdleaf hcmp
                  simp at this
              have hsetid : ∀ p, ((TD.node des).set key (.leaf w)).leafGet p
                  = (TD.node des).leafGet p := by
                intro p
                cases p with
                | nil => rfl
                | cons k' q =>
                  rw [TD.leafGet_set_node]
                  by_cases hk' : k' = key
                  · subst hk'
                    rw [if_pos rfl]
                    simp only [TD.leafGet]
                    rw [show TD.findEntry des k' = some (.leaf w) from hnv]
                  · rw [if_neg hk']
              rw [hres]
              rcases hr1 : (_setList kvs (.leaf w) (tk ++ [key]) E).1
              · simp only [Bool.false_eq_true, if_false]
                refine ⟨⟨des, rfl⟩, ?_, ?_, ?_⟩
                · intro q
                  rcases hcnd : copyCond (.node kvs) E (tk ++ [key]) q
                  · simp
                  · exact absurd hcnd (by intro hh; exact hnocond q hh)
                · intro k' q _; trivial
                · intro q hq; exact absurd hq (by intro hh; exact hnocond q hh)
              · simp only [if_true]
                refine ⟨⟨TD.setEntry des key _, by rw [hr2]; rfl⟩, ?_, ?_, ?_⟩
                · intro q
                  rcases hcnd : copyCond (.node kvs) E (tk ++ [key]) q
                  · simp only [Bool.false_eq_true, if_false]
                    rw [hr2]
                    exact hsetid (key :: q)
                  · exact absurd hcnd (by intro hh; exact hnocond q hh)
                · intro k' q hk'
                  rw [hr2]
                  exact hsetid (k' :: q)
                · intro q hq
                  exact absurd hq (by intro hh; exact hnocond q hh)
            | node des2 =>
              have hlift : ∀ q, (TD.node des2).leafGet q
                  = (TD.node des).leafGet (key :: q) := by
                intro q
                simp only [TD.leafGet]
                rw [show TD.findEntry des key = some (.node des2) from hnv]
              have hres : _setEntry (.node kvs) (.node des) key tk E
                  = (if (_setList kvs (.node des2) (tk ++ [key]) E).1
                     then (true, (TD.node des).set key
                       (_setList kvs (.node des2) (tk ++ [key]) E).2)
                     else (false, .node des)) := by
                simp only [_setEntry.eq_def]
                rw [if_neg hm]
                try dsimp only
                rw [hnv]
                rfl
              have hncl : ∀ k v q, TD.findEntry kvs k = some v →
                  copyCond v E ((tk ++ [key]) ++ [k]) q = true →
                  ∀ p', ((TD.node des2).leafGet p').isSome = true →
                  comparableB (k :: q) p' = true → p' = k :: q := by
                intro k v q hf hc p' hp' hcmp
                cases p' with
                | nil => simp [TD.leafGet] at hp'
                | cons a b =>
                  rw [hlift (a :: b)] at hp'
                  have hcond : copyCond (.node kvs) E (tk ++ [key]) (k :: q)
                      = true := by
                    simp only [copyCond, TD.leafGet, hf, Bool.and_eq_true,
                      prefixClear_cons]
                    simp only [copyCond, Bool.and_eq_true] at hc
                    have hc2 := hc.2
                    rw [List.append_assoc] at hc2
                    simp only [List.cons_append, List.nil_append] at hc2
                    exact ⟨hc.1, by simp [hm, hc2]⟩
                  have hcmp2 : comparableB (key :: k :: q) (key :: a :: b)
                      = true := by
                    rw [comparableB_cons]
                    simp [hcmp]
                  have := hnc (k :: q) hcond (key :: a :: b) hp' hcmp2
                  simp only [List.cons.injEq] at this
                  rw [this.2.1, this.2.2]
              have hIH := ih.2 kvs hszk des2 (tk ++ [key]) E hwf.1 hwf.2 hncl
              rcases hIH with ⟨⟨nd', hnd'⟩, hii, hiii, hiv⟩
              rw [hres]
              rcases hr1 : (_setList kvs (.node des2) (tk ++ [key]) E).1
              · simp only [Bool.false_eq_true, if_false]
                have hnocond : ∀ q, copyCond (.node kvs) E (tk ++ [key]) q = true →
                    False := by
                  intro q hq
                  cases q with
                  | nil => rw [hcopynil] at hq; cases hq
                  | cons k2 q2 =>
                    rcases hcopy k2 q2 hq with ⟨v2, hf2, hc2⟩
                    have := hiv k2 v2 q2 hf2 hc2
                    rw [hr1] at this
                    cases this
                refine ⟨⟨des, rfl⟩, ?_, ?_, ?_⟩
                · intro q
                  rcases hcnd : copyCond (.node kvs) E (tk ++ [key]) q
                  · simp
                  · exact absurd hcnd (by intro hh; exact hnocond q hh)
                · intro k' q _; trivial
                · intro q hq; exact absurd hq (by intro hh; exact hnocond q hh)
              · simp only [if_true]
                refine ⟨⟨TD.setEntry des key _, rfl⟩, ?_, ?_, ?_⟩
                · intro q
                  rw [TD.leafGet_set_node, if_pos rfl]
                  cases q with
                  | nil =>
                    rw [hcopynil]
                    simp only [Bool.false_eq_true, if_false]
                    rw [hnd']
                    rw [← hlift []]
                    rfl
                  | cons k2 q2 =>
                    rcases hf2 : TD.findEntry kvs k2 with _ | v2
                    · rw [hiii k2 q2 hf2, hlift (k2 :: q2)]
                      have hcnd : copyCond (.node kvs) E (tk ++ [key]) (k2 :: q2)
                          = false := by
                        simp [copyCond, TD.leafGet, hf2]
                      rw [hcnd]
                      simp
                    · rw [hii k2 q2 v2 hf2]
                      have hcondeq : copyCond (.node kvs) E (tk ++ [key]) (k2 :: q2)
                          = copyCond v2 E ((tk ++ [key]) ++ [k2]) q2 := by
                        simp [copyCond, TD.leafGet, hf2, prefixClear_cons, hm,
                          Bool.and_assoc]
                      rw [hcondeq]
                      rcases hcnd : copyCond v2 E ((tk ++ [key]) ++ [k2]) q2
                      · simp only [Bool.false_eq_true, if_false]
                        rw [hlift (k2 :: q2)]
                      · simp only [if_true]
                        simp [TD.leafGet, hf2]
                · intro k' q hk'
                  rw [TD.leafGet_set_node, if_neg hk']
                · intro q hq
                  trivial
          | none =>
            have hlift : ∀ q, (TD.node ([] : List (Key × TD))).leafGet q
                = (TD.node des).leafGet (key :: q) := by
              intro q
              cases q with
              | nil =>
                simp only [TD.leafGet]
                rw [show TD.findEntry des key = none from hnv]
              | cons a b =>
                simp only [TD.leafGet, TD.findEntry]
                rw [show TD.findEntry des key = none from hnv]
            have hres : _setEntry (.node kvs) (.node des) key tk E
                = (if (_setList kvs (.node []) (tk ++ [key]) E).1
                   then (true, (TD.node des).set key
                     (_setList kvs (.node []) (tk ++ [key]) E).2)
                   else (false, .node des)) := by
              simp only [_setEntry.eq_def]
              rw [if_neg hm]
              try dsimp only
              rw [hnv]
              rfl
            have hncl : ∀ k v q, TD.findEntry kvs k = some v →
                copyCond v E ((tk ++ [key]) ++ [k]) q = true →
                ∀ p', ((TD.node ([] : List (Key × TD))).leafGet p').isSome = true →
                comparableB (k :: q) p' = true → p' = k :: q := by
              intro k v q hf hc p' hp' hcmp
              exfalso
              cases p' with
              | nil => simp [TD.leafGet] at hp'
              | cons a b => simp [TD.leafGet, TD.findEntry] at hp'
            have hIH := ih.2 kvs hszk [] (tk ++ [key]) E hwf.1 hwf.2 hncl
            rcases hIH with ⟨⟨nd', hnd'⟩, hii, hiii, hiv⟩
            rw [hres]
            rcases hr1 : (_setList kvs (.node []) (tk ++ [key]) E).1
            · simp only [Bool.false_eq_true, if_false]
              have hnocond : ∀ q, copyCond (.node kvs) E (tk ++ [key]) q = true →
                  False := by
                intro q hq
                cases q with
                | nil => rw [hcopynil] at hq; cases hq
                | cons k2 q2 =>
                  rcases hcopy k2 q2 hq with ⟨v2, hf2, hc2⟩
                  have := hiv k2 v2 q2 hf2 hc2
                  rw [hr1] at this
                  cases this
              refine ⟨⟨des, rfl⟩, ?_, ?_, ?_⟩
              · intro q
                rcases hcnd : copyCond (.node kvs) E (tk ++ [key]) q
                · simp
                · exact absurd hcnd (by intro hh; exact hnocond q hh)
              · intro k' q _; trivial
              · intro q hq; exact absurd hq (by intro hh; exact hnocond q hh)
            · simp only [if_true]
              refine ⟨⟨TD.setEntry des key _, rfl⟩, ?_, ?_, ?_⟩
              · intro q
                rw [TD.leafGet_set_node, if_pos rfl]
                cases q with
                | nil =>
                  rw [hcopynil]
                  simp only [Bool.false_eq_true, if_false]
                  rw [hnd']
                  rw [← hlift []]
                  rfl
                | cons k2 q2 =>
                  rcases hf2 : TD.findEntry kvs k2 with _ | v2
                  · rw [hiii k2 q2 hf2, hlift (k2 :: q2)]
                    have hcnd : copyCond (.node kvs) E (tk ++ [key]) (k2 :: q2)
                        = false := by
                      simp [copyCond, TD.leafGet, hf2]
                    rw [hcnd]
                    simp
                  · rw [hii k2 q2 v2 hf2]
                    have hcondeq : copyCond (.node kvs) E (tk ++ [key]) (k2 :: q2)
                        = copyCond v2 E ((tk ++ [key]) ++ [k2]) q2 := by
                      simp [copyCond, TD.leafGet, hf2, prefixClear_cons, hm,
                        Bool.and_assoc]
                    rw [hcondeq]
                    rcases hcnd : copyCond v2 E ((tk ++ [key]) ++ [k2]) q2
                    · simp only [Bool.false_eq_true, if_false]
                      rw [hlift (k2 :: q2)]
                    · simp only [if_true]
                      simp [TD.leafGet, hf2]
              · intro k' q hk'
                rw [TD.leafGet_set_node, if_neg hk']
              · intro q hq
                trivial
    · -- the `_setList` statement
      intro kvs hsz nd tk E hnd hwfl hnc
      cases kvs with
      | nil =>
        refine ⟨⟨nd, rfl⟩, ?_, ?_, ?_⟩
        · intro k q v hf; simp [TD.findEntry] at hf
        · intro k q _; rfl
        · intro k v q hf; simp [TD.findEntry] at hf
      | cons e rest =>
        rcases e with ⟨k1, v1⟩
        have hsz1 : sizeOf v1 ≤ n := by
          simp only [List.cons.sizeOf_spec, Prod.mk.sizeOf_spec] at hsz
          omega
        have hszr : sizeOf rest ≤ n := by
          simp only [List.cons.sizeOf_spec] at hsz
          omega
        simp only [TD.nodupKeysB, TD.wfListB, Bool.and_eq_true,
          List.all_eq_true] at hnd hwfl
        have hf1 : TD.findEntry ((k1, v1) :: rest) k1 = some v1 := by
          simp [TD.findEntry]
        have hnc1 : ∀ q, copyCond v1 E (tk ++ [k1]) q = true →
            ∀ p', ((TD.node nd).leafGet p').isSome = true →
            comparableB (k1 :: q) p' = true → p' = k1 :: q :=
          fun q hq => hnc k1 v1 q hf1 hq
        have hE := ih.1 v1 hsz1 nd k1 tk E hwfl.1 hnc1
        rcases hE with ⟨⟨nd1, hnd1⟩, hA1, hB1, hD1⟩
        rw [hnd1] at hA1 hB1
        have hncr : ∀ k v q, TD.findEntry rest k = some v →
            copyCond v E (tk ++ [k]) q = true →
            ∀ p', ((TD.node nd1).leafGet p').isSome = true →
            comparableB (k :: q) p' = true → p' = k :: q := by
          intro k v q hf hc p' hp' hcmp
          have hkm := TD.mem_of_findEntry hf
          have hkk1 : k ≠ k1 := by
            have := hnd.1 (k, v) hkm
            simpa using this
          cases p' with
          | nil =>
            simp [TD.leafGet] at hp'
          | cons a b =>
            by_cases hak1 : a = k1
            · subst hak1
              exfalso
              rw [comparableB_cons] at hcmp
              simp [hkk1] at hcmp
            · rw [hB1 a b hak1] at hp'
              have hfk : TD.findEntry ((k1, v1) :: rest) k = some v := by
                simp only [TD.findEntry]
                rw [if_neg (by simpa using hkk1.symm : ¬(k1 = k))]
                exact hf
              exact hnc k v q hfk hc (a :: b) hp' hcmp
        have hR := ih.2 rest hszr nd1 tk E hnd.2 hwfl.2 hncr
        rcases hR with ⟨⟨nd2, hnd2⟩, hA2, hB2, hD2⟩
        have hstep : _setList ((k1, v1) :: rest) (.node nd) tk E
            = ((_setEntry v1 (.node nd) k1 tk E).1
                || (_setList rest (_setEntry v1 (.node nd) k1 tk E).2 tk E).1,
               (_setList rest (_setEntry v1 (.node nd) k1 tk E).2 tk E).2) := by
          simp only [_setList]
        rw [hstep, hnd1]
        refine ⟨⟨nd2, hnd2⟩, ?_, ?_, ?_⟩
        · intro k q v hf
          by_cases hk : k = k1
          · subst hk
            rw [hf1] at hf
            simp only [Option.some.injEq] at hf
            subst hf
            have hfr : TD.findEntry rest k = none := by
              apply TD.findEntry_none_of_forall_ne
              intro e2 he2
              have := hnd.1 e2 he2
              simpa using this
            rw [hB2 k q hfr]
            exact hA1 q
          · have hfr : TD.findEntry rest k = some v := by
              simp only [TD.findEntry] at hf
              rw [if_neg (by intro hh; exact hk hh.symm)] at hf
              exact hf
            rw [hA2 k q v hfr]
            rcases hcnd : copyCond v E (tk ++ [k]) q
            · simp only [Bool.false_eq_true, if_false]
              exact hB1 k q hk
            · simp only [if_true]
        · intro k q hf
          simp only [TD.findEntry] at hf
          by_cases hk : k1 = k
          · rw [if_pos hk] at hf; cases hf
          · rw [if_neg hk] at hf
            rw [hB2 k q hf]
            exact hB1 k q (fun hh => hk hh.symm)
        · intro k v q hf hc
          by_cases hk : k = k1
          · subst hk
            rw [hf1] at hf
            simp only [Option.some.injEq] at hf
            subst hf
            rw [hD1 q hc]
            simp
          · have hfr : TD.findEntry rest k = some v := by
              simp only [TD.findEntry] at hf
              rw [if_neg (by intro hh; exact hk hh.symm)] at hf
              exact hf
            rw [hD2 k v q hfr hc]
            simp

theorem TD.wfB_of_get {t : TD} {k : Key} {v : TD} (hwf : TD.wfB t = true)
    (h : t.get k = some v) : TD.wfB v = true := by
  cases t with
  | leaf w => simp [TD.get] at h
  | node es =>
    have hm := TD.mem_of_findEntry (h : TD.findEntry es k = some v)
    exact TD.wfListB_of_mem (TD.wfB_node hwf).2 hm

theorem TD.leafGet_get {t : TD} {k : Key} (q : KPath) :
    t.leafGet (k :: q) = (match t.get k with
      | some v => v.leafGet q
      | none => none) := by
  cases t with
  | leaf w => rfl
  | node es => rfl

/-- Extensional description of the `for key in tensordict.keys(): if key
!= "next": _set(tensordict, out, key, (), excluded)` loop of
`step_mdp` / the fallback branch (utils.py 387-390): a leaf path is
copied from the source exactly when its head key is listed, is not
`"next"`, and the chain of total keys avoids the exclusion set. -/
theorem rootFold_ext :
    ∀ (K : List Key) (td : TD) (E : List KPath) (des : List (Key × TD)),
    TD.wfB td = true → K.Nodup →
    (∀ (k : Key), k ∈ K → k ≠ "next" → ∀ q,
        (td.leafGet (k :: q)).isSome = true → prefixClear E [k] q = true →
        ∀ p', ((TD.node des).leafGet p').isSome = true →
        comparableB (k :: q) p' = true → p' = k :: q) →
    (∃ des', K.foldl (fun o k => if k = "next" then o
        else (_set td o k [] E).2) (.node des) = .node des')
    ∧ ∀ (k : Key) (q : KPath),
      (K.foldl (fun o k => if k = "next" then o
        else (_set td o k [] E).2) (.node des)).leafGet (k :: q)
      = if decide (k ∈ K) && !(decide (k = "next"))
           && (td.leafGet (k :: q)).isSome && prefixClear E [k] q
        then td.leafGet (k :: q)
        else (TD.node des).leafGet (k :: q) := by
  intro K
  induction K with
  | nil =>
    intro td E des hwf hnd hnc
    refine ⟨⟨des, rfl⟩, ?_⟩
    intro k q
    simp
  | cons k1 K ih =>
    intro td E des hwf hnd hnc
    simp only [List.nodup_cons] at hnd
    simp only [List.foldl_cons]
    by_cases hnext : k1 = "next"
    · rw [if_pos hnext]
      have hnc3 : ∀ (k : Key), k ∈ K → k ≠ "next" → ∀ q,
          (td.leafGet (k :: q)).isSome = true → prefixClear E [k] q = true →
          ∀ p', ((TD.node des).leafGet p').isSome = true →
          comparableB (k :: q) p' = true → p' = k :: q :=
        fun k hk => hnc k (List.mem_cons_of_mem _ hk)
      rcases ih td E des hwf hnd.2 hnc3 with ⟨hex, hfold⟩
      refine ⟨hex, ?_⟩
      intro k q
      rw [hfold k q]
      by_cases hk1 : k = k1
      · subst hk1
        simp [hnext]
      · have hmemb : (decide (k ∈ k1 :: K)) = (decide (k ∈ K)) := by
          simp [List.mem_cons, hk1]
        rw [hmemb]
    · rw [if_neg hnext]
      rcases hval : td.get k1 with _ | val
      · -- the head key is not in the source: the write is a no-op
        have hsetid : (_set td (.node des) k1 [] E).2 = .node des := by
          simp [_set, hval]
        rw [hsetid]
        have hnc3 : ∀ (k : Key), k ∈ K → k ≠ "next" → ∀ q,
            (td.leafGet (k :: q)).isSome = true → prefixClear E [k] q = true →
            ∀ p', ((TD.node des).leafGet p').isSome = true →
            comparableB (k :: q) p' = true → p' = k :: q :=
          fun k hk => hnc k (List.mem_cons_of_mem _ hk)
        rcases ih td E des hwf hnd.2 hnc3 with ⟨hex, hfold⟩
        refine ⟨hex, ?_⟩
        intro k q
        rw [hfold k q]
        by_cases hk1 : k = k1
        · subst hk1
          have hnone : td.leafGet (k :: q) = none := by
            rw [TD.leafGet_get q, hval]
          simp [hnone]
        · have hmemb : (decide (k ∈ k1 :: K)) = (decide (k ∈ K)) := by
            simp [List.mem_cons, hk1]
          rw [hmemb]
      · have hset : (_set td (.node des) k1 [] E).2
            = (_setEntry val (.node des) k1 [] E).2 := by
          simp [_set, hval]
        have hwfv : TD.wfB val = true := TD.wfB_of_get hwf hval
        have hvg : ∀ q, val.leafGet q = td.leafGet (k1 :: q) := by
          intro q
          rw [TD.leafGet_get q, hval]
        have hnc1 : ∀ q, copyCond val E ([] ++ [k1]) q = true →
            ∀ p', ((TD.node des).leafGet p').isSome = true →
            comparableB (k1 :: q) p' = true → p' = k1 :: q := by
          intro q hq p' hp' hcmp
          simp only [copyCond, List.nil_append, Bool.and_eq_true, hvg] at hq
          exact hnc k1 (List.mem_cons_self _ _) hnext q hq.1 hq.2 p' hp' hcmp
        rcases (setCopy_ext (sizeOf val)).1 val le_rfl des k1 [] E hwfv hnc1
          with ⟨⟨nd1, hnd1⟩, hA1, hB1, _⟩
        rw [hnd1] at hA1 hB1
        rw [hset, hnd1]
        have hnc2 : ∀ (k : Key), k ∈ K → k ≠ "next" → ∀ q,
            (td.leafGet (k :: q)).isSome = true → prefixClear E [k] q = true →
            ∀ p', ((TD.node nd1).leafGet p').isSome = true →
            comparableB (k :: q) p' = true → p' = k :: q := by
          intro k hk hkn q hl hc p' hp' hcmp
          have hkk1 : k ≠ k1 := fun hh => hnd.1 (hh ▸ hk)
          cases p' with
          | nil => simp [TD.leafGet] at hp'
          | cons a b =>
            by_cases hak1 : a = k1
            · rw [hak1] at hp' hcmp
              rw [hA1 b] at hp'
              rcases hcnd : copyCond val E ([] ++ [k1]) b
              · rw [hcnd] at hp'
                simp only [Bool.false_eq_true, if_false] at hp'
                rw [hak1]
                exact hnc k (List.mem_cons_of_mem _ hk) hkn q hl hc _ hp' hcmp
              · exfalso
                rw [comparableB_cons] at hcmp
                simp [hkk1] at hcmp
            · rw [hB1 a b hak1] at hp'
              exact hnc k (List.mem_cons_of_mem _ hk) hkn q hl hc _ hp' hcmp
        rcases ih td E nd1 hwf hnd.2 hnc2 with ⟨hex, hfold⟩
        refine ⟨hex, ?_⟩
        intro k q
        rw [hfold k q]
        by_cases hk1 : k = k1
        · subst hk1
          have hknot : k ∉ K := fun hh => hnd.1 hh
          rw [hA1 q]
          simp only [copyCond, List.nil_append, hvg]
          simp [hknot, hnext]
        · have hmemb : (decide (k ∈ k1 :: K)) = (decide (k ∈ K)) := by
            simp [List.mem_cons, hk1]
          rw [hmemb]
          rcases hin : decide (k ∈ K)
          · simp only [Bool.false_and, Bool.false_eq_true, if_false]
            exact hB1 k q hk1
          · simp only [Bool.true_and]
            rcases hC : (!decide (k = "next") && (td.leafGet (k :: q)).isSome
                && prefixClear E [k] q)
            · simp only [Bool.false_eq_true, if_false]
              exact hB1 k q hk1
            · simp

/-- Extensional description of the `for key in next_td.keys():
_set(next_td, out, key, (), excluded)` loop (utils.py 394-395). -/
theorem nextFold_ext :
    ∀ (K : List Key) (td : TD) (E : List KPath) (des : List (Key × TD)),
    TD.wfB td = true → K.Nodup →
    (∀ (k : Key), k ∈ K → ∀ q,
        (td.leafGet (k :: q)).isSome = true → prefixClear E [k] q = true →
        ∀ p', ((TD.node des).leafGet p').isSome = true →
        comparableB (k :: q) p' = true → p' = k :: q) →
    (∃ des', K.foldl (fun o k => (_set td o k [] E).2) (.node des) = .node des')
    ∧ ∀ (k : Key) (q : KPath),
      (K.foldl (fun o k => (_set td o k [] E).2) (.node des)).leafGet (k :: q)
      = if decide (k ∈ K) && (td.leafGet (k :: q)).isSome && prefixClear E [k] q
        then td.leafGet (k :: q)
        else (TD.node des).leafGet (k :: q) := by
  intro K
  induction K with
  | nil =>
    intro td E des hwf hnd hnc
    refine ⟨⟨des, rfl⟩, ?_⟩
    intro k q
    simp
  | cons k1 K ih =>
    intro td E des hwf hnd hnc
    simp only [List.nodup_cons] at hnd
    simp only [List.foldl_cons]
    rcases hval : td.get k1 with _ | val
    · have hsetid : (_set td (.node des) k1 [] E).2 = .node des := by
        simp [_set, hval]
      rw [hsetid]
      have hnc3 : ∀ (k : Key), k ∈ K → ∀ q,
          (td.leafGet (k :: q)).isSome = true → prefixClear E [k] q = true →
          ∀ p', ((TD.node des).leafGet p').isSome = true →
          comparableB (k :: q) p' = true → p' = k :: q :=
        fun k hk => hnc k (List.mem_cons_of_mem _ hk)
      rcases ih td E des hwf hnd.2 hnc3 with ⟨hex, hfold⟩
      refine ⟨hex, ?_⟩
      intro k q
      rw [hfold k q]
      by_cases hk1 : k = k1
      · subst hk1
        have hnone : td.leafGet (k :: q) = none := by
          rw [TD.leafGet_get q, hval]
        simp [hnone]
      · have hmemb : (decide (k ∈ k1 :: K)) = (decide (k ∈ K)) := by
          simp [List.mem_cons, hk1]
        rw [hmemb]
    · have hset : (_set td (.node des) k1 [] E).2
          = (_setEntry val (.node des) k1 [] E).2 := by
        simp [_set, hval]
      have hwfv : TD.wfB val = true := TD.wfB_of_get hwf hval
      have hvg : ∀ q, val.leafGet q = td.leafGet (k1 :: q) := by
        intro q
        rw [TD.leafGet_get q, hval]
      have hnc1 : ∀ q, copyCond val E ([] ++ [k1]) q = true →
          ∀ p', ((TD.node des).leafGet p').isSome = true →
          comparableB (k1 :: q) p' = true → p' = k1 :: q := by
        intro q hq p' hp' hcmp
        simp only [copyCond, List.nil_append, Bool.and_eq_true, hvg] at hq
        exact hnc k1 (List.mem_cons_self _ _) q hq.1 hq.2 p' hp' hcmp
      rcases (setCopy_ext (sizeOf val)).1 val le_rfl des k1 [] E hwfv hnc1
        with ⟨⟨nd1, hnd1⟩, hA1, hB1, _⟩
      rw [hnd1] at hA1 hB1
      rw [hset, hnd1]
      have hnc2 : ∀ (k : Key), k ∈ K → ∀ q,
          (td.leafGet (k :: q)).isSome = true → prefixClear E [k] q = true →
          ∀ p', ((TD.node nd1).leafGet p').isSome = true →
          comparableB (k :: q) p' = true → p' = k :: q := by
        intro k hk q hl hc p' hp' hcmp
        have hkk1 : k ≠ k1 := fun hh => hnd.1 (hh ▸ hk)
        cases p' with
        | nil => simp [TD.leafGet] at hp'
        | cons a b =>
          by_cases hak1 : a = k1
          · rw [hak1] at hp' hcmp
            rw [hA1 b] at hp'
            rcases hcnd : copyCond val E ([] ++ [k1]) b
            · rw [hcnd] at hp'
              simp only [Bool.false_eq_true, if_false] at hp'
              rw [hak1]
              exact hnc k (List.mem_cons_of_mem _ hk) q hl hc _ hp' hcmp
            · exfalso
              rw [comparableB_cons] at hcmp
              simp [hkk1] at hcmp
          · rw [hB1 a b hak1] at hp'
            exact hnc k (List.mem_cons_of_mem _ hk) q hl hc _ hp' hcmp
      rcases ih td E nd1 hwf hnd.2 hnc2 with ⟨hex, hfold⟩
      refine ⟨hex, ?_⟩
      intro k q
      rw [hfold k q]
      by_cases hk1 : k = k1
      · subst hk1
        have hknot : k ∉ K := fun hh => hnd.1 hh
        rw [hA1 q]
        simp only [copyCond, List.nil_append, hvg]
        simp [hknot]
      · have hmemb : (decide (k ∈ k1 :: K)) = (decide (k ∈ K)) := by
          simp [List.mem_cons, hk1]
        rw [hmemb]
        rcases hin : decide (k ∈ K)
        · simp only [Bool.false_and, Bool.false_eq_true, if_false]
          exact hB1 k q hk1
        · simp only [Bool.true_and]
          rcases hC : ((td.leafGet (k :: q)).isSome && prefixClear E [k] q)
          · simp only [Bool.false_eq_true, if_false]
            exact hB1 k q hk1
          · simp

/-- Extensional description of `_set_single_key` (utils.py 402-437): it
copies exactly the leaf at the given unraveled path, materialising
intermediate nodes, and leaves every other leaf path alone. -/
theorem set_single_key_ext :
    ∀ (key : KPath) (src : TD) (des : List (Key × TD)),
    key ≠ [] →
    (src.leafGet key).isSome = true →
    (∀ p', ((TD.node des).leafGet p').isSome = true →
      comparableB key p' = true → p' = key) →
    (∃ des', _set_single_key src (.node des) key = .node des')
    ∧ ∀ p, (_set_single_key src (.node des) key).leafGet p
        = if p = key then src.leafGet key else (TD.node des).leafGet p := by
  intro key
  induction key with
  | nil => intro src des hne; exact absurd rfl hne
  | cons k rest ih =>
    intro src des _ hleaf hnc
    rw [TD.leafGet_get rest] at hleaf
    rcases hget : src.get k with _ | val
    · rw [hget] at hleaf; simp at hleaf
    · rw [hget] at hleaf
      cases rest with
      | nil =>
        cases val with
        | node kvs => simp [TD.leafGet] at hleaf
        | leaf v =>
          have hres : _set_single_key src (.node des) [k]
              = (TD.node des).set k (.leaf v) := by
            simp only [_set_single_key, hget]
            try rfl
          rw [hres]
          refine ⟨⟨TD.setEntry des k (.leaf v), rfl⟩, ?_⟩
          intro p
          cases p with
          | nil => simp [TD.set, TD.leafGet]
          | cons a b =>
            rw [TD.leafGet_set_node]
            by_cases hak : a = k
            · rw [if_pos hak]
              cases b with
              | nil =>
                rw [if_pos (by rw [hak])]
                try rw [TD.leafGet_get ([] : KPath), hget]
                try rfl
              | cons c d =>
                have hne2 : ¬(a :: c :: d = [k]) := by simp
                rw [if_neg hne2]
                have hrhs : (TD.node des).leafGet (a :: c :: d) = none := by
                  rcases hx : (TD.node des).leafGet (a :: c :: d) with _ | w2
                  · rfl
                  · exfalso
                    have hcmp : comparableB [k] (a :: c :: d) = true := by
                      rw [← hak]
                      simp [comparableB, isPrefB]
                    have := hnc (a :: c :: d) (by rw [hx]; rfl) hcmp
                    simp at this
                rw [hrhs]
                rfl
            · rw [if_neg hak, if_neg (by simp [hak])]
      | cons k2 rest2 =>
        cases val with
        | leaf v => simp [TD.leafGet] at hleaf
        | node kvs =>
          have hres : _set_single_key src (.node des) (k :: k2 :: rest2)
              = (TD.node des).set k (_set_single_key (.node kvs)
                  (((TD.node des).get k).getD (.node [])) (k2 :: rest2)) := by
            simp only [_set_single_key, hget]
          cases hdk : (TD.node des).get k with
          | none =>
            have hnv : ((TD.node des).get k).getD (.node [])
                = TD.node ([] : List (Key × TD)) := by rw [hdk]; rfl
            have hlift : ∀ q, (TD.node ([] : List (Key × TD))).leafGet q
                = (TD.node des).leafGet (k :: q) := by
              intro q
              rw [TD.leafGet_get q, hdk]
              cases q <;> rfl
            rw [hnv] at hres
            have hnc2 : ∀ p', ((TD.node ([] : List (Key × TD))).leafGet p').isSome
                = true → comparableB (k2 :: rest2) p' = true → p' = k2 :: rest2 := by
              intro p' hp' hcmp
              cases p' with
              | nil => simp [TD.leafGet] at hp'
              | cons a b => simp [TD.leafGet, TD.findEntry] at hp'
            rcases ih (.node kvs) [] (by simp) hleaf hnc2 with ⟨⟨nd1, hnd1⟩, hfold⟩
            rw [hres]
            refine ⟨⟨TD.setEntry des k _, rfl⟩, ?_⟩
            intro p
            cases p with
            | nil => simp [TD.set, TD.leafGet]
            | cons a b =>
              rw [TD.leafGet_set_node]
              by_cases hak : a = k
              · rw [if_pos hak]
                rw [hfold b]
                by_cases hb : b = k2 :: rest2
                · rw [if_pos hb, if_pos (by rw [hak, hb])]
                  rw [TD.leafGet_get (k2 :: rest2), hget]
                · rw [if_neg hb, if_neg (by simp [hak, hb])]
                  rw [hlift b, hak]
              · rw [if_neg hak, if_neg (by simp [hak])]
          | some sub =>
            cases sub with
            | leaf w =>
              exfalso
              have hd2 : ((TD.node des).leafGet [k]).isSome = true := by
                rw [TD.leafGet_get ([] : KPath), hdk]
                rfl
              have hcmp : comparableB (k :: k2 :: rest2) [k] = true := by
                simp [comparableB, isPrefB]
              have := hnc [k] hd2 hcmp
              simp at this
            | node nd0 =>
              have hnv : ((TD.node des).get k).getD (.node []) = TD.node nd0 := by
                rw [hdk]; rfl
              have hlift : ∀ q, (TD.node nd0).leafGet q
                  = (TD.node des).leafGet (k :: q) := by
                intro q
                rw [TD.leafGet_get q, hdk]
              rw [hnv] at hres
              have hnc2 : ∀ p', ((TD.node nd0).leafGet p').isSome = true →
                  comparableB (k2 :: rest2) p' = true → p' = k2 :: rest2 := by
                intro p' hp' hcmp
                rw [hlift p'] at hp'
                have hcmp2 : comparableB (k :: k2 :: rest2) (k :: p') = true := by
                  rw [comparableB_cons]
                  simp [hcmp]
                have := hnc (k :: p') hp' hcmp2
                simp only [List.cons.injEq] at this
                exact this.2
              rcases ih (.node kvs) nd0 (by simp) hleaf hnc2
                with ⟨⟨nd1, hnd1⟩, hfold⟩
              rw [hres]
              refine ⟨⟨TD.setEntry des k _, rfl⟩, ?_⟩
              intro p
              cases p with
              | nil => simp [TD.set, TD.leafGet]
              | cons a b =>
                rw [TD.leafGet_set_node]
                by_cases hak : a = k
                · rw [if_pos hak]
                  rw [hfold b]
                  by_cases hb : b = k2 :: rest2
                  · rw [if_pos hb, if_pos (by rw [hak, hb])]
                    rw [TD.leafGet_get (k2 :: rest2), hget]
                  · rw [if_neg hb, if_neg (by simp [hak, hb])]
                    rw [hlift b, hak]
                · rw [if_neg hak, if_neg (by simp [hak])]

/-- The `for action_key in action_keys: _set_single_key(...)` loop of
the `keep_other=False, exclude_action=False` branch (utils.py 391-393). -/
theorem singleFold_ext :
    ∀ (As : List KPath) (td : TD) (des : List (Key × TD)),
    (∀ a ∈ As, a ≠ [] ∧ (td.leafGet a).isSome = true) →
    (∀ a ∈ As, ∀ b ∈ As, comparableB a b = true → a = b) →
    (∀ a ∈ As, ∀ p', ((TD.node des).leafGet p').isSome = true →
      comparableB a p' = true → p' = a) →
    (∃ des', As.foldl (fun o a => _set_single_key td o a) (.node des)
        = .node des')
    ∧ ∀ p, (As.foldl (fun o a => _set_single_key td o a) (.node des)).leafGet p
        = if decide (p ∈ As) then td.leafGet p
          else (TD.node des).leafGet p := by
  intro As
  induction As with
  | nil =>
    intro td des _ _ _
    refine ⟨⟨des, rfl⟩, ?_⟩
    intro p
    simp
  | cons a1 As ih =>
    intro td des hpres hpair hnc
    simp only [List.foldl_cons]
    have h1 := hpres a1 (List.mem_cons_self _ _)
    rcases set_single_key_ext a1 td des h1.1 h1.2
      (hnc a1 (List.mem_cons_self _ _)) with ⟨⟨nd1, hnd1⟩, hfold1⟩
    rw [hnd1]
    have hnc2 : ∀ a ∈ As, ∀ p', ((TD.node nd1).leafGet p').isSome = true →
        comparableB a p' = true → p' = a := by
      intro a ha p' hp' hcmp
      rw [← hnd1, hfold1 p'] at hp'
      by_cases hpa : p' = a1
      · have := hpair a (List.mem_cons_of_mem _ ha) a1 (List.mem_cons_self _ _)
          (by rw [← hpa]; exact hcmp)
        rw [hpa, this]
      · rw [if_neg hpa] at hp'
        exact hnc a (List.mem_cons_of_mem _ ha) p' hp' hcmp
    rcases ih td nd1 (fun a ha => hpres a (List.mem_cons_of_mem _ ha))
      (fun a ha b hb => hpair a (List.mem_cons_of_mem _ ha) b
        (List.mem_cons_of_mem _ hb)) hnc2 with ⟨hex, hfold⟩
    refine ⟨hex, ?_⟩
    intro p
    rw [hfold p]
    by_cases hin : p ∈ As
    · simp [hin]
    · have hmemb : (decide (p ∈ a1 :: As)) = (decide (p = a1)) := by
        simp [List.mem_cons, hin]
      rw [hmemb]
      have hnin : (decide (p ∈ As)) = false := by simp [hin]
      rw [hnin]
      simp only [Bool.false_eq_true, if_false]
      rw [← hnd1, hfold1 p]
      by_cases hpa : p = a1
      · rw [if_pos hpa, if_pos (by simp [hpa]), hpa]
      · rw [if_neg hpa, if_neg (by simp [hpa])]

theorem comparableB_symm (p q : KPath) : comparableB p q = comparableB q p := by
  simp [comparableB, Bool.or_comm]

/-- Leaf paths of a key-presence tree: the positions carrying `none`
(copy-verbatim markers) in `_repr_key_list_as_tree`'s output. -/
def KTree.hasLeaf : KTree → KPath → Bool
  | _, [] => false
  | .mk es, k :: q =>
    match KTree.findE es k with
    | some none => q.isEmpty
    | some (some t) => KTree.hasLeaf t q
    | none => false

def KTree.nodupEB : List (Key × Option KTree) → Bool
  | [] => true
  | e :: rest => rest.all (fun f => decide (f.1 ≠ e.1)) && KTree.nodupEB rest

/-- A tree with at least one entry. -/
def KTree.neT : KTree → Bool
  | .mk [] => false
  | .mk (_ :: _) => true

mutual

/-- Well-formedness of a presence tree: distinct entry names at each
node and no empty sub-trees (the shape `_repr_key_list_as_tree`
produces). -/
def KTree.wfT : KTree → Bool
  | .mk es => KTree.nodupEB es && KTree.wfL es

def KTree.wfL : List (Key × Option KTree) → Bool
  | [] => true
  | (_, none) :: rest => KTree.wfL rest
  | (_, some t) :: rest => KTree.neT t && KTree.wfT t && KTree.wfL rest

end

theorem KTree.hasLeaf_nil (t : KTree) : KTree.hasLeaf t [] = false := by
  cases t
  rfl

theorem KTree.hasLeaf_cons (es : List (Key × Option KTree)) (k : Key)
    (q : KPath) :
    KTree.hasLeaf (.mk es) (k :: q)
      = (match KTree.findE es k with
         | some none => q.isEmpty
         | some (some t) => KTree.hasLeaf t q
         | none => false) := rfl

theorem KTree.hasLeaf_mk_nil (q : KPath) :
    KTree.hasLeaf (.mk []) q = false := by
  cases q with
  | nil => exact KTree.hasLeaf_nil _
  | cons a b => simp [KTree.hasLeaf_cons, KTree.findE]

theorem KTree.findE_setE (es : List (Key × Option KTree)) (k k' : Key)
    (v : Option KTree) :
    KTree.findE (KTree.setE es k v) k'
      = if k = k' then some v else KTree.findE es k' := by
  induction es with
  | nil =>
    by_cases h : k = k'
    · simp [KTree.setE, KTree.findE, h]
    · simp [KTree.setE, KTree.findE, h]
  | cons e rest ih =>
    by_cases he : e.1 = k
    · by_cases h : k = k'
      · simp [KTree.setE, KTree.findE, he, h]
      · simp [KTree.setE, KTree.findE, he, h]
    · by_cases h2 : e.1 = k'
      · have h4 : ¬(k = k') := by
          intro hh
          rw [← hh] at h2
          exact he h2
        have h5 : ¬(k' = k) := fun hh => h4 hh.symm
        simp [KTree.setE, KTree.findE, he, h2, h4, h5]
      · simp [KTree.setE, KTree.findE, he, h2, ih]

theorem KTree.setE_ne_nil (es : List (Key × Option KTree)) (k : Key)
    (v : Option KTree) : KTree.neT (.mk (KTree.setE es k v)) = true := by
  cases es with
  | nil => rfl
  | cons e rest =>
    simp only [KTree.setE]
    by_cases h : e.1 = k
    · rw [if_pos h]; rfl
    · rw [if_neg h]; rfl

theorem KTree.setE_mem_keys :
    ∀ (es : List (Key × Option KTree)) (k : Key) (v : Option KTree)
      (f : Key × Option KTree), f ∈ KTree.setE es k v →
    f.1 = k ∨ ∃ g ∈ es, f.1 = g.1 := by
  intro es k v
  induction es with
  | nil =>
    intro f hf
    simp [KTree.setE] at hf
    left
    rw [hf]
  | cons e rest ih =>
    intro f hf
    simp only [KTree.setE] at hf
    by_cases he : e.1 = k
    · rw [if_pos he] at hf
      rcases List.mem_cons.mp hf with hf1 | hf1
      · left; rw [hf1]
      · right; exact ⟨f, List.mem_cons_of_mem _ hf1, rfl⟩
    · rw [if_neg he] at hf
      rcases List.mem_cons.mp hf with hf1 | hf1
      · right; exact ⟨e, List.mem_cons_self _ _, by rw [hf1]⟩
      · rcases ih f hf1 with h1 | ⟨g, hg, hg2⟩
        · left; exact h1
        · right; exact ⟨g, List.mem_cons_of_mem _ hg, hg2⟩

theorem KTree.nodupEB_setE (es : List (Key × Option KTree)) (k : Key)
    (v : Option KTree) (h : KTree.nodupEB es = true) :
    KTree.nodupEB (KTree.setE es k v) = true := by
  induction es with
  | nil => simp [KTree.setE, KTree.nodupEB]
  | cons e rest ih =>
    simp only [KTree.nodupEB, Bool.and_eq_true, List.all_eq_true] at h
    simp only [KTree.setE]
    by_cases he : e.1 = k
    · rw [if_pos he]
      simp only [KTree.nodupEB, Bool.and_eq_true, List.all_eq_true]
      refine ⟨?_, h.2⟩
      intro f hf
      have := h.1 f hf
      simp only [decide_eq_true_eq] at this ⊢
      rw [← he]
      exact this
    · rw [if_neg he]
      simp only [KTree.nodupEB, Bool.and_eq_true, List.all_eq_true]
      constructor
      · intro f hf
        simp only [decide_eq_true_eq]
        rcases KTree.setE_mem_keys rest k v f hf with h1 | ⟨g, hg, hg2⟩
        · rw [h1]
          exact fun hh => he hh.symm
        · rw [hg2]
          have := h.1 g hg
          simpa using this
      · exact ih h.2

theorem KTree.wfL_tail {e : Key × Option KTree}
    {rest : List (Key × Option KTree)} (h : KTree.wfL (e :: rest) = true) :
    KTree.wfL rest = true := by
  rcases e with ⟨k, o⟩
  cases o with
  | none => exact h
  | some t =>
    simp only [KTree.wfL, Bool.and_eq_true] at h
    exact h.2

theorem KTree.wfL_setE :
    ∀ (es : List (Key × Option KTree)) (k : Key) (v : Option KTree),
    KTree.wfL es = true →
    (match v with
     | none => True
     | some t => KTree.neT t = true ∧ KTree.wfT t = true) →
    KTree.wfL (KTree.setE es k v) = true := by
  intro es k v
  induction es with
  | nil =>
    intro _ hv
    cases v with
    | none => rfl
    | some t =>
      simp only [KTree.setE, KTree.wfL, Bool.and_eq_true]
      exact ⟨⟨hv.1, hv.2⟩, trivial⟩
  | cons e rest ih =>
    intro h hv
    rcases e with ⟨ke, oe⟩
    simp only [KTree.setE]
    by_cases he : (ke, oe).1 = k
    · rw [if_pos he]
      have hrest : KTree.wfL rest = true := KTree.wfL_tail h
      cases v with
      | none => exact hrest
      | some t =>
        simp only [KTree.wfL, Bool.and_eq_true]
        exact ⟨⟨hv.1, hv.2⟩, hrest⟩
    · rw [if_neg he]
      cases oe with
      | none => exact ih h hv
      | some t2 =>
        simp only [KTree.wfL, Bool.and_eq_true] at h ⊢
        exact ⟨h.1, ih h.2 hv⟩

theorem KTree.wfL_findE :
    ∀ (es : List (Key × Option KTree)) (k : Key) (t : KTree),
    KTree.wfL es = true → KTree.findE es k = some (some t) →
    KTree.neT t = true ∧ KTree.wfT t = true := by
  intro es k t
  induction es with
  | nil => intro _ hf; simp [KTree.findE] at hf
  | cons e rest ih =>
    intro h hf
    rcases e with ⟨ke, oe⟩
    simp only [KTree.findE] at hf
    by_cases he : (ke, oe).1 = k
    · rw [if_pos he] at hf
      simp only [Option.some.injEq] at hf
      cases oe with
      | none => cases hf
      | some t2 =>
        simp only [Option.some.injEq] at hf
        subst hf
        simp only [KTree.wfL, Bool.and_eq_true] at h
        exact ⟨h.1.1, h.1.2⟩
    · rw [if_neg he] at hf
      exact ih (KTree.wfL_tail h) hf

theorem KTree.exists_leaf :
    ∀ (n : Nat) (t : KTree), sizeOf t ≤ n → KTree.wfT t = true →
    KTree.neT t = true → ∃ q, KTree.hasLeaf t q = true := by
  intro n
  induction n with
  | zero =>
    intro t hsz
    exfalso
    cases t <;> simp at hsz
  | succ n ih =>
    intro t hsz hwf hne
    rcases t with ⟨es⟩
    cases es with
    | nil => cases hne
    | cons e rest =>
      rcases e with ⟨k, oe⟩
      cases oe with
      | none =>
        refine ⟨[k], ?_⟩
        simp [KTree.hasLeaf_cons, KTree.findE]
      | some t1 =>
        simp only [KTree.wfT, KTree.wfL, Bool.and_eq_true] at hwf
        have hsz1 : sizeOf t1 ≤ n := by
          simp only [KTree.mk.sizeOf_spec, List.cons.sizeOf_spec,
            Prod.mk.sizeOf_spec, Option.some.sizeOf_spec] at hsz
          omega
        rcases ih t1 hsz1 hwf.2.1.2 hwf.2.1.1 with ⟨q1, hq1⟩
        refine ⟨k :: q1, ?_⟩
        simp [KTree.hasLeaf_cons, KTree.findE, hq1]

/-- Inserting one non-empty unraveled path into a presence tree adds
exactly that leaf, provided the new path is not strictly comparable
with an existing leaf (prefix-freeness of the declared keys). -/
theorem insertPath_hasLeaf :
    ∀ (p : KPath) (t : KTree), p ≠ [] → KTree.wfT t = true →
    (∀ q, KTree.hasLeaf t q = true → comparableB p q = true → q = p) →
    KTree.wfT (KTree.insertPath t p) = true
    ∧ KTree.neT (KTree.insertPath t p) = true
    ∧ ∀ q, KTree.hasLeaf (KTree.insertPath t p) q
        = (KTree.hasLeaf t q || decide (q = p)) := by
  intro p
  induction p with
  | nil => intro t hne; exact absurd rfl hne
  | cons k rest ih =>
    intro t _ hwf hcompat
    rcases t with ⟨es⟩
    simp only [KTree.wfT, Bool.and_eq_true] at hwf
    cases rest with
    | nil =>
      have hres : KTree.insertPath (.mk es) [k] = .mk (KTree.setE es k none) := by
        simp [KTree.insertPath]
      rw [hres]
      refine ⟨?_, KTree.setE_ne_nil es k none, ?_⟩
      · simp only [KTree.wfT, Bool.and_eq_true]
        exact ⟨KTree.nodupEB_setE es k none hwf.1,
          KTree.wfL_setE es k none hwf.2 trivial⟩
      · intro q
        cases q with
        | nil =>
          rw [KTree.hasLeaf_nil, KTree.hasLeaf_nil]
          simp
        | cons k' q' =>
          by_cases hk : k = k'
          · subst hk
            have hL : KTree.hasLeaf (.mk (KTree.setE es k none)) (k :: q')
                = q'.isEmpty := by
              simp [KTree.hasLeaf_cons, KTree.findE_setE]
            rw [hL]
            rcases hf : KTree.findE es k with _ | o
            · have hR : KTree.hasLeaf (.mk es) (k :: q') = false := by
                simp [KTree.hasLeaf_cons, hf]
              rw [hR]
              cases q' <;> simp
            · cases o with
              | none =>
                have hR : KTree.hasLeaf (.mk es) (k :: q') = q'.isEmpty := by
                  simp [KTree.hasLeaf_cons, hf]
                rw [hR]
                cases q' <;> simp
              | some t1 =>
                have hR : KTree.hasLeaf (.mk es) (k :: q')
                    = KTree.hasLeaf t1 q' := by
                  simp [KTree.hasLeaf_cons, hf]
                rw [hR]
                cases q' with
                | nil =>
                  rw [KTree.hasLeaf_nil]
                  simp
                | cons a b =>
                  rcases hlt : KTree.hasLeaf t1 (a :: b)
                  · simp
                  · exfalso
                    have hleaf : KTree.hasLeaf (.mk es) (k :: a :: b) = true := by
                      simp [KTree.hasLeaf_cons, hf, hlt]
                    have hcmp : comparableB [k] (k :: a :: b) = true := by
                      simp [comparableB, isPrefB]
                    have := hcompat (k :: a :: b) hleaf hcmp
                    simp at this
          · have hL : KTree.hasLeaf (.mk (KTree.setE es k none)) (k' :: q')
                = KTree.hasLeaf (.mk es) (k' :: q') := by
              rw [KTree.hasLeaf_cons, KTree.hasLeaf_cons, KTree.findE_setE,
                if_neg hk]
            rw [hL]
            have hqp : (decide (k' :: q' = [k])) = false := by
              simp only [decide_eq_false_iff_not]
              intro hcon
              injection hcon with h1 h2
              exact hk h1.symm
            rw [hqp]
            simp
    | cons k2 rest2 =>
      have hne2 : ¬((k2 :: rest2).isEmpty = true) := by simp
      rcases hf : KTree.findE es k with _ | o
      · have hres : KTree.insertPath (.mk es) (k :: k2 :: rest2)
            = .mk (KTree.setE es k
                (some (KTree.insertPath (.mk []) (k2 :: rest2)))) := by
          simp only [KTree.insertPath]
          rw [if_neg hne2, hf]
          rfl
        rcases ih (.mk []) (by simp) (by rfl)
          (by
            intro q hq
            rw [KTree.hasLeaf_mk_nil] at hq
            exact Bool.noConfusion hq)
          with ⟨hwf1, hne1, hfold1⟩
        rw [hres]
        refine ⟨?_, KTree.setE_ne_nil _ _ _, ?_⟩
        · simp only [KTree.wfT, Bool.and_eq_true]
          exact ⟨KTree.nodupEB_setE es k _ hwf.1,
            KTree.wfL_setE es k _ hwf.2 ⟨hne1, hwf1⟩⟩
        · intro q
          cases q with
          | nil =>
            rw [KTree.hasLeaf_nil, KTree.hasLeaf_nil]
            simp
          | cons k' q' =>
            by_cases hk : k = k'
            · subst hk
              have hL : KTree.hasLeaf
                  (.mk (KTree.setE es k
                    (some (KTree.insertPath (.mk []) (k2 :: rest2)))))
                  (k :: q')
                  = KTree.hasLeaf (KTree.insertPath (.mk []) (k2 :: rest2))
                      q' := by
                simp [KTree.hasLeaf_cons, KTree.findE_setE]
              have hR : KTree.hasLeaf (.mk es) (k :: q') = false := by
                simp [KTree.hasLeaf_cons, hf]
              rw [hL, hR, hfold1 q', KTree.hasLeaf_mk_nil]
              simp [List.cons.injEq]
            · have hL : KTree.hasLeaf
                  (.mk (KTree.setE es k
                    (some (KTree.insertPath (.mk []) (k2 :: rest2)))))
                  (k' :: q')
                  = KTree.hasLeaf (.mk es) (k' :: q') := by
                rw [KTree.hasLeaf_cons, KTree.hasLeaf_cons, KTree.findE_setE,
                  if_neg hk]
              rw [hL]
              have hqp : (decide (k' :: q' = k :: k2 :: rest2)) = false := by
                simp only [decide_eq_false_iff_not]
                intro hcon
                injection hcon with h1 h2
                exact hk h1.symm
              rw [hqp]
              simp
      · cases o with
        | none =>
          exfalso
          have hleaf : KTree.hasLeaf (.mk es) [k] = true := by
            simp [KTree.hasLeaf_cons, hf]
          have hcmp : comparableB (k :: k2 :: rest2) [k] = true := by
            simp [comparableB, isPrefB]
          have := hcompat [k] hleaf hcmp
          simp at this
        | some t1 =>
          have hres : KTree.insertPath (.mk es) (k :: k2 :: rest2)
              = .mk (KTree.setE es k
                  (some (KTree.insertPath t1 (k2 :: rest2)))) := by
            simp only [KTree.insertPath]
            rw [if_neg hne2, hf]
          have hwft1 := KTree.wfL_findE es k t1 hwf.2 hf
          have hcompat1 : ∀ q, KTree.hasLeaf t1 q = true →
              comparableB (k2 :: rest2) q = true → q = k2 :: rest2 := by
            intro q hq hcmp
            have hleaf : KTree.hasLeaf (.mk es) (k :: q) = true := by
              cases q with
              | nil =>
                rw [KTree.hasLeaf_nil] at hq
                exact Bool.noConfusion hq
              | cons a b =>
                simp [KTree.hasLeaf_cons, hf, hq]
            have hcmp2 : comparableB (k :: k2 :: rest2) (k :: q) = true := by
              rw [comparableB_cons]
              simp [hcmp]
            have := hcompat (k :: q) hleaf hcmp2
            simp only [List.cons.injEq] at this
            exact this.2
          rcases ih t1 (by simp) hwft1.2 hcompat1 with ⟨hwf1, hne1, hfold1⟩
          rw [hres]
          refine ⟨?_, KTree.setE_ne_nil _ _ _, ?_⟩
          · simp only [KTree.wfT, Bool.and_eq_true]
            exact ⟨KTree.nodupEB_setE es k _ hwf.1,
              KTree.wfL_setE es k _ hwf.2 ⟨hne1, hwf1⟩⟩
          · intro q
            cases q with
            | nil =>
              rw [KTree.hasLeaf_nil, KTree.hasLeaf_nil]
              simp
            | cons k' q' =>
              by_cases hk : k = k'
              · subst hk
                have hL : KTree.hasLeaf
                    (.mk (KTree.setE es k
                      (some (KTree.insertPath t1 (k2 :: rest2)))))
                    (k :: q')
                    = KTree.hasLeaf (KTree.insertPath t1 (k2 :: rest2))
                        q' := by
                  simp [KTree.hasLeaf_cons, KTree.findE_setE]
                have hR : KTree.hasLeaf (.mk es) (k :: q')
                    = KTree.hasLeaf t1 q' := by
                  simp [KTree.hasLeaf_cons, hf]
                rw [hL, hR, hfold1 q']
                simp [List.cons.injEq]
              · have hL : KTree.hasLeaf
                    (.mk (KTree.setE es k
                      (some (KTree.insertPath t1 (k2 :: rest2)))))
                    (k' :: q')
                    = KTree.hasLeaf (.mk es) (k' :: q') := by
                  rw [KTree.hasLeaf_cons, KTree.hasLeaf_cons, KTree.findE_setE,
                    if_neg hk]
                rw [hL]
                have hqp : (decide (k' :: q' = k :: k2 :: rest2)) = false := by
                  simp only [decide_eq_false_iff_not]
                  intro hcon
                  injection hcon with h1 h2
                  exact hk h1.symm
                rw [hqp]
                simp

/-- `_repr_key_list_as_tree` over a prefix-free list of non-empty paths
is well-formed and has exactly the listed paths as leaves. -/
theorem treeOfKeys_hasLeaf :
    ∀ (L : List KPath) (t : KTree) (done : List KPath),
    KTree.wfT t = true →
    (∀ q, KTree.hasLeaf t q = true ↔ q ∈ done) →
    (∀ p ∈ L, p ≠ []) →
    (∀ p ∈ L, ∀ q ∈ done, comparableB p q = true → q = p) →
    (∀ p ∈ L, ∀ p2 ∈ L, comparableB p p2 = true → p = p2) →
    KTree.wfT (L.foldl KTree.insertPath t) = true
    ∧ ∀ q, KTree.hasLeaf (L.foldl KTree.insertPath t) q = true
        ↔ (q ∈ done ∨ q ∈ L) := by
  intro L
  induction L with
  | nil =>
    intro t done hwf hdone _ _ _
    refine ⟨hwf, ?_⟩
    intro q
    simp only [List.foldl_nil]
    rw [hdone q]
    simp
  | cons p L ih =>
    intro t done hwf hdone hne hcd hpair
    simp only [List.foldl_cons]
    have hcompat : ∀ q, KTree.hasLeaf t q = true → comparableB p q = true →
        q = p := by
      intro q hq hcmp
      exact hcd p (List.mem_cons_self _ _) q ((hdone q).mp hq) hcmp
    rcases insertPath_hasLeaf p t (hne p (List.mem_cons_self _ _)) hwf hcompat
      with ⟨hwf1, _, hfold1⟩
    have hdone1 : ∀ q, KTree.hasLeaf (KTree.insertPath t p) q = true
        ↔ q ∈ p :: done := by
      intro q
      rw [hfold1 q]
      simp only [Bool.or_eq_true, decide_eq_true_eq, List.mem_cons]
      rw [hdone q]
      tauto
    have hcd1 : ∀ p2 ∈ L, ∀ q ∈ p :: done, comparableB p2 q = true →
        q = p2 := by
      intro p2 hp2 q hq hcmp
      rcases List.mem_cons.mp hq with hq1 | hq1
      · rw [hq1] at hcmp
        rw [hq1]
        exact hpair p (List.mem_cons_self _ _) p2
          (List.mem_cons_of_mem _ hp2)
          (by rw [comparableB_symm]; exact hcmp)
      · exact hcd p2 (List.mem_cons_of_mem _ hp2) q hq1 hcmp
    rcases ih (KTree.insertPath t p) (p :: done) hwf1 hdone1
      (fun p2 hp2 => hne p2 (List.mem_cons_of_mem _ hp2)) hcd1
      (fun a ha b hb => hpair a (List.mem_cons_of_mem _ ha) b
        (List.mem_cons_of_mem _ hb)) with ⟨hwf2, hiff⟩
    refine ⟨hwf2, ?_⟩
    intro q
    rw [hiff q]
    simp only [List.mem_cons]
    tauto

/-- Some tree leaf path is a (possibly improper) prefix of `p`: the
positions at which `_grab_and_place` has copied the source wholesale. -/
def KTree.coveredB : KTree → KPath → Bool
  | _, [] => false
  | .mk es, k :: q =>
    match KTree.findE es k with
    | some none => true
    | some (some t) => KTree.coveredB t q
    | none => false

theorem KTree.coveredB_nil (t : KTree) : KTree.coveredB t [] = false := by
  cases t
  rfl

theorem KTree.coveredB_cons (es : List (Key × Option KTree)) (k : Key)
    (q : KPath) :
    KTree.coveredB (.mk es) (k :: q)
      = (match KTree.findE es k with
         | some none => true
         | some (some t) => KTree.coveredB t q
         | none => false) := rfl

theorem KTree.findE_mem :
    ∀ (es : List (Key × Option KTree)) (k : Key) (o : Option KTree),
    KTree.findE es k = some o → ∃ e ∈ es, e.1 = k := by
  intro es k o
  induction es with
  | nil => intro h; simp [KTree.findE] at h
  | cons e rest ih =>
    intro h
    simp only [KTree.findE] at h
    by_cases he : e.1 = k
    · exact ⟨e, List.mem_cons_self _ _, he⟩
    · rw [if_neg he] at h
      rcases ih h with ⟨f, hf, hfk⟩
      exact ⟨f, List.mem_cons_of_mem _ hf, hfk⟩

theorem KTree.findE_none_of_not_mem :
    ∀ (es : List (Key × Option KTree)) (k : Key),
    (∀ f ∈ es, ¬(f.1 = k)) → KTree.findE es k = none := by
  intro es k
  induction es with
  | nil => intro _; rfl
  | cons e rest ih =>
    intro h
    simp only [KTree.findE]
    rw [if_neg (h e (List.mem_cons_self _ _))]
    exact ih (fun f hf => h f (List.mem_cons_of_mem _ hf))

theorem TD.leafGet_node_nil (p : KPath) : (TD.node []).leafGet p = none := by
  cases p <;> simp [TD.leafGet, TD.findEntry]

/-- Extensional description of `_grab_and_place` (utils.py 177-202): a
leaf path of the output carries the source's value exactly when a tree
leaf path is a prefix of it, the destination's value otherwise.
Requires the tree well-formed, every tree leaf path reachable in the
source, and no strict comparability between tree leaf paths and existing
destination leaves. -/
theorem grab_ext :
    ∀ (n : Nat) (es : List (Key × Option KTree)), sizeOf es ≤ n →
    ∀ (din : TD) (des : List (Key × TD)),
    KTree.nodupEB es = true → KTree.wfL es = true →
    (∀ p, KTree.hasLeaf (.mk es) p = true → (din.getPath p).isSome = true) →
    (∀ p, KTree.hasLeaf (.mk es) p = true →
      ∀ p', ((TD.node des).leafGet p').isSome = true →
      comparableB p p' = true → p' = p) →
    ∃ des', grabList es din (.node des) = some (.node des')
    ∧ ∀ p, (TD.node des').leafGet p
        = if KTree.coveredB (.mk es) p then din.leafGet p
          else (TD.node des).leafGet p := by
  intro n
  induction n with
  | zero =>
    intro es hsz
    exfalso
    cases es <;> simp at hsz
  | succ n ih =>
    intro es hsz din des hnd hwfl hpres hnc
    cases es with
    | nil =>
      refine ⟨des, rfl, ?_⟩
      intro p
      have hc : KTree.coveredB (.mk []) p = false := by
        cases p with
        | nil => exact KTree.coveredB_nil _
        | cons a b => simp [KTree.coveredB_cons, KTree.findE]
      rw [hc]
      simp
    | cons e rest =>
      rcases e with ⟨key, sd⟩
      have hszr : sizeOf rest ≤ n := by
        simp only [List.cons.sizeOf_spec, Prod.mk.sizeOf_spec] at hsz
        omega
      have hndh : ∀ f ∈ rest, ¬(f.1 = key) := by
        simp only [KTree.nodupEB, Bool.and_eq_true, List.all_eq_true] at hnd
        intro f hf
        have := hnd.1 f hf
        simpa using this
      have hndr : KTree.nodupEB rest = true := by
        simp only [KTree.nodupEB, Bool.and_eq_true] at hnd
        exact hnd.2
      have hfr : KTree.findE rest key = none :=
        KTree.findE_none_of_not_mem rest key hndh
      have hfind_ne : ∀ k : Key, ¬(k = key) →
          KTree.findE ((key, sd) :: rest) k = KTree.findE rest k := by
        intro k hk
        simp only [KTree.findE]
        rw [if_neg (fun hh => hk hh.symm)]
      have htrans : ∀ k q, ¬(k = key) →
          KTree.hasLeaf (.mk ((key, sd) :: rest)) (k :: q)
            = KTree.hasLeaf (.mk rest) (k :: q) := by
        intro k q hk
        rw [KTree.hasLeaf_cons, KTree.hasLeaf_cons, hfind_ne k hk]
      have hrk : ∀ k q, KTree.hasLeaf (.mk rest) (k :: q) = true →
          ¬(k = key) := by
        intro k q hp hkk
        rw [hkk, KTree.hasLeaf_cons, hfr] at hp
        exact Bool.noConfusion hp
      have hcov : ∀ k q, ¬(k = key) →
          KTree.coveredB (.mk ((key, sd) :: rest)) (k :: q)
            = KTree.coveredB (.mk rest) (k :: q) := by
        intro k q hk
        rw [KTree.coveredB_cons, KTree.coveredB_cons, hfind_ne k hk]
      have hcovr_key : ∀ q, KTree.coveredB (.mk rest) (key :: q) = false := by
        intro q
        rw [KTree.coveredB_cons, hfr]
      cases sd with
      | none =>
        have hl0 : KTree.hasLeaf (.mk ((key, none) :: rest)) [key] = true := by
          simp [KTree.hasLeaf_cons, KTree.findE]
        have hg := hpres [key] hl0
        rcases hget : din.get key with _ | val
        · exfalso
          simp [TD.getPath, hget] at hg
        · have hstep : grabList ((key, none) :: rest) din (.node des)
              = grabList rest din ((TD.node des).set key val) := by
            conv_lhs => rw [grabList]
            rw [hget]
          have hnew : ∀ k q,
              (TD.node (TD.setEntry des key val)).leafGet (k :: q)
                = if k = key then val.leafGet q
                  else (TD.node des).leafGet (k :: q) := by
            intro k q
            exact TD.leafGet_set_node des key val k q
          have hpres2 : ∀ p, KTree.hasLeaf (.mk rest) p = true →
              (din.getPath p).isSome = true := by
            intro p hp
            cases p with
            | nil =>
              rw [KTree.hasLeaf_nil] at hp
              exact Bool.noConfusion hp
            | cons k q =>
              have hk := hrk k q hp
              refine hpres (k :: q) ?_
              rw [htrans k q hk]
              exact hp
          have hnc2 : ∀ p, KTree.hasLeaf (.mk rest) p = true →
              ∀ p', ((TD.node (TD.setEntry des key val)).leafGet p').isSome
                  = true →
              comparableB p p' = true → p' = p := by
            intro p hp p' hp' hcmp
            cases p with
            | nil =>
              rw [KTree.hasLeaf_nil] at hp
              exact Bool.noConfusion hp
            | cons k q =>
              have hk := hrk k q hp
              cases p' with
              | nil => simp [TD.leafGet] at hp'
              | cons k' q' =>
                by_cases hk' : k' = key
                · exfalso
                  rw [hk'] at hcmp
                  rw [comparableB_cons] at hcmp
                  simp [hk] at hcmp
                · rw [hnew k' q', if_neg hk'] at hp'
                  refine hnc (k :: q) ?_ (k' :: q') hp' hcmp
                  rw [htrans k q hk]
                  exact hp
          rcases ih rest hszr din (TD.setEntry des key val) hndr
            (KTree.wfL_tail hwfl) hpres2 hnc2 with ⟨des2, hres2, hform2⟩
          refine ⟨des2, ?_, ?_⟩
          · rw [hstep]
            exact hres2
          · intro p
            cases p with
            | nil =>
              rw [hform2 [], KTree.coveredB_nil, KTree.coveredB_nil]
              simp [TD.leafGet]
            | cons k q =>
              rw [hform2 (k :: q)]
              by_cases hk : k = key
              · rw [hk]
                rw [hcovr_key q]
                simp only [Bool.false_eq_true, if_false]
                rw [hnew key q, if_pos rfl]
                have hckey : KTree.coveredB (.mk ((key, none) :: rest))
                    (key :: q) = true := by
                  rw [KTree.coveredB_cons]
                  simp [KTree.findE]
                rw [hckey]
                simp only [if_true]
                have hdin : din.leafGet (key :: q) = val.leafGet q := by
                  rw [TD.leafGet_get q, hget]
                exact hdin.symm
              · rw [hcov k q hk, hnew k q, if_neg hk]
      | some sub =>
        have hw : (KTree.neT sub = true ∧ KTree.wfT sub = true)
            ∧ KTree.wfL rest = true := by
          simp only [KTree.wfL, Bool.and_eq_true] at hwfl
          exact hwfl
        have hsz_sub : sizeOf sub ≤ n := by
          simp only [List.cons.sizeOf_spec, Prod.mk.sizeOf_spec,
            Option.some.sizeOf_spec] at hsz
          omega
        rcases KTree.exists_leaf (sizeOf sub) sub le_rfl hw.1.2 hw.1.1
          with ⟨q1, hq1⟩
        have hq1ne : q1 ≠ [] := by
          intro hq
          rw [hq, KTree.hasLeaf_nil] at hq1
          exact Bool.noConfusion hq1
        have hlkey : ∀ q, KTree.hasLeaf sub q = true →
            KTree.hasLeaf (.mk ((key, some sub) :: rest)) (key :: q)
              = true := by
          intro q hq
          rw [KTree.hasLeaf_cons]
          rw [show KTree.findE ((key, some sub) :: rest) key
              = some (some sub) from by simp [KTree.findE]]
          exact hq
        have hg := hpres (key :: q1) (hlkey q1 hq1)
        rcases hget : din.get key with _ | val
        · exfalso
          simp [TD.getPath, hget] at hg
        · rcases q1 with _ | ⟨a1, b1⟩
          · exact absurd rfl hq1ne
          cases val with
          | leaf w =>
            exfalso
            simp only [TD.getPath, hget] at hg
            simp [TD.getPath, TD.get] at hg
          | node ves =>
            obtain ⟨WES, hWES, hWform⟩ :
                ∃ WES, ((TD.node des).get key).getD (.node []) = TD.node WES
                ∧ ∀ q, (TD.node WES).leafGet q
                    = (TD.node des).leafGet (key :: q) := by
              rcases hdget : TD.findEntry des key with _ | w
              · refine ⟨[], ?_, ?_⟩
                · simp [TD.get, hdget]
                · intro q
                  rw [TD.leafGet_node_nil, TD.leafGet_get q]
                  simp [TD.get, hdget]
              · cases w with
                | leaf x =>
                  exfalso
                  have hp' : ((TD.node des).leafGet [key]).isSome = true := by
                    rw [TD.leafGet_get ([] : KPath)]
                    simp [TD.get, hdget, TD.leafGet]
                  have hcmp : comparableB (key :: a1 :: b1) [key] = true := by
                    simp [comparableB, isPrefB]
                  have := hnc (key :: a1 :: b1) (hlkey (a1 :: b1) hq1) [key]
                    hp' hcmp
                  simp at this
                | node wes =>
                  refine ⟨wes, ?_, ?_⟩
                  · simp [TD.get, hdget]
                  · intro q
                    rw [TD.leafGet_get q]
                    simp [TD.get, hdget]
            obtain ⟨ses⟩ := sub
            have hsz_ses : sizeOf ses ≤ n := by
              simp only [KTree.mk.sizeOf_spec] at hsz_sub
              omega
            have hsub_wf : KTree.nodupEB ses = true ∧ KTree.wfL ses = true := by
              have := hw.1.2
              simp only [KTree.wfT, Bool.and_eq_true] at this
              exact this
            have hpres_sub : ∀ p, KTree.hasLeaf (.mk ses) p = true →
                ((TD.node ves).getPath p).isSome = true := by
              intro p hp
              have := hpres (key :: p) (hlkey p hp)
              simp only [TD.getPath, hget] at this
              exact this
            have hnc_sub : ∀ p, KTree.hasLeaf (.mk ses) p = true →
                ∀ p', ((TD.node WES).leafGet p').isSome = true →
                comparableB p p' = true → p' = p := by
              intro p hp p' hp' hcmp
              rw [hWform p'] at hp'
              have := hnc (key :: p) (hlkey p hp) (key :: p') hp'
                (by rw [comparableB_cons]; simp [hcmp])
              simp only [List.cons.injEq] at this
              exact this.2
            rcases ih ses hsz_ses (TD.node ves) WES hsub_wf.1 hsub_wf.2
              hpres_sub hnc_sub with ⟨ves', hressub, hformsub⟩
            have hgp : _grab_and_place (.mk ses) (.node ves) (.node WES)
                = some (.node ves') := hressub
            have hstep0 : grabList ((key, some (.mk ses)) :: rest) din
                  (.node des)
                = (match _grab_and_place (.mk ses) (.node ves)
                      (((TD.node des).get key).getD (.node [])) with
                   | none => none
                   | some v => grabList rest din ((TD.node des).set key v)) := by
              conv_lhs => rw [grabList]
              rw [hget]
            have hstep : grabList ((key, some (.mk ses)) :: rest) din
                  (.node des)
                = grabList rest din ((TD.node des).set key (.node ves')) := by
              rw [hstep0, hWES, hgp]
            have hnew : ∀ k q,
                (TD.node (TD.setEntry des key (.node ves'))).leafGet (k :: q)
                  = if k = key then (TD.node ves').leafGet q
                    else (TD.node des).leafGet (k :: q) := by
              intro k q
              exact TD.leafGet_set_node des key (.node ves') k q
            have hpres2 : ∀ p, KTree.hasLeaf (.mk rest) p = true →
                (din.getPath p).isSome = true := by
              intro p hp
              cases p with
              | nil =>
                rw [KTree.hasLeaf_nil] at hp
                exact Bool.noConfusion hp
              | cons k q =>
                have hk := hrk k q hp
                refine hpres (k :: q) ?_
                rw [htrans k q hk]
                exact hp
            have hnc2 : ∀ p, KTree.hasLeaf (.mk rest) p = true →
                ∀ p', ((TD.node (TD.setEntry des key
                    (.node ves'))).leafGet p').isSome = true →
                comparableB p p' = true → p' = p := by
              intro p hp p' hp' hcmp
              cases p with
              | nil =>
                rw [KTree.hasLeaf_nil] at hp
                exact Bool.noConfusion hp
              | cons k q =>
                have hk := hrk k q hp
                cases p' with
                | nil => simp [TD.leafGet] at hp'
                | cons k' q' =>
                  by_cases hk' : k' = key
                  · exfalso
                    rw [hk'] at hcmp
                    rw [comparableB_cons] at hcmp
                    simp [hk] at hcmp
                  · rw [hnew k' q', if_neg hk'] at hp'
                    refine hnc (k :: q) ?_ (k' :: q') hp' hcmp
                    rw [htrans k q hk]
                    exact hp
            rcases ih rest hszr din (TD.setEntry des key (.node ves')) hndr
              hw.2 hpres2 hnc2 with ⟨des2, hres2, hform2⟩
            refine ⟨des2, ?_, ?_⟩
            · rw [hstep]
              exact hres2
            · intro p
              cases p with
              | nil =>
                rw [hform2 [], KTree.coveredB_nil, KTree.coveredB_nil]
                simp [TD.leafGet]
              | cons k q =>
                rw [hform2 (k :: q)]
                by_cases hk : k = key
                · rw [hk]
                  rw [hcovr_key q]
                  simp only [Bool.false_eq_true, if_false]
                  rw [hnew key q, if_pos rfl]
                  rw [hformsub q]
                  have hcv : KTree.coveredB
                      (.mk ((key, some (.mk ses)) :: rest)) (key :: q)
                      = KTree.coveredB (.mk ses) q := by
                    rw [KTree.coveredB_cons]
                    rw [show KTree.findE ((key, some (.mk ses)) :: rest) key
                        = some (some (.mk ses)) from by simp [KTree.findE]]
                  rw [hcv]
                  rcases hc : KTree.coveredB (.mk ses) q
                  · simp only [Bool.false_eq_true, if_false]
                    exact hWform q
                  · simp only [if_true]
                    have hdin : din.leafGet (key :: q)
                        = (TD.node ves).leafGet q := by
                      rw [TD.leafGet_get q, hget]
                    exact hdin.symm
                · rw [hcov k q hk, hnew k q, if_neg hk]

theorem isPrefB_nil (q : KPath) : isPrefB [] q = true := by
  cases q <;> rfl

theorem isPrefB_cons_cons (a b : Key) (p q : KPath) :
    isPrefB (a :: p) (b :: q) = (decide (a = b) && isPrefB p q) := rfl

theorem isPrefB_exists_append :
    ∀ (p q : KPath), isPrefB p q = true → ∃ ext, q = p ++ ext := by
  intro p
  induction p with
  | nil => intro q _; exact ⟨q, rfl⟩
  | cons a p ih =>
    intro q h
    cases q with
    | nil => simp [isPrefB] at h
    | cons b q =>
      rw [isPrefB_cons_cons, Bool.and_eq_true] at h
      rcases ih q h.2 with ⟨ext, hext⟩
      refine ⟨ext, ?_⟩
      have hab : a = b := by simpa using h.1
      rw [hab, hext]
      rfl

theorem comparableB_of_isPrefB {p q : KPath} (h : isPrefB p q = true) :
    comparableB p q = true := by
  simp [comparableB, h]

theorem KTree.coveredB_iff :
    ∀ (p : KPath) (t : KTree), KTree.coveredB t p = true
      ↔ ∃ tp, isPrefB tp p = true ∧ KTree.hasLeaf t tp = true := by
  intro p
  induction p with
  | nil =>
    intro t
    rw [KTree.coveredB_nil]
    simp only [Bool.false_eq_true, false_iff]
    rintro ⟨tp, hpre, hleaf⟩
    cases tp with
    | nil =>
      rw [KTree.hasLeaf_nil] at hleaf
      exact Bool.noConfusion hleaf
    | cons a b => simp [isPrefB] at hpre
  | cons k q ih =>
    intro t
    rcases t with ⟨es⟩
    rw [KTree.coveredB_cons]
    rcases hf : KTree.findE es k with _ | o
    · simp only [Bool.false_eq_true, false_iff]
      rintro ⟨tp, hpre, hleaf⟩
      cases tp with
      | nil =>
        rw [KTree.hasLeaf_nil] at hleaf
        exact Bool.noConfusion hleaf
      | cons a b =>
        rw [isPrefB_cons_cons, Bool.and_eq_true, decide_eq_true_eq] at hpre
        rw [hpre.1] at hleaf
        rw [KTree.hasLeaf_cons, hf] at hleaf
        exact Bool.noConfusion hleaf
    · cases o with
      | none =>
        simp only [true_iff]
        refine ⟨[k], ?_, ?_⟩
        · simp [isPrefB]
        · simp [KTree.hasLeaf_cons, hf]
      | some t1 =>
        rw [ih t1]
        constructor
        · rintro ⟨tq, hpre, hleaf⟩
          refine ⟨k :: tq, ?_, ?_⟩
          · rw [isPrefB_cons_cons]
            simp [hpre]
          · rw [KTree.hasLeaf_cons, hf]
            exact hleaf
        · rintro ⟨tp, hpre, hleaf⟩
          cases tp with
          | nil =>
            rw [KTree.hasLeaf_nil] at hleaf
            exact Bool.noConfusion hleaf
          | cons a b =>
            rw [isPrefB_cons_cons, Bool.and_eq_true, decide_eq_true_eq] at hpre
            rw [hpre.1] at hleaf
            rw [KTree.hasLeaf_cons, hf] at hleaf
            exact ⟨b, hpre.2, hleaf⟩

theorem TD.getPath_isSome_of_leafGet :
    ∀ (p : KPath) (t : TD), (t.leafGet p).isSome = true →
    (t.getPath p).isSome = true := by
  intro p
  induction p with
  | nil => intro t _; simp [TD.getPath]
  | cons k q ih =>
    intro t h
    rw [TD.leafGet_get q] at h
    rcases hget : t.get k with _ | sub
    · rw [hget] at h; simp at h
    · rw [hget] at h
      simp only [TD.getPath, hget]
      exact ih sub h

theorem TD.leafGet_append_none :
    ∀ (tp : KPath) (t : TD) (v : Val), t.leafGet tp = some v →
    ∀ (a : Key) (ext : KPath), t.leafGet (tp ++ a :: ext) = none := by
  intro tp
  induction tp with
  | nil =>
    intro t v h a ext
    cases t with
    | leaf w => simp [TD.leafGet]
    | node es => simp [TD.leafGet] at h
  | cons k tq ih =>
    intro t v h a ext
    rw [TD.leafGet_get tq] at h
    rcases hget : t.get k with _ | sub
    · rw [hget] at h; cases h
    · rw [hget] at h
      rw [List.cons_append, TD.leafGet_get (tq ++ a :: ext), hget]
      exact ih sub v h a ext

theorem TD.keys_of_leafGet (tes : List (Key × TD)) (k : Key) (q : KPath)
    (h : ((TD.node tes).leafGet (k :: q)).isSome = true) :
    k ∈ (TD.node tes).keys := by
  simp only [TD.leafGet] at h
  rcases hf : TD.findEntry tes k with _ | sub
  · rw [hf] at h; simp at h
  · have hm := TD.mem_of_findEntry hf
    simp only [TD.keys]
    exact List.mem_map.mpr ⟨(k, sub), hm, rfl⟩

theorem prefixClear_iff :
    ∀ (E : List KPath) (q base : KPath), prefixClear E base q = true
      ↔ ∀ ext, isPrefB ext q = true → ¬(base ++ ext ∈ E) := by
  intro E q
  induction q with
  | nil =>
    intro base
    simp only [prefixClear, Bool.not_eq_true']
    constructor
    · intro h ext hext
      cases ext with
      | nil =>
        simp only [List.append_nil]
        simpa using h
      | cons a b => simp [isPrefB] at hext
    · intro h
      have := h [] (isPrefB_nil [])
      simp only [List.append_nil] at this
      simpa using this
  | cons k q ih =>
    intro base
    rw [prefixClear_cons, Bool.and_eq_true, ih (base ++ [k])]
    constructor
    · rintro ⟨h1, h2⟩ ext hext
      cases ext with
      | nil =>
        simp only [List.append_nil]
        simp only [Bool.not_eq_true'] at h1
        simpa using h1
      | cons a b =>
        rw [isPrefB_cons_cons, Bool.and_eq_true, decide_eq_true_eq] at hext
        rw [hext.1]
        have := h2 b hext.2
        rw [List.append_assoc] at this
        simpa using this
    · intro h
      constructor
      · have := h [] (isPrefB_nil [])
        simp only [List.append_nil] at this
        simpa using this
      · intro ext hext
        have := h (k :: ext) (by rw [isPrefB_cons_cons]; simp [hext])
        rw [List.append_assoc]
        simpa using this

theorem TD.keys_nodup (tes : List (Key × TD))
    (hnd : TD.nodupKeysB tes = true) : (TD.node tes).keys.Nodup := by
  induction tes with
  | nil => simp [TD.keys]
  | cons e rest ih =>
    simp only [TD.nodupKeysB, Bool.and_eq_true, List.all_eq_true] at hnd
    simp only [TD.keys, List.map_cons, List.nodup_cons]
    constructor
    · intro hmem
      rcases List.mem_map.mp hmem with ⟨f, hf, hfk⟩
      have := hnd.1 f hf
      simp only [decide_eq_true_eq] at this
      exact this hfk
    · have := ih hnd.2
      simpa [TD.keys] using this

/-- Pairwise prefix-freeness of a collection of unraveled key paths:
whenever one is comparable with (a prefix of) another, they are the same
path. -/
def pairwiseFreeB (l : List KPath) : Bool :=
  l.all (fun p => l.all (fun q => !comparableB p q || decide (p = q)))

/-- Disjointness of two path collections. -/
def disjB (l1 l2 : List KPath) : Bool :=
  l1.all (fun p => !(decide (p ∈ l2)))

/-- A nonempty path that does not start with the reserved segment
`"next"`. -/
def goodPathB : KPath → Bool
  | [] => false
  | h :: _ => decide (h ≠ "next")

/-- The concatenation of the five declared key lists of an environment. -/
def jointKeys (env : EnvKeys) : List KPath :=
  env.action_keys ++ env.done_keys ++ env.reward_keys ++
  env.observation_keys ++ env.state_keys

/-- Executable well-formedness of an environment's declared keys, as
guaranteed by the spec containers: every declared path is nonempty and
not rooted at `"next"`, the declared paths are pairwise prefix-free, and
the five categories are pairwise disjoint. -/
def wfEnvB (env : EnvKeys) : Bool :=
  (jointKeys env).all goodPathB && pairwiseFreeB (jointKeys env) &&
  disjB env.action_keys env.done_keys &&
  disjB env.action_keys env.reward_keys &&
  disjB env.action_keys env.observation_keys &&
  disjB env.action_keys env.state_keys &&
  disjB env.done_keys env.reward_keys &&
  disjB env.done_keys env.observation_keys &&
  disjB env.done_keys env.state_keys &&
  disjB env.reward_keys env.observation_keys &&
  disjB env.reward_keys env.state_keys &&
  disjB env.observation_keys env.state_keys

theorem pairwiseFreeB_spec {l : List KPath} (h : pairwiseFreeB l = true) :
    ∀ p ∈ l, ∀ q ∈ l, comparableB p q = true → p = q := by
  simp only [pairwiseFreeB, List.all_eq_true] at h
  intro p hp q hq hc
  have := h p hp q hq
  rcases Bool.or_eq_true _ _ |>.mp this with h1 | h1
  · rw [hc] at h1
    cases h1
  · simpa using h1

theorem disjB_spec {l1 l2 : List KPath} (h : disjB l1 l2 = true) :
    ∀ p ∈ l1, ¬(p ∈ l2) := by
  simp only [disjB, List.all_eq_true] at h
  intro p hp hq
  have := h p hp
  simp [hq] at this

theorem goodPathB_spec {p : KPath} (h : goodPathB p = true) :
    ∃ h1 t1, p = h1 :: t1 ∧ ¬(h1 = "next") := by
  cases p with
  | nil => cases h
  | cons h1 t1 =>
    simp only [goodPathB, decide_eq_true_eq] at h
    exact ⟨h1, t1, rfl, h⟩

theorem expected_mem_shape (St A D O Rw : List KPath) (p : KPath) :
    p ∈ (St ++ A ++ D ++ O ++ O.map (fun r => "next" :: r) ++
         D.map (fun r => "next" :: r) ++ Rw.map (fun r => "next" :: r)) ↔
    ((p ∈ St ∨ p ∈ A ∨ p ∈ D ∨ p ∈ O) ∨
     ∃ r, p = "next" :: r ∧ (r ∈ O ∨ r ∈ D ∨ r ∈ Rw)) := by
  simp only [List.mem_append, List.mem_map]
  constructor
  · rintro ((((((h | h) | h) | h) | ⟨a, ha, hp⟩) | ⟨a, ha, hp⟩) | ⟨a, ha, hp⟩)
    · exact Or.inl (Or.inl h)
    · exact Or.inl (Or.inr (Or.inl h))
    · exact Or.inl (Or.inr (Or.inr (Or.inl h)))
    · exact Or.inl (Or.inr (Or.inr (Or.inr h)))
    · exact Or.inr ⟨a, hp.symm, Or.inl ha⟩
    · exact Or.inr ⟨a, hp.symm, Or.inr (Or.inl ha)⟩
    · exact Or.inr ⟨a, hp.symm, Or.inr (Or.inr ha)⟩
  · rintro ((h | h | h | h) | ⟨r, rfl, (h | h | h)⟩)
    · exact Or.inl (Or.inl (Or.inl (Or.inl (Or.inl (Or.inl h)))))
    · exact Or.inl (Or.inl (Or.inl (Or.inl (Or.inl (Or.inr h)))))
    · exact Or.inl (Or.inl (Or.inl (Or.inl (Or.inr h))))
    · exact Or.inl (Or.inl (Or.inl (Or.inr h)))
    · exact Or.inl (Or.inl (Or.inr ⟨r, h, rfl⟩))
    · exact Or.inl (Or.inr ⟨r, h, rfl⟩)
    · exact Or.inr ⟨r, h, rfl⟩

theorem mkExcluded_mem (er ed ea : Bool) (Rw D A : List KPath) (p : KPath) :
    p ∈ mkExcluded er ed ea Rw D A ↔
    ((er = true ∧ p ∈ Rw) ∨ (ed = true ∧ p ∈ D) ∨ (ea = true ∧ p ∈ A)) := by
  simp only [mkExcluded, List.mem_append]
  cases er <;> cases ed <;> cases ea <;> simp <;> tauto

theorem rootList_mem (ea keep : Bool) (A St : List KPath) (p : KPath) :
    p ∈ ((if !ea then A else []) ++ (if keep then St else [])) ↔
    ((ea = false ∧ p ∈ A) ∨ (keep = true ∧ p ∈ St)) := by
  simp only [List.mem_append]
  cases ea <;> cases keep <;> simp

theorem nextList_mem (er ed : Bool) (O Rw D : List KPath) (p : KPath) :
    p ∈ (O ++ (if !er then Rw else []) ++ (if !ed then D else [])) ↔
    (p ∈ O ∨ (er = false ∧ p ∈ Rw) ∨ (ed = false ∧ p ∈ D)) := by
  simp only [List.mem_append]
  cases er <;> cases ed <;> simp <;> tauto

/-- Fast-path core of the refinement: when the cached validation
succeeds, the two tree-driven `_grab_and_place` passes of
`_StepMDP.__call__` produce leaf-for-leaf the same batch as the generic
key loops of `step_mdp`. -/
theorem call_fast_agrees_step_mdp
    (env : EnvKeys) (keep_other exclude_reward exclude_done exclude_action : Bool)
    (tes nes : List (Key × TD))
    (hwf : TD.wfB (TD.node tes) = true)
    (hnext : (TD.node tes).get "next" = some (.node nes))
    (henv : wfEnvB env = true)
    (hval : StepMDP.eqAsSetB
      (StepMDP.expected (StepMDP.init env keep_other exclude_reward
        exclude_done exclude_action))
      (TD.node tes).leafPaths = true) :
    ∃ outF outS,
      (StepMDP.call (StepMDP.init env keep_other exclude_reward exclude_done
          exclude_action) none (TD.node tes)).1 = some outF
      ∧ step_mdp (TD.node tes) keep_other exclude_reward exclude_done
          exclude_action env.reward_keys env.done_keys env.action_keys
          = some outS
      ∧ ∀ p, outF.leafGet p = outS.leafGet p := by
  have hexp_eq : StepMDP.expected (StepMDP.init env keep_other exclude_reward
      exclude_done exclude_action)
      = env.state_keys ++ env.action_keys ++ env.done_keys ++
        env.observation_keys ++
        env.observation_keys.map (fun p => "next" :: p) ++
        env.done_keys.map (fun p => "next" :: p) ++
        env.reward_keys.map (fun p => "next" :: p) := rfl
  simp only [wfEnvB, Bool.and_eq_true] at henv
  obtain ⟨⟨⟨⟨⟨⟨⟨⟨⟨⟨⟨hgd, hpw⟩, hdAD⟩, hdAR⟩, hdAO⟩, hdASt⟩, hdDR⟩, hdDO⟩,
    hdDSt⟩, hdRO⟩, hdRSt⟩, hdOSt⟩ := henv
  have hJmem : ∀ p : KPath, p ∈ jointKeys env ↔
      (p ∈ env.action_keys ∨ p ∈ env.done_keys ∨ p ∈ env.reward_keys ∨
       p ∈ env.observation_keys ∨ p ∈ env.state_keys) := by
    intro p
    simp only [jointKeys, List.mem_append]
    tauto
  have hpair : ∀ p q : KPath,
      (p ∈ env.action_keys ∨ p ∈ env.done_keys ∨ p ∈ env.reward_keys ∨
       p ∈ env.observation_keys ∨ p ∈ env.state_keys) →
      (q ∈ env.action_keys ∨ q ∈ env.done_keys ∨ q ∈ env.reward_keys ∨
       q ∈ env.observation_keys ∨ q ∈ env.state_keys) →
      comparableB p q = true → p = q :=
    fun p q hp hq => pairwiseFreeB_spec hpw p ((hJmem p).mpr hp) q
      ((hJmem q).mpr hq)
  have hgood : ∀ p : KPath,
      (p ∈ env.action_keys ∨ p ∈ env.done_keys ∨ p ∈ env.reward_keys ∨
       p ∈ env.observation_keys ∨ p ∈ env.state_keys) →
      ∃ h1 t1, p = h1 :: t1 ∧ ¬(h1 = "next") := by
    intro p hp
    exact goodPathB_spec (List.all_eq_true.mp hgd p ((hJmem p).mpr hp))
  have hvv := hval
  rw [hexp_eq] at hvv
  simp only [StepMDP.eqAsSetB, Bool.and_eq_true, List.all_eq_true] at hvv
  have hEXP : ∀ p, (((TD.node tes).leafGet p).isSome = true) ↔
      ((p ∈ env.state_keys ∨ p ∈ env.action_keys ∨ p ∈ env.done_keys ∨
        p ∈ env.observation_keys) ∨
       ∃ r, p = "next" :: r ∧ (r ∈ env.observation_keys ∨
         r ∈ env.done_keys ∨ r ∈ env.reward_keys)) := by
    intro p
    rw [← TD.mem_leafPaths_iff (sizeOf (TD.node tes)) _ le_rfl hwf p]
    rw [← expected_mem_shape env.state_keys env.action_keys env.done_keys
      env.observation_keys env.reward_keys p]
    constructor
    · intro h
      have := hvv.2 p h
      simpa using this
    · intro h
      have := hvv.1 p h
      simpa using this
  have hNX : ∀ r, (TD.node nes).leafGet r
      = (TD.node tes).leafGet ("next" :: r) := by
    intro r
    rw [TD.leafGet_get r, hnext]
  have hnothead : ∀ r : KPath, ¬(("next" :: r) ∈ env.action_keys ∨
      ("next" :: r) ∈ env.done_keys ∨ ("next" :: r) ∈ env.reward_keys ∨
      ("next" :: r) ∈ env.observation_keys ∨
      ("next" :: r) ∈ env.state_keys) := by
    intro r hmem
    rcases hgood _ hmem with ⟨h1, t1, hc, hn⟩
    injection hc with h1eq _
    exact hn h1eq.symm
  have hNEXT : ∀ r, (((TD.node nes).leafGet r).isSome = true) ↔
      (r ∈ env.observation_keys ∨ r ∈ env.done_keys ∨
       r ∈ env.reward_keys) := by
    intro r
    rw [hNX r, hEXP ("next" :: r)]
    constructor
    · rintro ((h | h | h | h) | ⟨r2, hr2, hcat⟩)
      · exact absurd (Or.inr (Or.inr (Or.inr (Or.inr h)))) (hnothead r)
      · exact absurd (Or.inl h) (hnothead r)
      · exact absurd (Or.inr (Or.inl h)) (hnothead r)
      · exact absurd (Or.inr (Or.inr (Or.inr (Or.inl h)))) (hnothead r)
      · have hr : r2 = r := by
          injection hr2 with _ h2
          exact h2.symm
        rw [← hr]
        exact hcat
    · intro h
      exact Or.inr ⟨r, rfl, h⟩
  have hpairJ := pairwiseFreeB_spec hpw
  have hexpJ : ∀ p : KPath, (p ∈ env.state_keys ∨ p ∈ env.action_keys ∨
      p ∈ env.done_keys ∨ p ∈ env.observation_keys) → p ∈ jointKeys env := by
    intro p hp
    rcases hp with h | h | h | h
    · exact (hJmem p).mpr (Or.inr (Or.inr (Or.inr (Or.inr h))))
    · exact (hJmem p).mpr (Or.inl h)
    · exact (hJmem p).mpr (Or.inr (Or.inl h))
    · exact (hJmem p).mpr (Or.inr (Or.inr (Or.inr (Or.inl h))))
  -- presence trees
  have hwfmk : KTree.wfT (.mk []) = true := rfl
  have hdone0 : ∀ q : KPath, KTree.hasLeaf (.mk []) q = true
      ↔ q ∈ ([] : List KPath) := by
    intro q
    rw [KTree.hasLeaf_mk_nil]
    simp
  have hrootLmem := fun p => rootList_mem exclude_action keep_other
    env.action_keys env.state_keys p
  have hnextLmem := fun p => nextList_mem exclude_reward exclude_done
    env.observation_keys env.reward_keys env.done_keys p
  have hrootJ : ∀ p, p ∈ ((if !exclude_action then env.action_keys else []) ++
      (if keep_other then env.state_keys else [])) → p ∈ jointKeys env := by
    intro p hp
    rcases (hrootLmem p).mp hp with ⟨_, h⟩ | ⟨_, h⟩
    · exact (hJmem p).mpr (Or.inl h)
    · exact (hJmem p).mpr (Or.inr (Or.inr (Or.inr (Or.inr h))))
  have hnextJ : ∀ p, p ∈ (env.observation_keys ++
      (if !exclude_reward then env.reward_keys else []) ++
      (if !exclude_done then env.done_keys else [])) → p ∈ jointKeys env := by
    intro p hp
    rcases (hnextLmem p).mp hp with h | ⟨_, h⟩ | ⟨_, h⟩
    · exact (hJmem p).mpr (Or.inr (Or.inr (Or.inr (Or.inl h))))
    · exact (hJmem p).mpr (Or.inr (Or.inr (Or.inl h)))
    · exact (hJmem p).mpr (Or.inr (Or.inl h))
  have hgoodJ : ∀ p : KPath, p ∈ jointKeys env →
      ∃ h1 t1, p = h1 :: t1 ∧ ¬(h1 = "next") := by
    intro p hp
    exact goodPathB_spec (List.all_eq_true.mp hgd p hp)
  obtain ⟨hwfTR, hleafR⟩ := treeOfKeys_hasLeaf
      ((if !exclude_action then env.action_keys else []) ++
       (if keep_other then env.state_keys else []))
      (.mk []) [] hwfmk hdone0
      (by
        intro p hp
        rcases hgoodJ p (hrootJ p hp) with ⟨h1, t1, hc, _⟩
        rw [hc]
        simp)
      (fun p _ q hq => absurd hq (List.not_mem_nil q))
      (fun p hp q hq => hpairJ p (hrootJ p hp) q (hrootJ q hq))
  obtain ⟨hwfTN, hleafN⟩ := treeOfKeys_hasLeaf
      (env.observation_keys ++
       (if !exclude_reward then env.reward_keys else []) ++
       (if !exclude_done then env.done_keys else []))
      (.mk []) [] hwfmk hdone0
      (by
        intro p hp
        rcases hgoodJ p (hnextJ p hp) with ⟨h1, t1, hc, _⟩
        rw [hc]
        simp)
      (fun p _ q hq => absurd hq (List.not_mem_nil q))
      (fun p hp q hq => hpairJ p (hnextJ p hp) q (hnextJ q hq))
  rcases hTR : ((if !exclude_action then env.action_keys else []) ++
      (if keep_other then env.state_keys else [])).foldl
      KTree.insertPath (.mk []) with ⟨esR⟩
  rcases hTN : (env.observation_keys ++
      (if !exclude_reward then env.reward_keys else []) ++
      (if !exclude_done then env.done_keys else [])).foldl
      KTree.insertPath (.mk []) with ⟨esN⟩
  rw [hTR] at hwfTR hleafR
  rw [hTN] at hwfTN hleafN
  simp only [List.not_mem_nil, false_or] at hleafR hleafN
  simp only [KTree.wfT, Bool.and_eq_true] at hwfTR hwfTN
  -- first grab: keys_from_root over the root batch into the empty output
  obtain ⟨des1, hgrab1, hform1⟩ := grab_ext (sizeOf esR) esR le_rfl
    (TD.node tes) [] hwfTR.1 hwfTR.2
    (by
      intro p hp
      have hpmem := (hleafR p).mp hp
      rcases (hrootLmem p).mp hpmem with ⟨_, hpa⟩ | ⟨_, hps⟩
      · exact TD.getPath_isSome_of_leafGet p _
          ((hEXP p).mpr (Or.inl (Or.inr (Or.inl hpa))))
      · exact TD.getPath_isSome_of_leafGet p _
          ((hEXP p).mpr (Or.inl (Or.inl hps))))
    (by
      intro p _ p' hp'
      rw [TD.leafGet_node_nil] at hp'
      exact absurd hp' (by simp))
  have hform1' : ∀ p, (TD.node des1).leafGet p
      = if KTree.coveredB (.mk esR) p then (TD.node tes).leafGet p
        else none := by
    intro p
    rw [hform1 p, TD.leafGet_node_nil]
  -- second grab: keys_from_next over the next batch into the first output
  obtain ⟨des2, hgrab2, hform2⟩ := grab_ext (sizeOf esN) esN le_rfl
    (TD.node nes) des1 hwfTN.1 hwfTN.2
    (by
      intro p hp
      have hpmem := (hleafN p).mp hp
      rcases (hnextLmem p).mp hpmem with h | ⟨_, h⟩ | ⟨_, h⟩
      · exact TD.getPath_isSome_of_leafGet p _
          ((hNEXT p).mpr (Or.inl h))
      · exact TD.getPath_isSome_of_leafGet p _
          ((hNEXT p).mpr (Or.inr (Or.inr h)))
      · exact TD.getPath_isSome_of_leafGet p _
          ((hNEXT p).mpr (Or.inr (Or.inl h))))
    (by
      intro p hp p' hp' hcmp
      rw [hform1' p'] at hp'
      cases hcv : KTree.coveredB (.mk esR) p' with
      | false =>
        rw [hcv] at hp'
        simp at hp'
      | true =>
        rw [hcv] at hp'
        rw [if_pos rfl] at hp'
        rcases (KTree.coveredB_iff p' (.mk esR)).mp hcv with ⟨tq, hpre, hlf⟩
        have htqJ : tq ∈ jointKeys env := hrootJ tq ((hleafR tq).mp hlf)
        rcases (hEXP p').mp hp' with hroot | ⟨r, hpr, _⟩
        · have hp'J : p' ∈ jointKeys env := hexpJ p' hroot
          have hpJ : p ∈ jointKeys env := hnextJ p ((hleafN p).mp hp)
          exact (hpairJ p hpJ p' hp'J hcmp).symm
        · rcases hgoodJ tq htqJ with ⟨h1, t1, hc1, hn1⟩
          rw [hpr, hc1] at hpre
          rw [isPrefB_cons_cons, Bool.and_eq_true, decide_eq_true_eq] at hpre
          exact absurd hpre.1 hn1)
  have hF : ∀ p, (TD.node des2).leafGet p
      = if KTree.coveredB (.mk esN) p then (TD.node nes).leafGet p
        else if KTree.coveredB (.mk esR) p then (TD.node tes).leafGet p
        else none := by
    intro p
    rw [hform2 p, hform1' p]
  -- the fast path of __call__ returns the second grab output
  have hcall : (StepMDP.call (StepMDP.init env keep_other exclude_reward
      exclude_done exclude_action) none (TD.node tes)).1
      = some (TD.node des2) := by
    simp only [StepMDP.call, StepMDP.validate, hnext]
    simp only [hval, if_true]
    have hkr : (StepMDP.init env keep_other exclude_reward exclude_done
        exclude_action).keys_from_root = KTree.mk esR := hTR
    have hkn : (StepMDP.init env keep_other exclude_reward exclude_done
        exclude_action).keys_from_next = KTree.mk esN := hTN
    rw [hkr, hkn]
    have hg1 : _grab_and_place (KTree.mk esR) (TD.node tes) (TD.node [])
        = some (TD.node des1) := hgrab1
    have hg2 : _grab_and_place (KTree.mk esN) (TD.node nes) (TD.node des1)
        = some (TD.node des2) := hgrab2
    simp only [hg1]
    simp only [hg2]
  -- slow side: shared fold characterizations
  have hndtes : TD.nodupKeysB tes = true := by
    have h2 := hwf
    simp only [TD.wfB, Bool.and_eq_true] at h2
    exact h2.1
  have hKnodup : (TD.node tes).keys.Nodup := TD.keys_nodup tes hndtes
  have hwfn : TD.wfB (TD.node nes) = true := TD.wfB_of_get hwf hnext
  have hndnes : TD.nodupKeysB nes = true := by
    have h2 := hwfn
    simp only [TD.wfB, Bool.and_eq_true] at h2
    exact h2.1
  have hNnodup : (TD.node nes).keys.Nodup := TD.keys_nodup nes hndnes
  obtain ⟨⟨desR, hdesR⟩, hformR⟩ := rootFold_ext (TD.node tes).keys
    (TD.node tes)
    (mkExcluded exclude_reward exclude_done exclude_action env.reward_keys
      env.done_keys env.action_keys) [] hwf hKnodup
    (by
      intro k _ _ q _ _ p' hp' _
      rw [TD.leafGet_node_nil] at hp'
      exact absurd hp' (by simp))
  have hRform : ∀ k q, (TD.node desR).leafGet (k :: q)
      = if decide (k ∈ (TD.node tes).keys) && !(decide (k = "next"))
           && ((TD.node tes).leafGet (k :: q)).isSome
           && prefixClear (mkExcluded exclude_reward exclude_done
             exclude_action env.reward_keys env.done_keys env.action_keys)
             [k] q
        then (TD.node tes).leafGet (k :: q)
        else none := by
    intro k q
    rw [← hdesR, hformR k q, TD.leafGet_node_nil]
  have hRJ : ∀ p', ((TD.node desR).leafGet p').isSome = true →
      ((TD.node tes).leafGet p').isSome = true ∧ p' ∈ jointKeys env := by
    intro p' hp'
    cases p' with
    | nil =>
      rw [show (TD.node desR).leafGet [] = none from rfl] at hp'
      exact absurd hp' (by simp)
    | cons k q =>
      rw [hRform k q] at hp'
      cases hG : (decide (k ∈ (TD.node tes).keys) && !(decide (k = "next"))
           && ((TD.node tes).leafGet (k :: q)).isSome
           && prefixClear (mkExcluded exclude_reward exclude_done
             exclude_action env.reward_keys env.done_keys env.action_keys)
             [k] q) with
      | false =>
        rw [hG] at hp'
        simp at hp'
      | true =>
        rw [hG, if_pos rfl] at hp'
        simp only [Bool.and_eq_true, Bool.not_eq_true', decide_eq_false_iff_not]
          at hG
        refine ⟨hp', ?_⟩
        rcases (hEXP (k :: q)).mp hp' with hroot | ⟨r, hpr, _⟩
        · exact hexpJ _ hroot
        · exfalso
          injection hpr with h1 _
          exact hG.1.1.2 h1
  obtain ⟨⟨desA, hdesA⟩, hformA⟩ := singleFold_ext env.action_keys
    (TD.node tes) []
    (by
      intro a ha
      constructor
      · rcases hgoodJ a ((hJmem a).mpr (Or.inl ha)) with ⟨h1, t1, hc, _⟩
        rw [hc]
        simp
      · exact (hEXP a).mpr (Or.inl (Or.inr (Or.inl ha))))
    (fun a ha b hb => hpairJ a ((hJmem a).mpr (Or.inl ha)) b
      ((hJmem b).mpr (Or.inl hb)))
    (by
      intro a _ p' hp' _
      rw [TD.leafGet_node_nil] at hp'
      exact absurd hp' (by simp))
  have hAform : ∀ p, (TD.node desA).leafGet p
      = if decide (p ∈ env.action_keys) then (TD.node tes).leafGet p
        else none := by
    intro p
    rw [← hdesA, hformA p, TD.leafGet_node_nil]
  have hAJ : ∀ p', ((TD.node desA).leafGet p').isSome = true →
      ((TD.node tes).leafGet p').isSome = true ∧ p' ∈ jointKeys env := by
    intro p' hp'
    rw [hAform p'] at hp'
    cases hG : decide (p' ∈ env.action_keys) with
    | false =>
      rw [hG] at hp'
      simp at hp'
    | true =>
      rw [hG, if_pos rfl] at hp'
      simp only [decide_eq_true_eq] at hG
      exact ⟨hp', (hJmem p').mpr (Or.inl hG)⟩
  -- semantic bridges for the pointwise comparison
  have hprefJ : ∀ tp p : KPath, tp ∈ jointKeys env → p ∈ jointKeys env →
      isPrefB tp p = true → tp = p :=
    fun tp p h1 h2 hp => hpairJ tp h1 p h2 (comparableB_of_isPrefB hp)
  have hcovRiff : ∀ p, KTree.coveredB (.mk esR) p = true ↔
      ∃ tp, isPrefB tp p = true ∧
        tp ∈ ((if !exclude_action then env.action_keys else []) ++
          (if keep_other then env.state_keys else [])) := by
    intro p
    rw [KTree.coveredB_iff]
    exact exists_congr fun tp => and_congr_right fun _ => hleafR tp
  have hcovNiff : ∀ p, KTree.coveredB (.mk esN) p = true ↔
      ∃ tp, isPrefB tp p = true ∧
        tp ∈ (env.observation_keys ++
          (if !exclude_reward then env.reward_keys else []) ++
          (if !exclude_done then env.done_keys else [])) := by
    intro p
    rw [KTree.coveredB_iff]
    exact exists_congr fun tp => and_congr_right fun _ => hleafN tp
  have hEmem := fun p => mkExcluded_mem exclude_reward exclude_done
    exclude_action env.reward_keys env.done_keys env.action_keys p
  have hEJ : ∀ p, p ∈ mkExcluded exclude_reward exclude_done exclude_action
      env.reward_keys env.done_keys env.action_keys → p ∈ jointKeys env := by
    intro p hp
    rcases (hEmem p).mp hp with ⟨_, h⟩ | ⟨_, h⟩ | ⟨_, h⟩
    · exact (hJmem p).mpr (Or.inr (Or.inr (Or.inl h)))
    · exact (hJmem p).mpr (Or.inr (Or.inl h))
    · exact (hJmem p).mpr (Or.inl h)
  have hclear : ∀ k (q : KPath), (k :: q) ∈ jointKeys env →
      (prefixClear (mkExcluded exclude_reward exclude_done exclude_action
          env.reward_keys env.done_keys env.action_keys) [k] q = true
        ↔ ¬((k :: q) ∈ mkExcluded exclude_reward exclude_done exclude_action
          env.reward_keys env.done_keys env.action_keys)) := by
    intro k q hJp
    rw [prefixClear_iff]
    constructor
    · intro h hmem
      exact h q (isPrefB_refl q) hmem
    · intro h ext hext hmem
      have hmem2 : (k :: ext) ∈ mkExcluded exclude_reward exclude_done
          exclude_action env.reward_keys env.done_keys env.action_keys := hmem
      have hexteq : (k :: ext) = (k :: q) :=
        hprefJ _ _ (hEJ _ hmem2) hJp
          (by rw [isPrefB_cons_cons]; simp [hext])
      rw [hexteq] at hmem2
      exact h hmem2
  have dAD := disjB_spec hdAD
  have dAR := disjB_spec hdAR
  have dAO := disjB_spec hdAO
  have dASt := disjB_spec hdASt
  have dDR := disjB_spec hdDR
  have dDO := disjB_spec hdDO
  have dDSt := disjB_spec hdDSt
  have dRO := disjB_spec hdRO
  have dRSt := disjB_spec hdRSt
  have dOSt := disjB_spec hdOSt
  have hnotE_O : ∀ p, p ∈ env.observation_keys →
      ¬(p ∈ mkExcluded exclude_reward exclude_done exclude_action
        env.reward_keys env.done_keys env.action_keys) := by
    intro p hp hmem
    rcases (hEmem p).mp hmem with ⟨_, h⟩ | ⟨_, h⟩ | ⟨_, h⟩
    · exact dRO p h hp
    · exact dDO p h hp
    · exact dAO p h hp
  have hnotE_St : ∀ p, p ∈ env.state_keys →
      ¬(p ∈ mkExcluded exclude_reward exclude_done exclude_action
        env.reward_keys env.done_keys env.action_keys) := by
    intro p hp hmem
    rcases (hEmem p).mp hmem with ⟨_, h⟩ | ⟨_, h⟩ | ⟨_, h⟩
    · exact dRSt p h hp
    · exact dDSt p h hp
    · exact dASt p h hp
  have hnotE_D : ∀ p, p ∈ env.done_keys → exclude_done = false →
      ¬(p ∈ mkExcluded exclude_reward exclude_done exclude_action
        env.reward_keys env.done_keys env.action_keys) := by
    intro p hp hed hmem
    rcases (hEmem p).mp hmem with ⟨_, h⟩ | ⟨hf, h⟩ | ⟨_, h⟩
    · exact dDR p hp h
    · rw [hed] at hf
      cases hf
    · exact dAD p h hp
  have hnotE_Rw : ∀ p, p ∈ env.reward_keys → exclude_reward = false →
      ¬(p ∈ mkExcluded exclude_reward exclude_done exclude_action
        env.reward_keys env.done_keys env.action_keys) := by
    intro p hp her hmem
    rcases (hEmem p).mp hmem with ⟨hf, h⟩ | ⟨_, h⟩ | ⟨_, h⟩
    · rw [her] at hf
      cases hf
    · exact dDR p h hp
    · exact dAR p h hp
  have hnotE_A : ∀ p, p ∈ env.action_keys → exclude_action = false →
      ¬(p ∈ mkExcluded exclude_reward exclude_done exclude_action
        env.reward_keys env.done_keys env.action_keys) := by
    intro p hp hea hmem
    rcases (hEmem p).mp hmem with ⟨_, h⟩ | ⟨_, h⟩ | ⟨hf, h⟩
    · exact dAR p hp h
    · exact dAD p hp h
    · rw [hea] at hf
      cases hf
  have hheadJ : ∀ (k : Key) (q : KPath), (k :: q) ∈ jointKeys env →
      ¬(k = "next") := by
    intro k q hp hk
    rcases hgoodJ _ hp with ⟨h1, t1, hc, hn⟩
    injection hc with h1eq _
    rw [← h1eq] at hn
    exact hn hk
  by_cases hko : keep_other = true
  · obtain ⟨⟨desS, hdesS⟩, hformS⟩ := nextFold_ext (TD.node nes).keys
      (TD.node nes)
      (mkExcluded exclude_reward exclude_done exclude_action env.reward_keys env.done_keys env.action_keys) desR hwfn hNnodup
      (by
        intro k _ q hpres _ p' hp' hcmp
        obtain ⟨_, hp'J⟩ := hRJ p' hp'
        have hkqJ : (k :: q) ∈ jointKeys env := by
          rcases (hNEXT (k :: q)).mp hpres with h | h | h
          · exact (hJmem _).mpr (Or.inr (Or.inr (Or.inr (Or.inl h))))
          · exact (hJmem _).mpr (Or.inr (Or.inl h))
          · exact (hJmem _).mpr (Or.inr (Or.inr (Or.inl h)))
        exact (hpairJ _ hkqJ _ hp'J hcmp).symm)
    have hstep : step_mdp (TD.node tes) keep_other exclude_reward exclude_done
        exclude_action env.reward_keys env.done_keys env.action_keys
        = some (TD.node desS) := by
      simp only [step_mdp, hnext, hko, if_true]
      rw [hdesR, hdesS]
    refine ⟨TD.node des2, TD.node desS, hcall, hstep, ?_⟩
    intro p
    cases p with
    | nil => rfl
    | cons k q =>
      rw [hF (k :: q), ← hdesS, hformS k q]
      by_cases hnxP : ((TD.node nes).leafGet (k :: q)).isSome = true
      · have hcat := (hNEXT (k :: q)).mp hnxP
        have hkqJ : (k :: q) ∈ jointKeys env := by
          rcases hcat with h | h | h
          · exact (hJmem _).mpr (Or.inr (Or.inr (Or.inr (Or.inl h))))
          · exact (hJmem _).mpr (Or.inr (Or.inl h))
          · exact (hJmem _).mpr (Or.inr (Or.inr (Or.inl h)))
        have hkin : decide (k ∈ (TD.node nes).keys) = true := by
          simp [TD.keys_of_leafGet nes k q hnxP]
        by_cases hinN : ((k :: q) ∈ env.observation_keys ∨
            (exclude_reward = false ∧ (k :: q) ∈ env.reward_keys) ∨
            (exclude_done = false ∧ (k :: q) ∈ env.done_keys))
        · have hcovN : KTree.coveredB (.mk esN) (k :: q) = true :=
            (hcovNiff _).mpr ⟨k :: q, isPrefB_refl _, (hnextLmem _).mpr hinN⟩
          have hclr : prefixClear (mkExcluded exclude_reward exclude_done exclude_action env.reward_keys env.done_keys env.action_keys) [k] q = true :=
            (hclear k q hkqJ).mpr (by
              intro hmem
              rcases hinN with h | ⟨hf, h⟩ | ⟨hf, h⟩
              · exact hnotE_O _ h hmem
              · exact hnotE_Rw _ h hf hmem
              · exact hnotE_D _ h hf hmem)
          rw [hcovN, hkin, hnxP, hclr]
          simp
        · have hcase : ((k :: q) ∈ env.reward_keys ∧ exclude_reward = true) ∨
              ((k :: q) ∈ env.done_keys ∧ exclude_done = true) := by
            rcases hcat with h | h | h
            · exact absurd (Or.inl h) hinN
            · cases hed2 : exclude_done with
              | false => exact absurd (Or.inr (Or.inr ⟨hed2, h⟩)) hinN
              | true => exact Or.inr ⟨h, rfl⟩
            · cases her2 : exclude_reward with
              | false => exact absurd (Or.inr (Or.inl ⟨her2, h⟩)) hinN
              | true => exact Or.inl ⟨h, rfl⟩
          have hmemE : (k :: q) ∈ mkExcluded exclude_reward exclude_done exclude_action env.reward_keys env.done_keys env.action_keys := (hEmem _).mpr (by
            rcases hcase with ⟨h, hf⟩ | ⟨h, hf⟩
            · exact Or.inl ⟨hf, h⟩
            · exact Or.inr (Or.inl ⟨hf, h⟩))
          have hclr : prefixClear (mkExcluded exclude_reward exclude_done exclude_action env.reward_keys env.done_keys env.action_keys) [k] q = false := by
            cases hc : prefixClear (mkExcluded exclude_reward exclude_done exclude_action env.reward_keys env.done_keys env.action_keys) [k] q with
            | false => rfl
            | true => exact absurd hmemE ((hclear k q hkqJ).mp hc)
          have hcovN : KTree.coveredB (.mk esN) (k :: q) = false := by
            cases hc : KTree.coveredB (.mk esN) (k :: q) with
            | false => rfl
            | true =>
              exfalso
              rcases (hcovNiff _).mp hc with ⟨tp, hpre, htpm⟩
              have htpeq : tp = k :: q :=
                hprefJ tp _ (hnextJ tp htpm) hkqJ hpre
              rw [htpeq] at htpm
              exact hinN ((hnextLmem _).mp htpm)
          rw [hcovN, hclr]
          simp only [Bool.and_false, Bool.false_eq_true, if_false]
          rw [hRform k q]
          rcases hcase with ⟨hRw, her⟩ | ⟨hD, hed⟩
          · have htd : (TD.node tes).leafGet (k :: q) = none := by
              cases ht : (TD.node tes).leafGet (k :: q) with
              | none => rfl
              | some v =>
                exfalso
                have hsome : ((TD.node tes).leafGet (k :: q)).isSome
                    = true := by rw [ht]; rfl
                rcases (hEXP _).mp hsome with hroot | ⟨r, hpr, _⟩
                · rcases hroot with h | h | h | h
                  · exact dRSt _ hRw h
                  · exact dAR _ h hRw
                  · exact dDR _ h hRw
                  · exact dRO _ hRw h
                · injection hpr with h1 _
                  exact hheadJ k q hkqJ h1
            rw [htd]
            simp
          · have hcovR : KTree.coveredB (.mk esR) (k :: q) = false := by
              cases hc : KTree.coveredB (.mk esR) (k :: q) with
              | false => rfl
              | true =>
                exfalso
                rcases (hcovRiff _).mp hc with ⟨tp, hpre, htpm⟩
                have htpeq : tp = k :: q :=
                  hprefJ tp _ (hrootJ tp htpm) hkqJ hpre
                rw [htpeq] at htpm
                rcases (hrootLmem _).mp htpm with ⟨_, h⟩ | ⟨_, h⟩
                · exact dAD _ h hD
                · exact dDSt _ hD h
            rw [hcovR]
            simp [hclr]
      · have hnone : (TD.node nes).leafGet (k :: q) = none := by
          cases ht : (TD.node nes).leafGet (k :: q) with
          | none => rfl
          | some v =>
            exfalso
            exact hnxP (by rw [ht]; rfl)
        by_cases hcovN : KTree.coveredB (.mk esN) (k :: q) = true
        · rcases (hcovNiff _).mp hcovN with ⟨tp, hpre, htpm⟩
          have hRnone : (TD.node desR).leafGet (k :: q) = none := by
            cases hx : (TD.node desR).leafGet (k :: q) with
            | none => rfl
            | some v =>
              exfalso
              have hsome : ((TD.node desR).leafGet (k :: q)).isSome = true := by
                rw [hx]; rfl
              obtain ⟨_, hpJ⟩ := hRJ _ hsome
              have htpeq : tp = k :: q :=
                hprefJ tp _ (hnextJ tp htpm) hpJ hpre
              rw [htpeq] at htpm
              have hpres : ((TD.node nes).leafGet (k :: q)).isSome = true := by
                rcases (hnextLmem _).mp htpm with h | ⟨_, h⟩ | ⟨_, h⟩
                · exact (hNEXT _).mpr (Or.inl h)
                · exact (hNEXT _).mpr (Or.inr (Or.inr h))
                · exact (hNEXT _).mpr (Or.inr (Or.inl h))
              exact hnxP hpres
          rw [hcovN, hnone, hRnone]
          simp
        · have hcovN' : KTree.coveredB (.mk esN) (k :: q) = false := by
            cases hc : KTree.coveredB (.mk esN) (k :: q) with
            | false => rfl
            | true => exact absurd hc hcovN
          rw [hcovN', hnone, hRform k q]
          simp only [Option.isSome_none, Bool.and_false, Bool.false_and,
            Bool.false_eq_true, if_false]
          by_cases hts : ((TD.node tes).leafGet (k :: q)).isSome = true
          · rcases (hEXP _).mp hts with hroot | ⟨r, hpr, _⟩
            · have hpJ := hexpJ _ hroot
              have hkkeys : decide (k ∈ (TD.node tes).keys) = true := by
                simp [TD.keys_of_leafGet tes k q hts]
              have hknn := hheadJ k q hpJ
              rcases hroot with hSt | hA | hD | hO
              · have hcov : KTree.coveredB (.mk esR) (k :: q) = true :=
                  (hcovRiff _).mpr ⟨k :: q, isPrefB_refl _,
                    (hrootLmem _).mpr (Or.inr ⟨hko, hSt⟩)⟩
                have hclr2 : prefixClear (mkExcluded exclude_reward exclude_done exclude_action env.reward_keys env.done_keys env.action_keys) [k] q = true :=
                  (hclear k q hpJ).mpr (hnotE_St _ hSt)
                rw [hcov, hkkeys, hts, hclr2]
                simp [hknn]
              · by_cases hea2 : exclude_action = true
                · have hcov : KTree.coveredB (.mk esR) (k :: q) = false := by
                    cases hc : KTree.coveredB (.mk esR) (k :: q) with
                    | false => rfl
                    | true =>
                      exfalso
                      rcases (hcovRiff _).mp hc with ⟨tp, hpre, htpm⟩
                      have htpeq : tp = k :: q :=
                        hprefJ tp _ (hrootJ tp htpm) hpJ hpre
                      rw [htpeq] at htpm
                      rcases (hrootLmem _).mp htpm with ⟨hf, _⟩ | ⟨_, h⟩
                      · rw [hea2] at hf
                        cases hf
                      · exact dASt _ hA h
                  have hclr2 : prefixClear (mkExcluded exclude_reward exclude_done exclude_action env.reward_keys env.done_keys env.action_keys) [k] q = false := by
                    cases hc : prefixClear (mkExcluded exclude_reward exclude_done exclude_action env.reward_keys env.done_keys env.action_keys) [k] q with
                    | false => rfl
                    | true =>
                      exact absurd ((hEmem _).mpr
                        (Or.inr (Or.inr ⟨hea2, hA⟩)))
                        ((hclear k q hpJ).mp hc)
                  rw [hcov, hclr2]
                  simp
                · have hea3 : exclude_action = false := by
                    cases hx : exclude_action with
                    | false => rfl
                    | true => exact absurd hx hea2
                  have hcov : KTree.coveredB (.mk esR) (k :: q) = true :=
                    (hcovRiff _).mpr ⟨k :: q, isPrefB_refl _,
                      (hrootLmem _).mpr (Or.inl ⟨hea3, hA⟩)⟩
                  have hclr2 : prefixClear (mkExcluded exclude_reward exclude_done exclude_action env.reward_keys env.done_keys env.action_keys) [k] q = true :=
                    (hclear k q hpJ).mpr (hnotE_A _ hA hea3)
                  rw [hcov, hkkeys, hts, hclr2]
                  simp [hknn]
              · exact absurd ((hNEXT _).mpr (Or.inr (Or.inl hD))) hnxP
              · exact absurd ((hNEXT _).mpr (Or.inl hO)) hnxP
            · injection hpr with hk1 _
              have hcovRf : KTree.coveredB (.mk esR) (k :: q) = false := by
                cases hc : KTree.coveredB (.mk esR) (k :: q) with
                | false => rfl
                | true =>
                  exfalso
                  rcases (hcovRiff _).mp hc with ⟨tp, hpre, htpm⟩
                  rcases hgoodJ tp (hrootJ tp htpm) with ⟨h1, t1, hc1, hn1⟩
                  rw [hc1] at hpre
                  rw [hk1] at hpre
                  rw [isPrefB_cons_cons, Bool.and_eq_true,
                    decide_eq_true_eq] at hpre
                  exact hn1 hpre.1
              rw [hcovRf, hk1]
              simp
          · have htd0 : (TD.node tes).leafGet (k :: q) = none := by
              cases ht : (TD.node tes).leafGet (k :: q) with
              | none => rfl
              | some v =>
                exfalso
                exact hts (by rw [ht]; rfl)
            rw [htd0]
            simp
  · have hko2 : keep_other = false := by
      cases hx : keep_other with
      | false => rfl
      | true => exact absurd hx hko
    by_cases hea : exclude_action = true
    · obtain ⟨⟨desS, hdesS⟩, hformS⟩ := nextFold_ext (TD.node nes).keys
        (TD.node nes) (mkExcluded exclude_reward exclude_done exclude_action env.reward_keys env.done_keys env.action_keys) [] hwfn hNnodup
        (by
          intro k _ q _ _ p' hp' _
          rw [TD.leafGet_node_nil] at hp'
          exact absurd hp' (by simp))
      have hstep : step_mdp (TD.node tes) keep_other exclude_reward
          exclude_done exclude_action env.reward_keys env.done_keys
          env.action_keys = some (TD.node desS) := by
        simp only [step_mdp, hnext]
        rw [if_neg hko]
        rw [if_neg (show ¬((!exclude_action) = true) by rw [hea]; simp)]
        rw [hdesS]
      refine ⟨TD.node des2, TD.node desS, hcall, hstep, ?_⟩
      intro p
      cases p with
      | nil => rfl
      | cons k q =>
        rw [hF (k :: q), ← hdesS, hformS k q]
        have hcovRfalse : KTree.coveredB (.mk esR) (k :: q) = false := by
          cases hc : KTree.coveredB (.mk esR) (k :: q) with
          | false => rfl
          | true =>
            exfalso
            rcases (hcovRiff _).mp hc with ⟨tp, _, htpm⟩
            rcases (hrootLmem _).mp htpm with ⟨hf, _⟩ | ⟨hf, _⟩
            · rw [hea] at hf
              cases hf
            · rw [hko2] at hf
              cases hf
        by_cases hnxP : ((TD.node nes).leafGet (k :: q)).isSome = true
        · have hcat := (hNEXT (k :: q)).mp hnxP
          have hkqJ : (k :: q) ∈ jointKeys env := by
            rcases hcat with h | h | h
            · exact (hJmem _).mpr (Or.inr (Or.inr (Or.inr (Or.inl h))))
            · exact (hJmem _).mpr (Or.inr (Or.inl h))
            · exact (hJmem _).mpr (Or.inr (Or.inr (Or.inl h)))
          have hkin : decide (k ∈ (TD.node nes).keys) = true := by
            simp [TD.keys_of_leafGet nes k q hnxP]
          by_cases hinN : ((k :: q) ∈ env.observation_keys ∨
              (exclude_reward = false ∧ (k :: q) ∈ env.reward_keys) ∨
              (exclude_done = false ∧ (k :: q) ∈ env.done_keys))
          · have hcovN : KTree.coveredB (.mk esN) (k :: q) = true :=
              (hcovNiff _).mpr ⟨k :: q, isPrefB_refl _,
                (hnextLmem _).mpr hinN⟩
            have hclr : prefixClear (mkExcluded exclude_reward exclude_done exclude_action env.reward_keys env.done_keys env.action_keys) [k] q = true :=
              (hclear k q hkqJ).mpr (by
                intro hmem
                rcases hinN with h | ⟨hf, h⟩ | ⟨hf, h⟩
                · exact hnotE_O _ h hmem
                · exact hnotE_Rw _ h hf hmem
                · exact hnotE_D _ h hf hmem)
            rw [hcovN, hkin, hnxP, hclr]
            simp
          · have hcase : ((k :: q) ∈ env.reward_keys ∧
                exclude_reward = true) ∨
                ((k :: q) ∈ env.done_keys ∧ exclude_done = true) := by
              rcases hcat with h | h | h
              · exact absurd (Or.inl h) hinN
              · cases hed2 : exclude_done with
                | false => exact absurd (Or.inr (Or.inr ⟨hed2, h⟩)) hinN
                | true => exact Or.inr ⟨h, rfl⟩
              · cases her2 : exclude_reward with
                | false => exact absurd (Or.inr (Or.inl ⟨her2, h⟩)) hinN
                | true => exact Or.inl ⟨h, rfl⟩
            have hmemE : (k :: q) ∈ mkExcluded exclude_reward exclude_done exclude_action env.reward_keys env.done_keys env.action_keys := (hEmem _).mpr (by
              rcases hcase with ⟨h, hf⟩ | ⟨h, hf⟩
              · exact Or.inl ⟨hf, h⟩
              · exact Or.inr (Or.inl ⟨hf, h⟩))
            have hclr : prefixClear (mkExcluded exclude_reward exclude_done exclude_action env.reward_keys env.done_keys env.action_keys) [k] q = false := by
              cases hc : prefixClear (mkExcluded exclude_reward exclude_done exclude_action env.reward_keys env.done_keys env.action_keys) [k] q with
              | false => rfl
              | true => exact absurd hmemE ((hclear k q hkqJ).mp hc)
            have hcovN : KTree.coveredB (.mk esN) (k :: q) = false := by
              cases hc : KTree.coveredB (.mk esN) (k :: q) with
              | false => rfl
              | true =>
                exfalso
                rcases (hcovNiff _).mp hc with ⟨tp, hpre, htpm⟩
                have htpeq : tp = k :: q :=
                  hprefJ tp _ (hnextJ tp htpm) hkqJ hpre
                rw [htpeq] at htpm
                exact hinN ((hnextLmem _).mp htpm)
            rw [hcovN, hclr, hcovRfalse, TD.leafGet_node_nil]
            simp
        · have hnone : (TD.node nes).leafGet (k :: q) = none := by
            cases ht : (TD.node nes).leafGet (k :: q) with
            | none => rfl
            | some v =>
              exfalso
              exact hnxP (by rw [ht]; rfl)
          by_cases hcovN : KTree.coveredB (.mk esN) (k :: q) = true
          · rw [hcovN, hnone, TD.leafGet_node_nil]
            simp
          · have hcovN' : KTree.coveredB (.mk esN) (k :: q) = false := by
              cases hc : KTree.coveredB (.mk esN) (k :: q) with
              | false => rfl
              | true => exact absurd hc hcovN
            rw [hcovN', hnone, hcovRfalse, TD.leafGet_node_nil]
            simp
    · have hea2 : exclude_action = false := by
        cases hx : exclude_action with
        | false => rfl
        | true => exact absurd hx hea
      obtain ⟨⟨desS, hdesS⟩, hformS⟩ := nextFold_ext (TD.node nes).keys
        (TD.node nes) (mkExcluded exclude_reward exclude_done exclude_action env.reward_keys env.done_keys env.action_keys) desA hwfn hNnodup
        (by
          intro k _ q hpres _ p' hp' hcmp
          obtain ⟨_, hp'J⟩ := hAJ p' hp'
          have hkqJ : (k :: q) ∈ jointKeys env := by
            rcases (hNEXT (k :: q)).mp hpres with h | h | h
            · exact (hJmem _).mpr (Or.inr (Or.inr (Or.inr (Or.inl h))))
            · exact (hJmem _).mpr (Or.inr (Or.inl h))
            · exact (hJmem _).mpr (Or.inr (Or.inr (Or.inl h)))
          exact (hpairJ _ hkqJ _ hp'J hcmp).symm)
      have hstep : step_mdp (TD.node tes) keep_other exclude_reward
          exclude_done exclude_action env.reward_keys env.done_keys
          env.action_keys = some (TD.node desS) := by
        simp only [step_mdp, hnext]
        rw [if_neg hko]
        rw [if_pos (show (!exclude_action) = true by rw [hea2]; rfl)]
        rw [hdesA, hdesS]
      refine ⟨TD.node des2, TD.node desS, hcall, hstep, ?_⟩
      intro p
      cases p with
      | nil => rfl
      | cons k q =>
        rw [hF (k :: q), ← hdesS, hformS k q]
        by_cases hnxP : ((TD.node nes).leafGet (k :: q)).isSome = true
        · have hcat := (hNEXT (k :: q)).mp hnxP
          have hkqJ : (k :: q) ∈ jointKeys env := by
            rcases hcat with h | h | h
            · exact (hJmem _).mpr (Or.inr (Or.inr (Or.inr (Or.inl h))))
            · exact (hJmem _).mpr (Or.inr (Or.inl h))
            · exact (hJmem _).mpr (Or.inr (Or.inr (Or.inl h)))
          have hkin : decide (k ∈ (TD.node nes).keys) = true := by
            simp [TD.keys_of_leafGet nes k q hnxP]
          by_cases hinN : ((k :: q) ∈ env.observation_keys ∨
              (exclude_reward = false ∧ (k :: q) ∈ env.reward_keys) ∨
              (exclude_done = false ∧ (k :: q) ∈ env.done_keys))
          · have hcovN : KTree.coveredB (.mk esN) (k :: q) = true :=
              (hcovNiff _).mpr ⟨k :: q, isPrefB_refl _,
                (hnextLmem _).mpr hinN⟩
            have hclr : prefixClear (mkExcluded exclude_reward exclude_done exclude_action env.reward_keys env.done_keys env.action_keys) [k] q = true :=
              (hclear k q hkqJ).mpr (by
                intro hmem
                rcases hinN with h | ⟨hf, h⟩ | ⟨hf, h⟩
                · exact hnotE_O _ h hmem
                · exact hnotE_Rw _ h hf hmem
                · exact hnotE_D _ h hf hmem)
            rw [hcovN, hkin, hnxP, hclr]
            simp
          · have hcase : ((k :: q) ∈ env.reward_keys ∧
                exclude_reward = true) ∨
                ((k :: q) ∈ env.done_keys ∧ exclude_done = true) := by
              rcases hcat with h | h | h
              · exact absurd (Or.inl h) hinN
              · cases hed2 : exclude_done with
                | false => exact absurd (Or.inr (Or.inr ⟨hed2, h⟩)) hinN
                | true => exact Or.inr ⟨h, rfl⟩
              · cases her2 : exclude_reward with
                | false => exact absurd (Or.inr (Or.inl ⟨her2, h⟩)) hinN
                | true => exact Or.inl ⟨h, rfl⟩
            have hmemE : (k :: q) ∈ mkExcluded exclude_reward exclude_done exclude_action env.reward_keys env.done_keys env.action_keys := (hEmem _).mpr (by
              rcases hcase with ⟨h, hf⟩ | ⟨h, hf⟩
              · exact Or.inl ⟨hf, h⟩
              · exact Or.inr (Or.inl ⟨hf, h⟩))
            have hclr : prefixClear (mkExcluded exclude_reward exclude_done exclude_action env.reward_keys env.done_keys env.action_keys) [k] q = false := by
              cases hc : prefixClear (mkExcluded exclude_reward exclude_done exclude_action env.reward_keys env.done_keys env.action_keys) [k] q with
              | false => rfl
              | true => exact absurd hmemE ((hclear k q hkqJ).mp hc)
            have hcovN : KTree.coveredB (.mk esN) (k :: q) = false := by
              cases hc : KTree.coveredB (.mk esN) (k :: q) with
              | false => rfl
              | true =>
                exfalso
                rcases (hcovNiff _).mp hc with ⟨tp, hpre, htpm⟩
                have htpeq : tp = k :: q :=
                  hprefJ tp _ (hnextJ tp htpm) hkqJ hpre
                rw [htpeq] at htpm
                exact hinN ((hnextLmem _).mp htpm)
            rw [hcovN, hclr]
            simp only [Bool.and_false, Bool.false_eq_true, if_false]
            rw [hAform (k :: q)]
            rcases hcase with ⟨hRw, her⟩ | ⟨hD, hed⟩
            · have htd : (TD.node tes).leafGet (k :: q) = none := by
                cases ht : (TD.node tes).leafGet (k :: q) with
                | none => rfl
                | some v =>
                  exfalso
                  have hsome : ((TD.node tes).leafGet (k :: q)).isSome
                      = true := by rw [ht]; rfl
                  rcases (hEXP _).mp hsome with hroot | ⟨r, hpr, _⟩
                  · rcases hroot with h | h | h | h
                    · exact dRSt _ hRw h
                    · exact dAR _ h hRw
                    · exact dDR _ h hRw
                    · exact dRO _ hRw h
                  · injection hpr with h1 _
                    exact hheadJ k q hkqJ h1
              rw [htd]
              simp
            · have hcovR : KTree.coveredB (.mk esR) (k :: q) = false := by
                cases hc : KTree.coveredB (.mk esR) (k :: q) with
                | false => rfl
                | true =>
                  exfalso
                  rcases (hcovRiff _).mp hc with ⟨tp, hpre, htpm⟩
                  have htpeq : tp = k :: q :=
                    hprefJ tp _ (hrootJ tp htpm) hkqJ hpre
                  rw [htpeq] at htpm
                  rcases (hrootLmem _).mp htpm with ⟨_, h⟩ | ⟨_, h⟩
                  · exact dAD _ h hD
                  · exact dDSt _ hD h
              have hnA : decide ((k :: q) ∈ env.action_keys) = false := by
                simp only [decide_eq_false_iff_not]
                intro h
                exact dAD _ h hD
              rw [hcovR, hnA]
        · have hnone : (TD.node nes).leafGet (k :: q) = none := by
            cases ht : (TD.node nes).leafGet (k :: q) with
            | none => rfl
            | some v =>
              exfalso
              exact hnxP (by rw [ht]; rfl)
          by_cases hcovN : KTree.coveredB (.mk esN) (k :: q) = true
          · rcases (hcovNiff _).mp hcovN with ⟨tp, hpre, htpm⟩
            have hAnone : (TD.node desA).leafGet (k :: q) = none := by
              cases hx : (TD.node desA).leafGet (k :: q) with
              | none => rfl
              | some v =>
                exfalso
                have hsome : ((TD.node desA).leafGet (k :: q)).isSome
                    = true := by rw [hx]; rfl
                obtain ⟨_, hpJ⟩ := hAJ _ hsome
                have htpeq : tp = k :: q :=
                  hprefJ tp _ (hnextJ tp htpm) hpJ hpre
                rw [htpeq] at htpm
                have hpres : ((TD.node nes).leafGet (k :: q)).isSome
                    = true := by
                  rcases (hnextLmem _).mp htpm with h | ⟨_, h⟩ | ⟨_, h⟩
                  · exact (hNEXT _).mpr (Or.inl h)
                  · exact (hNEXT _).mpr (Or.inr (Or.inr h))
                  · exact (hNEXT _).mpr (Or.inr (Or.inl h))
                exact hnxP hpres
            rw [hcovN, hnone, hAnone]
            simp
          · have hcovN' : KTree.coveredB (.mk esN) (k :: q) = false := by
              cases hc : KTree.coveredB (.mk esN) (k :: q) with
              | false => rfl
              | true => exact absurd hc hcovN
            rw [hcovN', hnone, hAform (k :: q)]
            simp only [Option.isSome_none, Bool.and_false, Bool.false_and,
              Bool.false_eq_true, if_false]
            by_cases hts : ((TD.node tes).leafGet (k :: q)).isSome = true
            · rcases (hEXP _).mp hts with hroot | ⟨r, hpr, _⟩
              · have hpJ := hexpJ _ hroot
                rcases hroot with hSt | hA | hD | hO
                · have hcovRf : KTree.coveredB (.mk esR) (k :: q)
                      = false := by
                    cases hc : KTree.coveredB (.mk esR) (k :: q) with
                    | false => rfl
                    | true =>
                      exfalso
                      rcases (hcovRiff _).mp hc with ⟨tp, hpre, htpm⟩
                      have htpeq : tp = k :: q :=
                        hprefJ tp _ (hrootJ tp htpm) hpJ hpre
                      rw [htpeq] at htpm
                      rcases (hrootLmem _).mp htpm with ⟨_, h⟩ | ⟨hf, _⟩
                      · exact dASt _ h hSt
                      · rw [hko2] at hf
                        cases hf
                  have hnA : decide ((k :: q) ∈ env.action_keys)
                      = false := by
                    simp only [decide_eq_false_iff_not]
                    intro h
                    exact dASt _ h hSt
                  rw [hcovRf, hnA]
                · have hcov : KTree.coveredB (.mk esR) (k :: q) = true :=
                    (hcovRiff _).mpr ⟨k :: q, isPrefB_refl _,
                      (hrootLmem _).mpr (Or.inl ⟨hea2, hA⟩)⟩
                  rw [hcov]
                  simp [hA]
                · exact absurd ((hNEXT _).mpr (Or.inr (Or.inl hD))) hnxP
                · exact absurd ((hNEXT _).mpr (Or.inl hO)) hnxP
              · injection hpr with hk1 _
                have hcovRf : KTree.coveredB (.mk esR) (k :: q) = false := by
                  cases hc : KTree.coveredB (.mk esR) (k :: q) with
                  | false => rfl
                  | true =>
                    exfalso
                    rcases (hcovRiff _).mp hc with ⟨tp, hpre, htpm⟩
                    rcases hgoodJ tp (hrootJ tp htpm) with ⟨h1, t1, hc1, hn1⟩
                    rw [hc1] at hpre
                    rw [hk1] at hpre
                    rw [isPrefB_cons_cons, Bool.and_eq_true,
                      decide_eq_true_eq] at hpre
                    exact hn1 hpre.1
                have hnA : decide ((k :: q) ∈ env.action_keys) = false := by
                  simp only [decide_eq_false_iff_not]
                  intro h
                  exact hheadJ k q ((hJmem _).mpr (Or.inl h)) hk1
                rw [hcovRf, hnA]
            · have htd0 : (TD.node tes).leafGet (k :: q) = none := by
                cases ht : (TD.node tes).leafGet (k :: q) with
                | none => rfl
                | some v =>
                  exfalso
                  exact hts (by rw [ht]; rfl)
              rw [htd0]
              simp


/-- C1: for every well-formed input batch whose `"next"` sub-batch is
present, the stateful transition engine (`_StepMDP` constructed against
the environment's declared action/done/reward/observation/state keys,
with the given `keep_other` / `exclude_*` configuration) produces a
batch with the same key set and the same leaf values as the stateless
`step_mdp` called with the matching configuration — both when the
engine's key-set validation succeeds (fast precomputed path) and when it
fails (generic fallback path).  Leaf-for-leaf equality of `leafGet`
captures both conditions: the nested leaf key set of a batch is exactly
the set of paths where `leafGet` is `some`. -/
theorem stepMDP_call_refines_step_mdp
    (env : EnvKeys) (keep_other exclude_reward exclude_done
      exclude_action : Bool)
    (td : TD) (nes : List (Key × TD))
    (hwf : TD.wfB td = true)
    (hnext : td.get "next" = some (.node nes))
    (henv : wfEnvB env = true) :
    ∃ outF outS,
      (StepMDP.call (StepMDP.init env keep_other exclude_reward exclude_done
          exclude_action) none td).1 = some outF
      ∧ step_mdp td keep_other exclude_reward exclude_done exclude_action
          env.reward_keys env.done_keys env.action_keys = some outS
      ∧ ∀ p, outF.leafGet p = outS.leafGet p := by
  cases td with
  | leaf v => simp [TD.get] at hnext
  | node tes =>
  by_cases hval : StepMDP.eqAsSetB
      (StepMDP.expected (StepMDP.init env keep_other exclude_reward
        exclude_done exclude_action))
      (TD.node tes).leafPaths = true
  · exact call_fast_agrees_step_mdp env keep_other exclude_reward
      exclude_done exclude_action tes nes hwf hnext henv hval
  · have hval2 : StepMDP.eqAsSetB
        (StepMDP.expected (StepMDP.init env keep_other exclude_reward
          exclude_done exclude_action))
        (TD.node tes).leafPaths = false := by
      exact Bool.not_eq_true _ |>.mp hval
    have hsm : ∃ o, step_mdp (TD.node tes) keep_other exclude_reward
        exclude_done exclude_action env.reward_keys env.done_keys
        env.action_keys = some o := by
      simp only [step_mdp, hnext]
      exact ⟨_, rfl⟩
    rcases hsm with ⟨o, ho⟩
    have heq : (StepMDP.call (StepMDP.init env keep_other exclude_reward
        exclude_done exclude_action) none (TD.node tes)).1
        = step_mdp (TD.node tes) keep_other exclude_reward exclude_done
          exclude_action env.reward_keys env.done_keys env.action_keys := by
      simp only [StepMDP.call, step_mdp, StepMDP.validate, hnext]
      simp only [hval2, Bool.false_eq_true, if_false]
      simp only [StepMDP.init]
    exact ⟨o, o, by rw [heq, ho], ho, fun p => rfl⟩

/-- The declared keys of the refinement witness environment: one key
per category. -/
def envC1 : EnvKeys :=
  { action_keys := [["action"]]
    done_keys := [["done"]]
    reward_keys := [["reward"]]
    observation_keys := [["obs"]]
    state_keys := [["extra"]] }

/-- A batch matching `envC1`'s expected key set exactly (triggers the
fast precomputed path of `_StepMDP.__call__`). -/
def tdC1fast : TD := .node [
  ("extra", .leaf (.i 5)),
  ("action", .leaf (.i 2)),
  ("done", .leaf (.b false)),
  ("obs", .leaf (.i 0)),
  ("next", .node [("obs", .leaf (.i 1)), ("done", .leaf (.b false)),
                  ("reward", .leaf (.i 3))])]

/-- The `"next"` sub-batch entries shared by both witness batches. -/
def nesC1 : List (Key × TD) :=
  [("obs", .leaf (.i 1)), ("done", .leaf (.b false)),
   ("reward", .leaf (.i 3))]

/-- The same batch with an extra unexpected key, so the key-set
validation fails and `__call__` takes the generic fallback path. -/
def tdC1slow : TD := .node [
  ("junk", .leaf (.i 9)),
  ("extra", .leaf (.i 5)),
  ("action", .leaf (.i 2)),
  ("done", .leaf (.b false)),
  ("obs", .leaf (.i 0)),
  ("next", .node [("obs", .leaf (.i 1)), ("done", .leaf (.b false)),
                  ("reward", .leaf (.i 3))])]

/-- Witness for C1 at concrete inputs: one batch whose key set validates
(fast path) and one carrying an extra unexpected key (fallback path). -/
theorem stepMDP_call_refines_step_mdp_witness :
    (TD.wfB tdC1fast = true ∧ wfEnvB envC1 = true ∧ TD.wfB tdC1slow = true)
    ∧ (∃ outF outS,
      (StepMDP.call (StepMDP.init envC1 true true false true) none
        tdC1fast).1 = some outF
      ∧ step_mdp tdC1fast true true false true envC1.reward_keys
          envC1.done_keys envC1.action_keys = some outS
      ∧ ∀ p, outF.leafGet p = outS.leafGet p)
    ∧ (∃ outF outS,
      (StepMDP.call (StepMDP.init envC1 true true false true) none
        tdC1slow).1 = some outF
      ∧ step_mdp tdC1slow true true false true envC1.reward_keys
          envC1.done_keys envC1.action_keys = some outS
      ∧ ∀ p, outF.leafGet p = outS.leafGet p) :=
  ⟨⟨by decide, by decide, by decide⟩,
   stepMDP_call_refines_step_mdp envC1 true true false true tdC1fast nesC1
     (by decide) rfl (by decide),
   stepMDP_call_refines_step_mdp envC1 true true false true tdC1slow nesC1
     (by decide) rfl (by decide)⟩

end TorchRL
